import Mathlib

set_option maxHeartbeats 1600000

/-!
Verification of the tidydag orchestration engine.

The definitions below are a shallow embedding of the repository's source:
* `src/tidydag/node/base.py` (Node, NodeState, OrchestratorContext),
* `src/tidydag/orchestrator/__init__.py` (Orchestrator), and
* the standard library `graphlib.TopologicalSorter` that the orchestrator
  instantiates (Python 3.11 `graphlib.py`), since the orchestrator's control
  flow depends on its exact behavior (`__bool__` delegates to `is_active`,
  `prepare` raises `CycleError`, `get_ready`/`done` bookkeeping).

Python node objects are represented by natural-number keys.  A node's
`execute` body is opaque business logic, so it is modelled by a fixed
observable outcome per node (`NodeBehavior`): returning a `NodeState`, or
letting an exception escape (`throws`).  The asyncio scheduling of
`Orchestrator.run` is modelled by a small-step relation driven by an explicit
schedule (`Act` list): one `poll` step is one atomic resumption of the
`iterate` generator (its code between two suspension points runs without
interleaving), `taskStart` is the synchronous prefix of `_visit` up to the
`await node.execute(...)` (the checkpoint-skip test), `taskFinish` is the
synchronous suffix of `_visit` after `execute` resolves, and `taskCancel` is
the cancellation of an in-flight sibling after a `TaskGroup` abort.
-/

namespace Tidydag

/-! ### Node model (src/tidydag/node/base.py) -/

/-- `NodeState`: the result of a node execution (`success`, optional `reason`). -/
structure NodeState where
  success : Bool
  reason : Option String := none
deriving DecidableEq, Repr

/-- `SuccessState()`: success with no reason. -/
def SuccessState : NodeState := { success := true }

/-- `ErrorState(reason)`: failure with the given reason. -/
def ErrorState (reason : String) : NodeState := { success := false, reason := some reason }

/-- `OrchestratorMetadata`: the checkpoint ledger, a set of node identities.
A Python `set[int]` is represented as a duplicate-free list; `set.add` is
`List.insert`. -/
structure OrchestratorMetadata where
  executed : List Nat := []
deriving DecidableEq, Repr

/-- `OrchestratorContext`: caller state, injected deps and the metadata. -/
structure OrchestratorContext (σ δ : Type) where
  state : σ
  deps : δ
  metadata : OrchestratorMetadata := {}

/-! ### Python values reaching `Node._verify_parents` (src/tidydag/node/base.py)

`_verify_parents` receives an arbitrary Python object.  The value universe
below covers the shapes the function discriminates on: `None`, `Node`
instances, `str`, `bytes`, non-iterable values (represented by `int`), and
other iterables (lists/tuples/sets, represented by `vIter`). -/

inductive PyValue where
  | vNone
  | vNode (ref : Nat)
  | vStr (s : String)
  | vBytes (bs : List Nat)
  | vInt (n : Int)
  | vIter (elems : List PyValue)

/-- `isinstance(v, Node)` -/
def isNodeVal : PyValue → Bool
  | .vNode _ => true
  | _ => false

/-- `isinstance(v, Iterable)`: lists/tuples/sets, and also `str` and `bytes`. -/
def isIterableVal : PyValue → Bool
  | .vStr _ => true
  | .vBytes _ => true
  | .vIter _ => true
  | _ => false

/-- `isinstance(v, (str, bytes))` -/
def isStrOrBytes : PyValue → Bool
  | .vStr _ => true
  | .vBytes _ => true
  | _ => false

/-- `v is None` -/
def isNoneVal : PyValue → Bool
  | .vNone => true
  | _ => false

/-- `tuple(v)` for an iterable `v`: the sequence of its elements (iterating a
`str` yields its one-character strings, iterating `bytes` yields ints). -/
def iterElems : PyValue → List PyValue
  | .vStr s => s.data.map (fun c => .vStr (String.mk [c]))
  | .vBytes bs => bs.map .vInt
  | .vIter xs => xs
  | _ => []

/-- `Node._verify_parents` (base.py lines 82-90): `None` becomes the empty
tuple, a `Node` becomes a singleton tuple, any iterable other than `str` and
`bytes` is converted to a tuple of its elements (elements are not inspected),
and anything else raises `ValueError("Parents must be a Node or Iterable")`. -/
def verifyParents (parents : PyValue) : Except String (List PyValue) :=
  if isNoneVal parents then .ok []
  else if isNodeVal parents then .ok [parents]
  else if isIterableVal parents && !isStrOrBytes parents then .ok (iterElems parents)
  else .error "Parents must be a Node or Iterable"

/-! ### graphlib.TopologicalSorter (Python 3.11 graphlib.py)

`_node2info` is an insertion-ordered dict from node keys to `_NodeInfo`;
it is represented by an association list.  `npredecessors` uses the source's
integer sentinels: `_NODE_OUT = -1`, `_NODE_DONE = -2`. -/

/-- `_NodeInfo`: predecessor count (with the -1 and -2 sentinels) and
successor list (which may contain duplicates). -/
structure NodeInfo where
  npredecessors : Int := 0
  successors : List Nat := []
deriving DecidableEq, Repr

/-- The `_node2info` dict: association list in insertion order. -/
abbrev InfoMap := List (Nat × NodeInfo)

/-- `self._node2info.get(node)` -/
def infoFind (l : InfoMap) (k : Nat) : Option NodeInfo :=
  (l.find? (fun p => p.1 == k)).map Prod.snd

/-- In-place mutation of the info record stored under key `k`. -/
def infoUpdate (l : InfoMap) (k : Nat) (f : NodeInfo → NodeInfo) : InfoMap :=
  l.map (fun p => if p.1 == k then (p.1, f p.2) else p)

/-- `_get_nodeinfo`: return the map, extended with a fresh zero record for `k`
if `k` is absent (dict insertion appends). -/
def getNodeinfo (l : InfoMap) (k : Nat) : InfoMap :=
  if (infoFind l k).isSome then l else l ++ [(k, ⟨0, []⟩)]

/-- `TopologicalSorter.add(node, *predecessors)`: bump the node's predecessor
count by the number of predecessors passed, and append the node to each
predecessor's successor list (auto-creating records). -/
def sorterAdd (l : InfoMap) (node : Nat) (preds : List Nat) : InfoMap :=
  let l1 := getNodeinfo l node
  let l2 := infoUpdate l1 node
    (fun i => { i with npredecessors := i.npredecessors + preds.length })
  preds.foldl
    (fun acc p =>
      infoUpdate (getNodeinfo acc p) p
        (fun i => { i with successors := i.successors ++ [node] }))
    l2

/-- A registration sequence: for each `Orchestrator.add_node(node)` call in
order, the node's key and its `node.parents` keys
(`self.sorter.add(node, *node.parents)`). -/
abbrev Reg := List (Nat × List Nat)

/-- The info map built by the orchestrator's `add_node` calls. -/
def registerAll (reg : Reg) : InfoMap :=
  reg.foldl (fun l e => sorterAdd l e.1 e.2) []

/-- Successor list of a key (empty if absent, matching a fresh record). -/
def succsOf (l : InfoMap) (k : Nat) : List Nat :=
  ((infoFind l k).map NodeInfo.successors).getD []

/-- The slice of the DFS stack from the re-encountered node up to the top
(`stack[node2stacki[node]:]` in the source, with our stack stored
top-first). -/
def stackPrefixTo (st : List (Nat × List Nat)) (n : Nat) : List Nat :=
  match st with
  | [] => []
  | (u, _) :: rest => if u == n then [u] else u :: stackPrefixTo rest n

/-- `TopologicalSorter._find_cycle`, an iterative DFS.  The stack is stored
top-first; each entry carries the not-yet-consumed suffix of its successor
iterator.  `cur = some v` is the state in which the inner `while True` is
about to process node `v`; `cur = none` is the backtracking phase that pops
exhausted iterators and draws the next successor (or the next dict key from
`rest` once the stack is empty).  Fuel only bounds the recursion; it is chosen
large enough for every concrete input considered below and exhausting it
returns `none` (no cycle reported). -/
def findCycleAux (succs : Nat → List Nat) :
    Nat → List Nat → List (Nat × List Nat) → Option Nat → List Nat → Option (List Nat)
  | 0, _, _, _, _ => none
  | f + 1, seen, stack, some node, rest =>
    if node ∈ seen then
      if node ∈ stack.map Prod.fst then
        some ((stackPrefixTo stack node).reverse ++ [node])
      else
        findCycleAux succs f seen stack none rest
    else
      findCycleAux succs f (node :: seen) ((node, succs node) :: stack) none rest
  | f + 1, seen, stack, none, rest =>
    match stack with
    | [] =>
      match rest with
      | [] => none
      | r :: rs => findCycleAux succs f seen [] (some r) rs
    | (u, ss) :: st =>
      match ss with
      | [] => findCycleAux succs f seen st none rest
      | v :: ss' => findCycleAux succs f seen ((u, ss') :: st) (some v) rest

/-- `_find_cycle` on an info map: DFS over the dict keys in order. -/
def findCycle (l : InfoMap) : Option (List Nat) :=
  let fuel := 4 * l.length + 2 * (l.map (fun p => p.2.successors.length)).sum + 4
  findCycleAux (fun k => succsOf l k) fuel [] [] none (l.map Prod.fst)

/-- The prepared sorter: info map, `_ready_nodes`, `_npassedout`,
`_nfinished`. -/
structure Sorter where
  info : InfoMap
  readyNodes : List Nat
  npassedout : Nat
  nfinished : Nat
deriving DecidableEq, Repr

/-- `TopologicalSorter.prepare()`: compute the initially ready nodes and
raise `CycleError` (carrying a witness cycle) if a cycle is found. -/
def prepareInfo (l : InfoMap) : Except (List Nat) Sorter :=
  let ready := (l.filter (fun p => p.2.npredecessors == 0)).map Prod.fst
  match findCycle l with
  | some cyc => .error cyc
  | none => .ok ⟨l, ready, 0, 0⟩

/-- `TopologicalSorter.get_ready()`: return the ready tuple, mark each of its
nodes `_NODE_OUT`, clear the ready list and bump `_npassedout`. -/
def getReady (s : Sorter) : List Nat × Sorter :=
  let result := s.readyNodes
  let info := result.foldl (fun l n => infoUpdate l n (fun i => { i with npredecessors := -1 })) s.info
  (result, ⟨info, [], s.npassedout + result.length, s.nfinished⟩)

/-- One iteration of `done`'s successor loop: decrement the successor's
predecessor count and collect it for the ready list if its count reached
zero. -/
def doneStep (acc : InfoMap × List Nat) (succ : Nat) : InfoMap × List Nat :=
  let info1 := infoUpdate acc.1 succ
    (fun i => { i with npredecessors := i.npredecessors - 1 })
  match infoFind info1 succ with
  | some si => if si.npredecessors == 0 then (info1, acc.2 ++ [succ]) else (info1, acc.2)
  | none => (info1, acc.2)

/-- `TopologicalSorter.done(node)`: mark the node `_NODE_DONE`, decrement each
successor occurrence, appending successors whose count reaches zero to the
ready list, and bump `_nfinished`.  The source raises `ValueError` on misuse
(unknown node or a node not currently `_NODE_OUT`); the orchestrator never
triggers those branches, which here leave the sorter unchanged. -/
def sorterDone (s : Sorter) (node : Nat) : Sorter :=
  match infoFind s.info node with
  | none => s
  | some ni =>
    if ni.npredecessors ≠ -1 then s
    else
      let info0 := infoUpdate s.info node (fun i => { i with npredecessors := -2 })
      let folded := ni.successors.foldl doneStep (info0, [])
      ⟨folded.1, s.readyNodes ++ folded.2, s.npassedout, s.nfinished + 1⟩

/-- `TopologicalSorter.is_active()` (also `__bool__`). -/
def isActive (s : Sorter) : Bool :=
  decide (s.nfinished < s.npassedout) || !s.readyNodes.isEmpty

/-! ### The orchestrator driver (src/tidydag/orchestrator/__init__.py) -/

/-- The observable outcome of a node's opaque `execute` body: it resolves to a
`NodeState`, or an exception escapes it. -/
inductive NodeBehavior where
  | returns (st : NodeState)
  | throws (msg : String)
deriving DecidableEq, Repr

/-- Phase of a `_visit` task spawned by `tg.create_task`:
`spawned` (created, not yet run), `executing` (suspended in
`await node.execute(...)`), `finished` (`_visit` returned), `cancelled`
(killed by the TaskGroup abort before completing), `crashed` (`execute`
raised and the exception escaped `_visit`). -/
inductive TaskPhase where
  | spawned
  | executing
  | finished
  | cancelled
  | crashed
deriving DecidableEq, Repr

/-- One `_visit(node)` task: the node's key, the run-scoped identity the
driver assigned it (`node.id = id`), the index of the ready batch that
dispatched it, its phase, and whether `execute` was actually invoked
(false on the checkpoint-skip path). -/
structure Task where
  node : Nat
  id : Nat
  batch : Nat
  phase : TaskPhase
  invoked : Bool
deriving DecidableEq, Repr

/-- The run-time state of one `Orchestrator.run` call: the sorter, the
context's `metadata.executed` ledger, the `stop` flag, the execution record
(`success`, `reason`, `last_node`), `id_counter`, the spawned tasks, whether
the `iterate` generator is still being driven (`driverActive`), and whether a
TaskGroup abort happened (`aborted`).  `batchCount` counts dispatched
batches. -/
structure RunState where
  sorter : Sorter
  executed : List Nat
  stop : Bool
  success : Bool
  reason : Option String
  lastNode : Option Nat
  idCounter : Nat
  tasks : List Task
  driverActive : Bool
  aborted : Bool
  batchCount : Nat
deriving DecidableEq, Repr

/-- Scheduler actions: one resumption of the `iterate` generator (`poll`); the
first run of task `i` up to the `execute` await (`taskStart`); the resumption
of task `i` when its `execute` resolves (`taskFinish`); cancellation of task
`i` after an abort (`taskCancel`). -/
inductive Act where
  | poll
  | taskStart (i : Nat)
  | taskFinish (i : Nat)
  | taskCancel (i : Nat)
deriving DecidableEq, Repr

/-- Build the batch of tasks for a ready group: sequential identities
`base+1, base+2, ...` in group order (`self.id_counter += 1` per node). -/
def mkTasks (ready : List Nat) (base : Nat) (batch : Nat) : List Task :=
  match ready with
  | [] => []
  | n :: rest => ⟨n, base + 1, batch, .spawned, false⟩ :: mkTasks rest (base + 1) batch

/-- One resumption of the `iterate` generator (lines 63-80): check
`while self.sorter and not self.stop` (i.e. `is_active() and not stop`); call
`get_ready()`; if the group is empty, sleep; otherwise assign identities,
yield the batch, and let `run` spawn one `_visit` task per node.  Everything
up to the next `await asyncio.sleep` is synchronous, hence one atomic step.
When the loop condition fails the generator returns and the `async for`
ends. -/
def stepPoll (c : RunState) : RunState :=
  if !c.driverActive then c
  else if !(isActive c.sorter && !c.stop) then { c with driverActive := false }
  else
    let r := getReady c.sorter
    if r.1.isEmpty then { c with sorter := r.2 }
    else
      { c with
        sorter := r.2
        idCounter := c.idCounter + r.1.length
        tasks := c.tasks ++ mkTasks r.1 c.idCounter c.batchCount
        batchCount := c.batchCount + 1 }

/-- The synchronous prefix of `_visit` (lines 109-113): if the node's identity
is already checkpointed, mark it done in the sorter and return; otherwise
enter `await node.execute(self.ctx)`.  Tasks never start after a TaskGroup
abort (they are cancelled before their first run). -/
def stepStart (c : RunState) (i : Nat) : RunState :=
  match c.tasks.get? i with
  | none => c
  | some t =>
    if t.phase = .spawned ∧ c.aborted = false then
      if t.id ∈ c.executed then
        { c with
          sorter := sorterDone c.sorter t.node
          tasks := c.tasks.set i { t with phase := .finished } }
      else
        { c with tasks := c.tasks.set i { t with phase := .executing, invoked := true } }
    else c

/-- The synchronous suffix of `_visit` (lines 113-125) once `execute`
resolves.  On `Success`: `_checkpoint` adds the identity to
`metadata.executed`.  On `Error`: set the stop flag, `success = False` and the
reason.  Both branches then set `last_node` and mark the node done in the
sorter.  If the body raises instead, the exception escapes `_visit`: the task
crashes, the TaskGroup aborts and cancels the parent, so the driver draws no
further batches; nothing is recorded and the node is not marked done. -/
def stepFinish (beh : Nat → NodeBehavior) (c : RunState) (i : Nat) : RunState :=
  match c.tasks.get? i with
  | none => c
  | some t =>
    if t.phase = .executing then
      match beh t.node with
      | .returns st =>
        let c1 :=
          if st.success then
            { c with executed := c.executed.insert t.id }
          else
            { c with stop := true, success := false, reason := st.reason }
        { c1 with
          lastNode := some t.node
          sorter := sorterDone c1.sorter t.node
          tasks := c.tasks.set i { t with phase := .finished } }
      | .throws _ =>
        { c with
          aborted := true
          driverActive := false
          tasks := c.tasks.set i { t with phase := .crashed } }
    else c

/-- Cancellation of a task by the TaskGroup abort: only possible after an
abort, and only for tasks that have not completed. -/
def stepCancel (c : RunState) (i : Nat) : RunState :=
  match c.tasks.get? i with
  | none => c
  | some t =>
    if c.aborted = true ∧ (t.phase = .spawned ∨ t.phase = .executing) then
      { c with tasks := c.tasks.set i { t with phase := .cancelled } }
    else c

/-- One scheduler step. -/
def step (beh : Nat → NodeBehavior) (c : RunState) : Act → RunState
  | .poll => stepPoll c
  | .taskStart i => stepStart c i
  | .taskFinish i => stepFinish beh c i
  | .taskCancel i => stepCancel c i

/-- Run a schedule. -/
def runSteps (beh : Nat → NodeBehavior) (c : RunState) (acts : List Act) : RunState :=
  acts.foldl (step beh) c

/-- The initial run state after a successful `prepare`. -/
def initState (s : Sorter) (executed0 : List Nat) : RunState :=
  ⟨s, executed0, false, true, none, none, 0, [], true, false, 0⟩

/-- `Orchestrator.run` up to the returned execution record, as a state trace:
register the graph, `prepare()` it (first resumption of `iterate`), then run
the scheduler.  If `prepare` raises `CycleError`, the exception propagates out
of the `async with asyncio.TaskGroup()` body, is wrapped into an
`ExceptionGroup` by `TaskGroup.__aexit__`, and is caught (and merely printed)
by the `except* Exception` handler; no task was created, and `run` returns the
already-initialized execution record untouched — that terminal state is the
second branch. -/
def runTrace (reg : Reg) (executed0 : List Nat) (beh : Nat → NodeBehavior)
    (acts : List Act) : RunState :=
  match prepareInfo (registerAll reg) with
  | .ok s => runSteps beh (initState s executed0) acts
  | .error _ => ⟨⟨registerAll reg, [], 0, 0⟩, executed0, false, true, none, none, 0, [], false, false, 0⟩

/-- `run` has returned: the `async for` has ended and the TaskGroup has
awaited every spawned task (each `_visit` task has either completed or been
cancelled by an abort). -/
def Complete (c : RunState) : Prop :=
  c.driverActive = false ∧ ∀ t ∈ c.tasks, t.phase = .finished ∨ t.phase = .cancelled ∨ t.phase = .crashed

instance (c : RunState) : Decidable (Complete c) := by
  unfold Complete; infer_instance

/-- `OrchestratorExecution`: the returned execution record (the `ctx` field of
the dataclass, plus `success`, `reason`, `last_node`; the node reference is
represented by its key). -/
structure OrchestratorExecution (σ δ : Type) where
  ctx : OrchestratorContext σ δ
  success : Bool
  reason : Option String := none
  lastNode : Option Nat := none

/-- `Orchestrator.run(state, deps)` for an orchestrator constructed with
`ctx0` (the constructor's `ctx` argument): if no context was supplied, build
`OrchestratorContext(state=state, deps=deps)`; otherwise the arguments are
unused.  The execution record is created with `success=True`, the scheduler
runs, and the record (holding the mutated context) is returned. -/
def orchestratorRun {σ δ : Type} (reg : Reg) (beh : Nat → NodeBehavior)
    (ctx0 : Option (OrchestratorContext σ δ)) (state : σ) (deps : δ)
    (acts : List Act) : OrchestratorExecution σ δ :=
  let ctx := ctx0.getD ⟨state, deps, {}⟩
  let f := runTrace reg ctx.metadata.executed beh acts
  ⟨{ ctx with metadata := ⟨f.executed⟩ }, f.success, f.reason, f.lastNode⟩

end Tidydag

namespace Tidydag

/-! ### Basic facts about the info map operations -/

/-- Keys of the info map, in dict insertion order. -/
def imKeys (l : InfoMap) : List Nat := l.map Prod.fst

/-- The predecessor count stored under `k` (0 for an absent key, matching the
fresh record `_get_nodeinfo` would create). -/
def npredsOf (l : InfoMap) (k : Nat) : Int :=
  ((infoFind l k).map NodeInfo.npredecessors).getD 0

/-- The parents a registration sequence declares for `u` (empty when `u` was
only auto-added as a predecessor). -/
def parentsOf (reg : Reg) (u : Nat) : List Nat := (reg.lookup u).getD []

/-- The predecessor-append step used inside `sorterAdd`'s fold. -/
def addSuccStep (node : Nat) (acc : InfoMap) (p : Nat) : InfoMap :=
  infoUpdate (getNodeinfo acc p) p
    (fun i => { i with successors := i.successors ++ [node] })

/-- Total predecessor count contributed to `u` by the registration sequence. -/
def regPredSum (reg : Reg) (u : Nat) : Nat :=
  (reg.map (fun e => if e.1 = u then e.2.length else 0)).sum

/-- Number of times `v` is appended to `u`'s successor list by the
registration sequence. -/
def regSuccCount (reg : Reg) (v u : Nat) : Nat :=
  (reg.map (fun e => if e.1 = v then e.2.count u else 0)).sum

/-- Acyclicity of a registered graph, witnessed by a topological rank: every
declared parent has strictly smaller rank than its child. -/
def Ranked (reg : Reg) : Prop :=
  ∃ rank : Nat → Nat, ∀ e ∈ reg, ∀ p ∈ e.2, rank p < rank e.1

/-- The observable classification of a node's behavior: `execute` resolves to
a success state. -/
def behSuccess (beh : Nat → NodeBehavior) (u : Nat) : Bool :=
  match beh u with
  | .returns st => st.success
  | .throws _ => false

/-- `execute` resolves to an error state. -/
def behFails (beh : Nat → NodeBehavior) (u : Nat) : Bool :=
  match beh u with
  | .returns st => !st.success
  | .throws _ => false

/-- an exception escapes `execute`. -/
def behRaises (beh : Nat → NodeBehavior) (u : Nat) : Bool :=
  match beh u with
  | .returns _ => false
  | .throws _ => true

/-- The reason carried by the state `execute` resolves to (none if it raises). -/
def behReason (beh : Nat → NodeBehavior) (u : Nat) : Option String :=
  match beh u with
  | .returns st => st.reason
  | .throws _ => none

/-- The node's `_visit` task has completed (that is exactly when `done(node)`
has been called on the tracker for it). -/
def doneTasks (ts : List Task) (u : Nat) : Bool :=
  ts.any (fun t => t.node == u && t.phase == TaskPhase.finished)

/-- Number of parent occurrences of `u` whose node is not yet done. -/
def pendCount (reg : Reg) (ts : List Task) (u : Nat) : Nat :=
  ((parentsOf reg u).filter (fun p => !doneTasks ts p)).length

/-- The states reachable by `Orchestrator.run` after a successful `prepare`:
everything the claim proofs need about the sorter bookkeeping, the task list,
the checkpoint ledger and the execution record. -/
structure Inv (reg : Reg) (beh : Nat → NodeBehavior) (e0 : List Nat)
    (c : RunState) : Prop where
  keysEq : imKeys c.sorter.info = imKeys (registerAll reg)
  succsEq : ∀ u, succsOf c.sorter.info u = succsOf (registerAll reg) u
  nodesNodup : (c.tasks.map Task.node).Nodup
  idsEq : c.tasks.map Task.id = List.range' 1 c.tasks.length
  counterEq : c.idCounter = c.tasks.length
  passedEq : c.sorter.npassedout = c.tasks.length
  finishedEq : c.sorter.nfinished
      = (c.tasks.filter (fun t => t.phase == TaskPhase.finished)).length
  taskKeys : ∀ t ∈ c.tasks, t.node ∈ imKeys (registerAll reg)
  statusPending : ∀ u ∈ imKeys (registerAll reg), (∀ t ∈ c.tasks, t.node ≠ u) →
      npredsOf c.sorter.info u = (pendCount reg c.tasks u : Int)
  statusOut : ∀ t ∈ c.tasks, t.phase ≠ .finished → npredsOf c.sorter.info t.node = -1
  statusDone : ∀ t ∈ c.tasks, t.phase = .finished → npredsOf c.sorter.info t.node = -2
  readyChar : ∀ u, u ∈ c.sorter.readyNodes ↔
      (u ∈ imKeys (registerAll reg) ∧ (∀ t ∈ c.tasks, t.node ≠ u)
        ∧ pendCount reg c.tasks u = 0)
  readyNodup : c.sorter.readyNodes.Nodup
  executedChar : ∀ i, i ∈ c.executed ↔ (i ∈ e0 ∨ ∃ t ∈ c.tasks,
      t.phase = .finished ∧ t.invoked = true ∧ behSuccess beh t.node = true ∧ t.id = i)
  executedNodup : c.executed.Nodup
  stopChar : c.stop = true ↔ ∃ t ∈ c.tasks,
      t.phase = .finished ∧ t.invoked = true ∧ behFails beh t.node = true
  successEq : c.success = !c.stop
  abortedChar : c.aborted = true ↔ ∃ t ∈ c.tasks, t.phase = .crashed
  abortedDriver : c.aborted = true → c.driverActive = false
  crashedThrows : ∀ t ∈ c.tasks, t.phase = .crashed → behRaises beh t.node = true
  spawnedNotInvoked : ∀ t ∈ c.tasks, t.phase = .spawned → t.invoked = false
  executingInvoked : ∀ t ∈ c.tasks, t.phase = .executing → t.invoked = true
  crashedInvoked : ∀ t ∈ c.tasks, t.phase = .crashed → t.invoked = true
  finishedSkip : ∀ t ∈ c.tasks, t.phase = .finished → t.invoked = false → t.id ∈ c.executed
  finishedReturns : ∀ t ∈ c.tasks, t.phase = .finished → t.invoked = true →
      behRaises beh t.node = false
  invokedFresh : ∀ t ∈ c.tasks, t.invoked = true → t.id ∉ e0
  cancelledAborted : ∀ t ∈ c.tasks, t.phase = .cancelled → c.aborted = true
  driverExit : c.driverActive = false →
      (c.aborted = true ∨ c.stop = true ∨ isActive c.sorter = false)
  lastNodeSet : (∃ t ∈ c.tasks, t.phase = .finished ∧ t.invoked = true) →
      ∃ u, c.lastNode = some u
  stopReason : c.stop = true → ∃ t ∈ c.tasks, t.phase = .finished ∧ t.invoked = true
      ∧ behFails beh t.node = true ∧ c.reason = behReason beh t.node
  parentsOK : ∀ t ∈ c.tasks, ∀ p ∈ parentsOf reg t.node, ∃ tp ∈ c.tasks,
      tp.node = p ∧ tp.phase = .finished ∧ ¬(tp.invoked = true ∧ behFails beh p = true)

theorem imKeys_infoUpdate (l : InfoMap) (k : Nat) (f : NodeInfo → NodeInfo) :
    imKeys (infoUpdate l k f) = imKeys l := by
  induction l with
  | nil => rfl
  | cons p l ih =>
    have h1 : (if (p.1 == k) = true then (p.1, f p.2) else p).1 = p.1 := by
      by_cases h : p.1 = k <;> simp [h]
    simp only [infoUpdate, imKeys, List.map_cons] at ih ⊢
    rw [h1, ih]

theorem infoFind_infoUpdate (l : InfoMap) (k k' : Nat) (f : NodeInfo → NodeInfo) :
    infoFind (infoUpdate l k f) k' =
      if k' = k then (infoFind l k).map f else infoFind l k' := by
  induction l with
  | nil => by_cases h : k' = k <;> simp [infoFind, infoUpdate, h]
  | cons p l ih =>
    have hhead : infoUpdate (p :: l) k f
        = (if (p.1 == k) = true then (p.1, f p.2) else p) :: infoUpdate l k f := rfl
    by_cases hpk : p.1 = k
    · by_cases hk' : k' = k
      · subst hk'
        rw [hhead, if_pos (by simpa using hpk)]
        unfold infoFind
        rw [List.find?_cons_of_pos _ (by simpa using hpk),
            List.find?_cons_of_pos _ (by simpa using hpk), if_pos rfl]
        simp
      · have hne : ¬p.1 = k' := by
          intro h; exact hk' (h ▸ hpk)
        rw [hhead, if_pos (by simpa using hpk), if_neg hk']
        unfold infoFind
        rw [List.find?_cons_of_neg _ (by simpa using hne),
            List.find?_cons_of_neg _ (by simpa using hne)]
        have := ih
        unfold infoFind at this
        rw [if_neg hk'] at this
        exact this
    · rw [hhead, if_neg (by simpa using hpk)]
      by_cases hk' : k' = k
      · subst hk'
        rw [if_pos rfl]
        unfold infoFind
        rw [List.find?_cons_of_neg _ (by simpa using hpk),
            List.find?_cons_of_neg _ (by simpa using hpk)]
        have := ih
        unfold infoFind at this
        rw [if_pos rfl] at this
        exact this
      · rw [if_neg hk']
        unfold infoFind
        by_cases hpk' : p.1 = k'
        · rw [List.find?_cons_of_pos _ (by simpa using hpk'),
              List.find?_cons_of_pos _ (by simpa using hpk')]
        · rw [List.find?_cons_of_neg _ (by simpa using hpk'),
              List.find?_cons_of_neg _ (by simpa using hpk')]
          have := ih
          unfold infoFind at this
          rw [if_neg hk'] at this
          exact this

theorem infoFind_getNodeinfo_same (l : InfoMap) (k : Nat) :
    infoFind (getNodeinfo l k) k = some ((infoFind l k).getD ⟨0, []⟩) := by
  unfold getNodeinfo
  cases h : infoFind l k with
  | some v => simp [h]
  | none =>
    simp only [h, Option.isSome_none, Bool.false_eq_true, if_false, Option.getD_none]
    unfold infoFind at h ⊢
    rw [List.find?_append]
    have h2 : List.find? (fun p => p.1 == k) l = none := by
      rcases h' : List.find? (fun p => p.1 == k) l with _ | v
      · exact h'
      · rw [h'] at h; simp at h
    rw [h2, List.find?_cons_of_pos _ (by simp)]
    simp

theorem infoFind_getNodeinfo_other (l : InfoMap) (k k' : Nat) (h : k' ≠ k) :
    infoFind (getNodeinfo l k) k' = infoFind l k' := by
  unfold getNodeinfo
  cases hf : (infoFind l k).isSome
  · simp only [Bool.false_eq_true, if_false]
    unfold infoFind
    rw [List.find?_append]
    have h2 : List.find? (fun p => p.1 == k') [(k, (⟨0, []⟩ : NodeInfo))] = none := by
      have hk : ¬(k, (⟨0, []⟩ : NodeInfo)).1 = k' := fun hh => h hh.symm
      rw [List.find?_cons_of_neg _ (by simpa using hk)]
      rfl
    rw [h2]
    simp
  · simp [hf]

theorem imKeys_getNodeinfo (l : InfoMap) (k : Nat) :
    imKeys (getNodeinfo l k) = imKeys l ++ (if (infoFind l k).isSome then [] else [k]) := by
  unfold getNodeinfo
  cases hf : (infoFind l k).isSome <;> simp [hf, imKeys]

end Tidydag

namespace Tidydag

theorem npredsOf_getNodeinfo (l : InfoMap) (k k' : Nat) :
    npredsOf (getNodeinfo l k) k' = npredsOf l k' := by
  by_cases h : k' = k
  · subst h
    rw [npredsOf, infoFind_getNodeinfo_same]
    cases hf : infoFind l k' <;> simp [npredsOf, hf]
  · rw [npredsOf, infoFind_getNodeinfo_other l k k' h, npredsOf]

theorem succsOf_getNodeinfo (l : InfoMap) (k k' : Nat) :
    succsOf (getNodeinfo l k) k' = succsOf l k' := by
  by_cases h : k' = k
  · subst h
    rw [succsOf, infoFind_getNodeinfo_same]
    cases hf : infoFind l k' <;> simp [succsOf, hf]
  · rw [succsOf, infoFind_getNodeinfo_other l k k' h, succsOf]

theorem npredsOf_update_bump (l : InfoMap) (k : Nat) (n : Int) (k' : Nat) :
    npredsOf (infoUpdate (getNodeinfo l k) k
        (fun i => { i with npredecessors := i.npredecessors + n })) k'
      = npredsOf l k' + (if k' = k then n else 0) := by
  rw [npredsOf, infoFind_infoUpdate]
  by_cases h : k' = k
  · subst h
    rw [if_pos rfl, if_pos rfl, infoFind_getNodeinfo_same]
    cases hf : infoFind l k' <;> simp [npredsOf, hf]
  · rw [if_neg h, if_neg h, infoFind_getNodeinfo_other l k k' h, npredsOf, add_zero]

theorem succsOf_update_bump (l : InfoMap) (k : Nat) (n : Int) (k' : Nat) :
    succsOf (infoUpdate (getNodeinfo l k) k
        (fun i => { i with npredecessors := i.npredecessors + n })) k'
      = succsOf l k' := by
  rw [succsOf, infoFind_infoUpdate]
  by_cases h : k' = k
  · subst h
    rw [if_pos rfl, infoFind_getNodeinfo_same]
    cases hf : infoFind l k' <;> simp [succsOf, hf]
  · rw [if_neg h, infoFind_getNodeinfo_other l k k' h, succsOf]

theorem sorterAdd_eq_fold (l : InfoMap) (node : Nat) (preds : List Nat) :
    sorterAdd l node preds =
      preds.foldl (addSuccStep node)
        (infoUpdate (getNodeinfo l node)
          node (fun i => { i with npredecessors := i.npredecessors + preds.length })) := rfl

theorem succsOf_addSuccStep (node : Nat) (acc : InfoMap) (p k' : Nat) :
    succsOf (addSuccStep node acc p) k'
      = succsOf acc k' ++ (if k' = p then [node] else []) := by
  rw [addSuccStep, succsOf, infoFind_infoUpdate]
  by_cases h : k' = p
  · subst h
    rw [if_pos rfl, if_pos rfl, infoFind_getNodeinfo_same]
    cases hf : infoFind acc k' <;> simp [succsOf, hf]
  · rw [if_neg h, if_neg h, infoFind_getNodeinfo_other acc p k' h, succsOf, List.append_nil]

theorem npredsOf_addSuccStep (node : Nat) (acc : InfoMap) (p k' : Nat) :
    npredsOf (addSuccStep node acc p) k' = npredsOf acc k' := by
  rw [addSuccStep, npredsOf, infoFind_infoUpdate]
  by_cases h : k' = p
  · subst h
    rw [if_pos rfl, infoFind_getNodeinfo_same]
    cases hf : infoFind acc k' <;> simp [npredsOf, hf]
  · rw [if_neg h, infoFind_getNodeinfo_other acc p k' h, npredsOf]

theorem succsOf_addFold (node : Nat) (preds : List Nat) (l : InfoMap) (k' : Nat) :
    succsOf (preds.foldl (addSuccStep node) l) k'
      = succsOf l k' ++ List.replicate (preds.count k') node := by
  induction preds generalizing l with
  | nil => simp
  | cons p ps ih =>
    rw [List.foldl_cons, ih, succsOf_addSuccStep]
    by_cases h : k' = p
    · subst h
      rw [if_pos rfl, List.count_cons_self, List.append_assoc]
      congr 1
    · rw [if_neg h, List.count_cons_of_ne (by simpa using h), List.append_nil]

theorem npredsOf_addFold (node : Nat) (preds : List Nat) (l : InfoMap) (k' : Nat) :
    npredsOf (preds.foldl (addSuccStep node) l) k' = npredsOf l k' := by
  induction preds generalizing l with
  | nil => rfl
  | cons p ps ih => rw [List.foldl_cons, ih, npredsOf_addSuccStep]

theorem npredsOf_sorterAdd (l : InfoMap) (node : Nat) (preds : List Nat) (k' : Nat) :
    npredsOf (sorterAdd l node preds) k'
      = npredsOf l k' + (if k' = node then (preds.length : Int) else 0) := by
  rw [sorterAdd_eq_fold, npredsOf_addFold, npredsOf_update_bump]

theorem succsOf_sorterAdd (l : InfoMap) (node : Nat) (preds : List Nat) (k' : Nat) :
    succsOf (sorterAdd l node preds) k'
      = succsOf l k' ++ List.replicate (preds.count k') node := by
  rw [sorterAdd_eq_fold, succsOf_addFold, succsOf_update_bump]

end Tidydag

namespace Tidydag

/-! ### Aggregate characterization of `registerAll` -/

theorem npredsOf_foldAdd (reg : Reg) (l : InfoMap) (u : Nat) :
    npredsOf (reg.foldl (fun l e => sorterAdd l e.1 e.2) l) u
      = npredsOf l u + (regPredSum reg u : Int) := by
  induction reg generalizing l with
  | nil => simp [regPredSum]
  | cons e es ih =>
    rw [List.foldl_cons, ih, npredsOf_sorterAdd]
    have hsum : regPredSum (e :: es) u
        = (if e.1 = u then e.2.length else 0) + regPredSum es u := by
      simp [regPredSum]
    rw [hsum]
    by_cases h : u = e.1
    · rw [if_pos h, if_pos h.symm]
      push_cast
      ring
    · rw [if_neg h, if_neg (fun hh => h hh.symm)]
      push_cast
      ring

theorem count_succsOf_foldAdd (reg : Reg) (l : InfoMap) (u v : Nat) :
    (succsOf (reg.foldl (fun l e => sorterAdd l e.1 e.2) l) u).count v
      = (succsOf l u).count v + regSuccCount reg v u := by
  induction reg generalizing l with
  | nil => simp [regSuccCount]
  | cons e es ih =>
    rw [List.foldl_cons, ih, succsOf_sorterAdd, List.count_append, List.count_replicate]
    have hsum : regSuccCount (e :: es) v u
        = (if e.1 = v then e.2.count u else 0) + regSuccCount es v u := by
      simp [regSuccCount]
    rw [hsum]
    by_cases h : e.1 = v
    · rw [if_pos (by simpa using h), if_pos h]
      omega
    · rw [if_neg (by simpa using h), if_neg h]
      omega

theorem infoFind_eq_none_iff (l : InfoMap) (k : Nat) :
    infoFind l k = none ↔ k ∉ imKeys l := by
  unfold infoFind imKeys
  rw [Option.map_eq_none', List.find?_eq_none]
  constructor
  · intro h hk
    rcases List.mem_map.mp hk with ⟨p, hp, hpk⟩
    exact h p hp (by simpa using hpk)
  · intro h p hp hpk
    exact h (List.mem_map.mpr ⟨p, hp, by simpa using hpk⟩)

theorem mem_imKeys_getNodeinfo (l : InfoMap) (k u : Nat) :
    u ∈ imKeys (getNodeinfo l k) ↔ u ∈ imKeys l ∨ u = k := by
  rw [imKeys_getNodeinfo]
  cases h : (infoFind l k).isSome
  · simp
  · have hk : k ∈ imKeys l := by
      by_contra hk
      rw [← infoFind_eq_none_iff] at hk
      simp [hk] at h
    rw [if_pos rfl, List.append_nil]
    exact ⟨Or.inl, fun hu => hu.elim id (fun he => he ▸ hk)⟩

theorem imKeys_nodup_getNodeinfo (l : InfoMap) (k : Nat) (h : (imKeys l).Nodup) :
    (imKeys (getNodeinfo l k)).Nodup := by
  rw [imKeys_getNodeinfo]
  cases hf : (infoFind l k).isSome
  · have : k ∉ imKeys l := by
      rw [← infoFind_eq_none_iff]
      exact Option.not_isSome_iff_eq_none.mp (by simp [hf])
    simpa [List.nodup_append] using ⟨h, this⟩
  · simpa using h

theorem mem_imKeys_addSuccStep (node : Nat) (acc : InfoMap) (p u : Nat) :
    u ∈ imKeys (addSuccStep node acc p) ↔ u ∈ imKeys acc ∨ u = p := by
  rw [addSuccStep, imKeys_infoUpdate, mem_imKeys_getNodeinfo]

theorem imKeys_nodup_addSuccStep (node : Nat) (acc : InfoMap) (p : Nat)
    (h : (imKeys acc).Nodup) : (imKeys (addSuccStep node acc p)).Nodup := by
  rw [addSuccStep, imKeys_infoUpdate]
  exact imKeys_nodup_getNodeinfo acc p h

theorem mem_imKeys_addFold (node : Nat) (preds : List Nat) (l : InfoMap) (u : Nat) :
    u ∈ imKeys (preds.foldl (addSuccStep node) l) ↔ u ∈ imKeys l ∨ u ∈ preds := by
  induction preds generalizing l with
  | nil => simp
  | cons p ps ih =>
    rw [List.foldl_cons, ih, mem_imKeys_addSuccStep]
    simp only [List.mem_cons]
    rw [or_assoc]

theorem imKeys_nodup_addFold (node : Nat) (preds : List Nat) (l : InfoMap)
    (h : (imKeys l).Nodup) : (imKeys (preds.foldl (addSuccStep node) l)).Nodup := by
  induction preds generalizing l with
  | nil => exact h
  | cons p ps ih => exact ih _ (imKeys_nodup_addSuccStep node l p h)

theorem mem_imKeys_sorterAdd (l : InfoMap) (node : Nat) (preds : List Nat) (u : Nat) :
    u ∈ imKeys (sorterAdd l node preds) ↔ u ∈ imKeys l ∨ u = node ∨ u ∈ preds := by
  rw [sorterAdd_eq_fold, mem_imKeys_addFold, imKeys_infoUpdate, mem_imKeys_getNodeinfo]
  rw [or_assoc]

theorem imKeys_nodup_sorterAdd (l : InfoMap) (node : Nat) (preds : List Nat)
    (h : (imKeys l).Nodup) : (imKeys (sorterAdd l node preds)).Nodup := by
  rw [sorterAdd_eq_fold]
  apply imKeys_nodup_addFold
  rw [imKeys_infoUpdate]
  exact imKeys_nodup_getNodeinfo l node h

theorem mem_imKeys_registerAll (reg : Reg) (u : Nat) :
    u ∈ imKeys (registerAll reg) ↔ ∃ e ∈ reg, u = e.1 ∨ u ∈ e.2 := by
  have general : ∀ (es : Reg) (l : InfoMap),
      u ∈ imKeys (es.foldl (fun l e => sorterAdd l e.1 e.2) l)
        ↔ u ∈ imKeys l ∨ ∃ e ∈ es, u = e.1 ∨ u ∈ e.2 := by
    intro es
    induction es with
    | nil => simp
    | cons e es ih =>
      intro l
      rw [List.foldl_cons, ih, mem_imKeys_sorterAdd]
      constructor
      · rintro ((h | h | h) | ⟨e', he', h⟩)
        · exact Or.inl h
        · exact Or.inr ⟨e, List.mem_cons_self e es, Or.inl h⟩
        · exact Or.inr ⟨e, List.mem_cons_self e es, Or.inr h⟩
        · exact Or.inr ⟨e', List.mem_cons_of_mem e he', h⟩
      · rintro (h | ⟨e', he', h⟩)
        · exact Or.inl (Or.inl h)
        · rcases List.mem_cons.mp he' with he' | he'
          · subst he'
            exact Or.inl (Or.inr h)
          · exact Or.inr ⟨e', he', h⟩
  rw [registerAll, general]
  simp [imKeys]

theorem imKeys_nodup_registerAll (reg : Reg) : (imKeys (registerAll reg)).Nodup := by
  have general : ∀ (es : Reg) (l : InfoMap), (imKeys l).Nodup →
      (imKeys (es.foldl (fun l e => sorterAdd l e.1 e.2) l)).Nodup := by
    intro es
    induction es with
    | nil => exact fun l h => h
    | cons e es ih => exact fun l h => ih _ (imKeys_nodup_sorterAdd l e.1 e.2 h)
  exact general reg [] (by simp [imKeys])

end Tidydag

namespace Tidydag

theorem parentsOf_of_not_mem (reg : Reg) (u : Nat) (h : u ∉ reg.map Prod.fst) :
    parentsOf reg u = [] := by
  unfold parentsOf
  induction reg with
  | nil => rfl
  | cons e es ih =>
    rw [List.map_cons, List.mem_cons] at h
    push_neg at h
    cases e with
    | mk k v =>
      rw [List.lookup_cons]
      have : (u == k) = false := by simpa using fun hh => h.1 hh
      rw [this]
      exact ih h.2

theorem regPredSum_of_not_mem (reg : Reg) (u : Nat) (h : u ∉ reg.map Prod.fst) :
    regPredSum reg u = 0 := by
  unfold regPredSum
  induction reg with
  | nil => rfl
  | cons e es ih =>
    rw [List.map_cons, List.mem_cons] at h
    push_neg at h
    rw [List.map_cons, List.sum_cons, if_neg (fun hh => h.1 hh.symm), ih h.2]

theorem regSuccCount_of_not_mem (reg : Reg) (v u : Nat) (h : v ∉ reg.map Prod.fst) :
    regSuccCount reg v u = 0 := by
  unfold regSuccCount
  induction reg with
  | nil => rfl
  | cons e es ih =>
    rw [List.map_cons, List.mem_cons] at h
    push_neg at h
    rw [List.map_cons, List.sum_cons, if_neg (fun hh => h.1 hh.symm), ih h.2]

theorem regPredSum_eq_parentsOf (reg : Reg) (hnodup : (reg.map Prod.fst).Nodup) (u : Nat) :
    regPredSum reg u = (parentsOf reg u).length := by
  induction reg with
  | nil => rfl
  | cons e es ih =>
    rw [List.map_cons, List.nodup_cons] at hnodup
    cases e with
    | mk k v =>
      unfold regPredSum parentsOf
      rw [List.map_cons, List.sum_cons, List.lookup_cons]
      by_cases h : u = k
      · subst h
        rw [if_pos rfl, beq_self_eq_true]
        have h0 : regPredSum es u = 0 := regPredSum_of_not_mem es u hnodup.1
        rw [regPredSum] at h0
        rw [h0]
        simp
      · rw [if_neg (fun hh => h hh.symm)]
        have : (u == k) = false := by simpa using h
        rw [this, Nat.zero_add]
        exact ih hnodup.2

theorem regSuccCount_eq_parentsOf (reg : Reg) (hnodup : (reg.map Prod.fst).Nodup) (v u : Nat) :
    regSuccCount reg v u = (parentsOf reg v).count u := by
  induction reg with
  | nil => rfl
  | cons e es ih =>
    rw [List.map_cons, List.nodup_cons] at hnodup
    cases e with
    | mk k ps =>
      unfold regSuccCount parentsOf
      rw [List.map_cons, List.sum_cons, List.lookup_cons]
      by_cases h : v = k
      · subst h
        rw [if_pos rfl, beq_self_eq_true]
        have h0 : regSuccCount es v u = 0 := regSuccCount_of_not_mem es v u hnodup.1
        rw [regSuccCount] at h0
        rw [h0]
        simp
      · rw [if_neg (fun hh => h hh.symm)]
        have : (v == k) = false := by simpa using h
        rw [this, Nat.zero_add]
        exact ih hnodup.2

theorem npredsOf_registerAll (reg : Reg) (hnodup : (reg.map Prod.fst).Nodup) (u : Nat) :
    npredsOf (registerAll reg) u = ((parentsOf reg u).length : Int) := by
  rw [registerAll, npredsOf_foldAdd, regPredSum_eq_parentsOf reg hnodup]
  simp [npredsOf, infoFind]

theorem count_succsOf_registerAll (reg : Reg) (hnodup : (reg.map Prod.fst).Nodup) (u v : Nat) :
    (succsOf (registerAll reg) u).count v = (parentsOf reg v).count u := by
  rw [registerAll, count_succsOf_foldAdd, regSuccCount_eq_parentsOf reg hnodup]
  simp [succsOf, infoFind]

theorem mem_succsOf_registerAll (reg : Reg) (u v : Nat)
    (h : v ∈ succsOf (registerAll reg) u) : ∃ e ∈ reg, e.1 = v ∧ u ∈ e.2 := by
  have hc : 0 < (succsOf (registerAll reg) u).count v := List.count_pos_iff.mpr h
  rw [registerAll, count_succsOf_foldAdd] at hc
  have h0 : (succsOf ([] : InfoMap) u).count v = 0 := by simp [succsOf, infoFind]
  rw [h0, Nat.zero_add] at hc
  unfold regSuccCount at hc
  by_contra hno
  push_neg at hno
  have hz : (reg.map (fun e => if e.1 = v then e.2.count u else 0)).sum = 0 := by
    apply List.sum_eq_zero
    intro x hx
    rcases List.mem_map.mp hx with ⟨e, he, hex⟩
    by_cases hev : e.1 = v
    · have := hno e he hev
      rw [← hex, if_pos hev]
      exact List.count_eq_zero.mpr this
    · rw [← hex, if_neg hev]
  rw [hz] at hc
  exact absurd hc (by omega)

end Tidydag

namespace Tidydag

/-! ### `_find_cycle` finds nothing on an acyclic graph -/

theorem chain_head_max (rank : Nat → Nat) :
    ∀ (stack : List (Nat × List Nat)),
      List.Chain' (fun a b => rank b.1 < rank a.1) stack →
      ∀ x ∈ stack, ∀ e st, stack = e :: st → rank x.1 ≤ rank e.1 := by
  intro stack
  induction stack with
  | nil => intro _ x hx; cases hx
  | cons e st ih =>
    intro hchain x hx e' st' heq
    rw [List.cons.injEq] at heq
    rcases heq with ⟨rfl, rfl⟩
    rcases List.mem_cons.mp hx with rfl | hx
    · exact le_refl _
    · cases st with
      | nil => cases hx
      | cons e2 st2 =>
        rw [List.chain'_cons] at hchain
        have h2 := ih hchain.2 x hx e2 st2 rfl
        omega

theorem findCycleAux_succ_some (succs : Nat → List Nat) (f : Nat) (seen : List Nat)
    (stack : List (Nat × List Nat)) (node : Nat) (rest : List Nat) :
    findCycleAux succs (f + 1) seen stack (some node) rest =
      (if node ∈ seen then
        if node ∈ stack.map Prod.fst then
          some ((stackPrefixTo stack node).reverse ++ [node])
        else findCycleAux succs f seen stack none rest
      else findCycleAux succs f (node :: seen) ((node, succs node) :: stack) none rest) := rfl

theorem findCycleAux_none (succs : Nat → List Nat) (rank : Nat → Nat)
    (hr : ∀ u v, v ∈ succs u → rank u < rank v) :
    ∀ (fuel : Nat) (seen : List Nat) (stack : List (Nat × List Nat))
      (cur : Option Nat) (rest : List Nat),
      List.Chain' (fun a b => rank b.1 < rank a.1) stack →
      (∀ e ∈ stack, ∀ v ∈ e.2, v ∈ succs e.1) →
      (∀ v, cur = some v → ∀ e st, stack = e :: st → rank e.1 < rank v) →
      findCycleAux succs fuel seen stack cur rest = none := by
  intro fuel
  induction fuel with
  | zero => intro seen stack cur rest _ _ _; rfl
  | succ f ih =>
    intro seen stack cur rest hchain hsub hcur
    cases cur with
    | some node =>
      rw [findCycleAux_succ_some]
      by_cases hseen : node ∈ seen
      · rw [if_pos hseen]
        by_cases hstack : node ∈ stack.map Prod.fst
        · exfalso
          rcases stack with _ | ⟨e, st⟩
          · simp at hstack
          · have h1 : rank e.1 < rank node := hcur node rfl e st rfl
            rcases List.mem_map.mp hstack with ⟨x, hx, hxn⟩
            have h2 := chain_head_max rank (e :: st) hchain x hx e st rfl
            rw [hxn] at h2
            omega
        · rw [if_neg hstack]
          exact ih seen stack none rest hchain hsub (by intro v hv; cases hv)
      · rw [if_neg hseen]
        apply ih
        · cases stack with
          | nil => simp
          | cons e st =>
            rw [List.chain'_cons]
            exact ⟨hcur node rfl e st rfl, hchain⟩
        · intro e he v hv
          rcases List.mem_cons.mp he with rfl | he
          · exact hv
          · exact hsub e he v hv
        · intro v hv; cases hv
    | none =>
      cases stack with
      | nil =>
        cases rest with
        | nil => rfl
        | cons r rs =>
          apply ih
          · simp
          · intro e he; cases he
          · intro v _ e st hst; cases hst
      | cons e st =>
        cases e with
        | mk u ss =>
          cases ss with
          | nil =>
            apply ih
            · exact hchain.tail
            · intro e he v hv
              exact hsub e (List.mem_cons_of_mem _ he) v hv
            · intro v hv e' st' heq
              -- after a pop the new head was below the old head in the chain,
              -- but cur is none here so this is vacuous
              cases hv
          | cons v ss' =>
            have hvsucc : v ∈ succs u := hsub (u, v :: ss') (List.mem_cons_self _ _) v
              (List.mem_cons_self _ _)
            apply ih
            · cases st with
              | nil => simp
              | cons e2 st2 =>
                rw [List.chain'_cons] at hchain ⊢
                exact ⟨hchain.1, hchain.2⟩
            · intro e he w hw
              rcases List.mem_cons.mp he with rfl | he
              · exact hsub (u, v :: ss') (List.mem_cons_self _ _) w
                  (List.mem_cons_of_mem _ hw)
              · exact hsub e (List.mem_cons_of_mem _ he) w hw
            · intro w hw e' st' heq
              have hvw : v = w := by injection hw
              rw [List.cons.injEq] at heq
              rw [← hvw, ← heq.1]
              exact hr u v hvsucc

theorem findCycle_none_of_ranked (reg : Reg) (h : Ranked reg) :
    findCycle (registerAll reg) = none := by
  rcases h with ⟨rank, hrank⟩
  rw [findCycle]
  apply findCycleAux_none _ rank
  · intro u v hv
    rcases mem_succsOf_registerAll reg u v hv with ⟨e, he, hev, hue⟩
    have := hrank e he u hue
    rw [hev] at this
    exact this
  · exact List.chain'_nil
  · intro e he; cases he
  · intro v _ e st hst; cases hst

/-- On an acyclic registered graph, `prepare()` succeeds and returns the
freshly prepared sorter. -/
theorem prepareInfo_ok_of_ranked (reg : Reg) (h : Ranked reg) :
    prepareInfo (registerAll reg) =
      .ok ⟨registerAll reg,
        (((registerAll reg)).filter (fun p => p.2.npredecessors == 0)).map Prod.fst, 0, 0⟩ := by
  rw [prepareInfo, findCycle_none_of_ranked reg h]

end Tidydag

namespace Tidydag

/-! ### Pointwise characterization of `get_ready` and `done` -/

theorem infoFind_isSome_iff (l : InfoMap) (k : Nat) :
    (infoFind l k).isSome = true ↔ k ∈ imKeys l := by
  constructor
  · intro h
    by_contra hk
    have hnone := (infoFind_eq_none_iff l k).mpr hk
    rw [hnone] at h
    simp at h
  · intro h
    cases hf : infoFind l k
    · exact absurd ((infoFind_eq_none_iff l k).mp hf) (by simpa using h)
    · rfl

theorem succsOf_infoUpdate_of_preserve (l : InfoMap) (k k' : Nat) (f : NodeInfo → NodeInfo)
    (hf : ∀ i, (f i).successors = i.successors) :
    succsOf (infoUpdate l k f) k' = succsOf l k' := by
  rw [succsOf, infoFind_infoUpdate]
  by_cases h : k' = k
  · subst h
    cases hfind : infoFind l k' <;> simp [succsOf, hfind, hf]
  · rw [if_neg h, succsOf]

theorem npredsOf_update_const (l : InfoMap) (k : Nat) (c : Int) (k' : Nat)
    (hk : k ∈ imKeys l) :
    npredsOf (infoUpdate l k (fun i => { i with npredecessors := c })) k'
      = if k' = k then c else npredsOf l k' := by
  rw [npredsOf, infoFind_infoUpdate]
  by_cases h : k' = k
  · subst h
    rcases hf : infoFind l k' with _ | v
    · exact absurd ((infoFind_eq_none_iff l k').mp hf) (by simpa using hk)
    · simp [hf]
  · rw [if_neg h, if_neg h, npredsOf]

theorem npredsOf_update_sub1 (l : InfoMap) (k : Nat) (k' : Nat)
    (hk : k ∈ imKeys l) :
    npredsOf (infoUpdate l k (fun i => { i with npredecessors := i.npredecessors - 1 })) k'
      = npredsOf l k' - (if k' = k then 1 else 0) := by
  rw [npredsOf, infoFind_infoUpdate]
  by_cases h : k' = k
  · subst h
    rcases hf : infoFind l k' with _ | v
    · exact absurd ((infoFind_eq_none_iff l k').mp hf) (by simpa using hk)
    · simp [hf, npredsOf]
  · rw [if_neg h, if_neg h, npredsOf]
    simp

theorem npredsOf_update_sub1_self (l : InfoMap) (k : Nat) (hk : k ∈ imKeys l) :
    npredsOf (infoUpdate l k (fun i => { i with npredecessors := i.npredecessors - 1 })) k
      = npredsOf l k - 1 := by
  rw [npredsOf_update_sub1 l k k hk, if_pos rfl]

/-- `get_ready` sets every ready node's predecessor count to `_NODE_OUT`. -/
theorem setOut_fold_npreds (ns : List Nat) (l : InfoMap) (k : Nat)
    (hmem : ∀ n ∈ ns, n ∈ imKeys l) :
    npredsOf (ns.foldl (fun l n => infoUpdate l n (fun i => { i with npredecessors := -1 })) l) k
      = if k ∈ ns then -1 else npredsOf l k := by
  induction ns generalizing l with
  | nil => simp
  | cons n ns ih =>
    rw [List.foldl_cons]
    have hn : n ∈ imKeys l := hmem n (List.mem_cons_self _ _)
    have hmem' : ∀ m ∈ ns, m ∈ imKeys (infoUpdate l n (fun i => { i with npredecessors := -1 })) := by
      intro m hm
      rw [imKeys_infoUpdate]
      exact hmem m (List.mem_cons_of_mem _ hm)
    rw [ih _ hmem']
    by_cases hk : k ∈ ns
    · rw [if_pos hk, if_pos (List.mem_cons_of_mem _ hk)]
    · rw [if_neg hk, npredsOf_update_const l n (-1) k hn]
      by_cases hkn : k = n
      · rw [if_pos hkn, if_pos (by rw [hkn]; exact List.mem_cons_self _ _)]
      · rw [if_neg hkn, if_neg (by simp [hkn, hk])]

theorem setOut_fold_succs (ns : List Nat) (l : InfoMap) (k : Nat) :
    succsOf (ns.foldl (fun l n => infoUpdate l n (fun i => { i with npredecessors := -1 })) l) k
      = succsOf l k := by
  induction ns generalizing l with
  | nil => rfl
  | cons n ns ih =>
    rw [List.foldl_cons, ih, succsOf_infoUpdate_of_preserve]
    intro i
    rfl

theorem setOut_fold_keys (ns : List Nat) (l : InfoMap) :
    imKeys (ns.foldl (fun l n => infoUpdate l n (fun i => { i with npredecessors := -1 })) l)
      = imKeys l := by
  induction ns generalizing l with
  | nil => rfl
  | cons n ns ih => rw [List.foldl_cons, ih, imKeys_infoUpdate]

theorem getReady_spec (s : Sorter) (hmem : ∀ n ∈ s.readyNodes, n ∈ imKeys s.info) :
    (getReady s).1 = s.readyNodes
    ∧ (∀ k, npredsOf (getReady s).2.info k
        = if k ∈ s.readyNodes then -1 else npredsOf s.info k)
    ∧ (∀ k, succsOf (getReady s).2.info k = succsOf s.info k)
    ∧ imKeys (getReady s).2.info = imKeys s.info
    ∧ (getReady s).2.readyNodes = []
    ∧ (getReady s).2.npassedout = s.npassedout + s.readyNodes.length
    ∧ (getReady s).2.nfinished = s.nfinished := by
  refine ⟨rfl, ?_, ?_, ?_, rfl, rfl, rfl⟩
  · intro k
    exact setOut_fold_npreds s.readyNodes s.info k hmem
  · intro k
    exact setOut_fold_succs s.readyNodes s.info k
  · exact setOut_fold_keys s.readyNodes s.info

end Tidydag

namespace Tidydag

theorem doneStep_fst (acc : InfoMap × List Nat) (succ : Nat) :
    (doneStep acc succ).1
      = infoUpdate acc.1 succ (fun i => { i with npredecessors := i.npredecessors - 1 }) := by
  simp only [doneStep]
  rcases infoFind (infoUpdate acc.1 succ
      (fun i => { i with npredecessors := i.npredecessors - 1 })) succ with _ | si
  · rfl
  · by_cases h0 : si.npredecessors = 0 <;> simp [h0]

theorem doneStep_snd (acc : InfoMap × List Nat) (succ : Nat) (h : succ ∈ imKeys acc.1) :
    (doneStep acc succ).2
      = acc.2 ++ (if npredsOf acc.1 succ - 1 = 0 then [succ] else []) := by
  simp only [doneStep]
  have hdec := npredsOf_update_sub1_self acc.1 succ h
  have hk : succ ∈ imKeys (infoUpdate acc.1 succ
      (fun i => { i with npredecessors := i.npredecessors - 1 })) := by
    rw [imKeys_infoUpdate]; exact h
  rcases hf : infoFind (infoUpdate acc.1 succ
      (fun i => { i with npredecessors := i.npredecessors - 1 })) succ with _ | si
  · exact absurd ((infoFind_eq_none_iff _ _).mp hf) (by simpa using hk)
  · have hsi : si.npredecessors = npredsOf acc.1 succ - 1 := by
      rw [npredsOf, hf] at hdec
      simpa using hdec
    dsimp only
    by_cases h0 : si.npredecessors = 0
    · rw [if_pos (by simpa using h0), if_pos (by rw [← hsi]; exact h0)]
    · rw [if_neg (by simpa using h0), if_neg (by rw [← hsi]; exact h0), List.append_nil]

theorem npredsOf_infoUpdate_ne (l : InfoMap) (v k : Nat) (f : NodeInfo → NodeInfo)
    (h : k ≠ v) : npredsOf (infoUpdate l v f) k = npredsOf l k := by
  rw [npredsOf, infoFind_infoUpdate, if_neg h, npredsOf]

theorem npredsOf_infoUpdate_absent (l : InfoMap) (v : Nat) (f : NodeInfo → NodeInfo)
    (h : v ∉ imKeys l) : npredsOf (infoUpdate l v f) v = npredsOf l v := by
  have hnone := (infoFind_eq_none_iff l v).mpr h
  rw [npredsOf, infoFind_infoUpdate, if_pos rfl, hnone, npredsOf, hnone]
  rfl

theorem doneFold_fst_npreds (ss : List Nat) (acc : InfoMap × List Nat) (k : Nat) :
    npredsOf (ss.foldl doneStep acc).1 k = npredsOf acc.1 k
      - (ss.count k : Int) * (if k ∈ imKeys acc.1 then 1 else 0) := by
  induction ss generalizing acc with
  | nil => simp
  | cons v ss ih =>
    rw [List.foldl_cons, ih, doneStep_fst, imKeys_infoUpdate]
    by_cases hkv : k = v
    · subst hkv
      rw [List.count_cons_self]
      by_cases hkk : k ∈ imKeys acc.1
      · rw [if_pos hkk, npredsOf_update_sub1_self acc.1 k hkk]
        push_cast
        ring
      · rw [if_neg hkk, npredsOf_infoUpdate_absent acc.1 k _ hkk]
        ring
    · rw [List.count_cons_of_ne (by simpa using hkv),
        npredsOf_infoUpdate_ne acc.1 v k _ hkv]

end Tidydag

namespace Tidydag

theorem doneFold_fst_succs (ss : List Nat) (acc : InfoMap × List Nat) (k : Nat) :
    succsOf (ss.foldl doneStep acc).1 k = succsOf acc.1 k := by
  induction ss generalizing acc with
  | nil => rfl
  | cons v ss ih =>
    rw [List.foldl_cons, ih, doneStep_fst, succsOf_infoUpdate_of_preserve]
    intro i
    rfl

theorem doneFold_fst_keys (ss : List Nat) (acc : InfoMap × List Nat) :
    imKeys (ss.foldl doneStep acc).1 = imKeys acc.1 := by
  induction ss generalizing acc with
  | nil => rfl
  | cons v ss ih => rw [List.foldl_cons, ih, doneStep_fst, imKeys_infoUpdate]

theorem doneFold_snd_count (ss : List Nat) (acc : InfoMap × List Nat) (u : Nat)
    (hmem : ∀ w ∈ ss, w ∈ imKeys acc.1) :
    ((ss.foldl doneStep acc).2).count u
      = acc.2.count u
        + (if 1 ≤ npredsOf acc.1 u ∧ npredsOf acc.1 u ≤ (ss.count u : Int)
            then 1 else 0) := by
  induction ss generalizing acc with
  | nil =>
    simp only [List.foldl_nil, List.count_nil, Nat.cast_zero]
    rw [if_neg (by omega)]
    omega
  | cons v ss ih =>
    rw [List.foldl_cons]
    have hv : v ∈ imKeys acc.1 := hmem v (List.mem_cons_self _ _)
    have hmem' : ∀ w ∈ ss, w ∈ imKeys (doneStep acc v).1 := by
      intro w hw
      rw [doneStep_fst, imKeys_infoUpdate]
      exact hmem w (List.mem_cons_of_mem _ hw)
    rw [ih _ hmem', doneStep_snd acc v hv, List.count_append]
    by_cases huv : u = v
    · subst huv
      have hN' : npredsOf (doneStep acc u).1 u = npredsOf acc.1 u - 1 := by
        rw [doneStep_fst]
        exact npredsOf_update_sub1_self acc.1 u hv
      rw [hN', List.count_cons_self]
      have h1 : (if npredsOf acc.1 u - 1 = 0 then [u] else []).count u
          = if npredsOf acc.1 u - 1 = 0 then 1 else 0 := by
        split <;> simp
      rw [h1]
      push_cast
      split_ifs <;> omega
    · have hN' : npredsOf (doneStep acc v).1 u = npredsOf acc.1 u := by
        rw [doneStep_fst]
        exact npredsOf_infoUpdate_ne acc.1 v u _ huv
      rw [hN', List.count_cons_of_ne (by simpa using huv)]
      have h1 : (if npredsOf acc.1 v - 1 = 0 then [v] else []).count u = 0 := by
        split <;> simp [huv]
      rw [h1]
      omega

theorem succsOf_eq_of_find (l : InfoMap) (k : Nat) (ni : NodeInfo)
    (h : infoFind l k = some ni) : succsOf l k = ni.successors := by
  rw [succsOf, h]
  rfl

end Tidydag

namespace Tidydag

/-- Full characterization of `done(node)` for a node currently `_NODE_OUT`. -/
theorem sorterDone_spec (s : Sorter) (node : Nat) (ni : NodeInfo)
    (hfind : infoFind s.info node = some ni) (hout : ni.npredecessors = -1)
    (hmem : ∀ u ∈ ni.successors, u ∈ imKeys s.info) :
    (∀ k, npredsOf (sorterDone s node).info k
        = (if k = node then -2 else npredsOf s.info k) - (ni.successors.count k : Int))
    ∧ (∀ k, succsOf (sorterDone s node).info k = succsOf s.info k)
    ∧ imKeys (sorterDone s node).info = imKeys s.info
    ∧ (∀ u, ((sorterDone s node).readyNodes).count u
        = s.readyNodes.count u
          + (if 1 ≤ ((if u = node then (-2 : Int) else npredsOf s.info u))
              ∧ ((if u = node then (-2 : Int) else npredsOf s.info u))
                  ≤ (ni.successors.count u : Int)
              then 1 else 0))
    ∧ (sorterDone s node).npassedout = s.npassedout
    ∧ (sorterDone s node).nfinished = s.nfinished + 1 := by
  have hnodemem : node ∈ imKeys s.info := by
    rw [← infoFind_isSome_iff, hfind]
    rfl
  have hbody : sorterDone s node =
      ⟨(ni.successors.foldl doneStep
          (infoUpdate s.info node (fun i => { i with npredecessors := -2 }), [])).1,
        s.readyNodes ++ (ni.successors.foldl doneStep
          (infoUpdate s.info node (fun i => { i with npredecessors := -2 }), [])).2,
        s.npassedout, s.nfinished + 1⟩ := by
    simp only [sorterDone, hfind]
    rw [if_neg (by rw [hout]; exact fun h => h rfl)]
  have hkeys0 : imKeys (infoUpdate s.info node
      (fun i => { i with npredecessors := -2 })) = imKeys s.info := imKeys_infoUpdate _ _ _
  have hnp0 : ∀ k, npredsOf (infoUpdate s.info node
      (fun i => { i with npredecessors := -2 })) k
        = if k = node then -2 else npredsOf s.info k := by
    intro k
    exact npredsOf_update_const s.info node (-2) k hnodemem
  have hmem0 : ∀ u ∈ ni.successors, u ∈ imKeys (infoUpdate s.info node
      (fun i => { i with npredecessors := -2 })) := by
    intro u hu
    rw [hkeys0]
    exact hmem u hu
  rw [hbody]
  refine ⟨?_, ?_, ?_, ?_, rfl, rfl⟩
  · intro k
    have h1 := doneFold_fst_npreds ni.successors
      (infoUpdate s.info node (fun i => { i with npredecessors := -2 }), []) k
    dsimp only at h1
    rw [h1, hnp0 k, hkeys0]
    by_cases hk : k ∈ imKeys s.info
    · rw [if_pos hk]
      ring
    · have hc : ni.successors.count k = 0 := by
        rw [List.count_eq_zero]
        exact fun hkc => hk (hmem k hkc)
      rw [if_neg hk, hc]
      push_cast
      ring
  · intro k
    have h1 := doneFold_fst_succs ni.successors
      (infoUpdate s.info node (fun i => { i with npredecessors := -2 }), []) k
    dsimp only at h1
    rw [h1]
    exact succsOf_infoUpdate_of_preserve s.info node k _ (fun i => rfl)
  · have h1 := doneFold_fst_keys ni.successors
      (infoUpdate s.info node (fun i => { i with npredecessors := -2 }), [])
    dsimp only at h1
    rw [h1, hkeys0]
  · intro u
    have h1 := doneFold_snd_count ni.successors
      (infoUpdate s.info node (fun i => { i with npredecessors := -2 }), []) u hmem0
    dsimp only at h1
    rw [List.count_append, h1, List.count_nil, hnp0 u]
    omega

/-- Shape of the tasks created for one ready batch. -/
theorem mkTasks_spec (ready : List Nat) (base batch : Nat) :
    (mkTasks ready base batch).map Task.node = ready
    ∧ (mkTasks ready base batch).map Task.id = List.range' (base + 1) ready.length
    ∧ (mkTasks ready base batch).length = ready.length
    ∧ (∀ t ∈ mkTasks ready base batch,
        t.phase = .spawned ∧ t.invoked = false ∧ t.batch = batch
        ∧ base + 1 ≤ t.id ∧ t.id ≤ base + ready.length) := by
  induction ready generalizing base with
  | nil => exact ⟨rfl, rfl, rfl, fun t ht => absurd ht (List.not_mem_nil t)⟩
  | cons n rest ih =>
    rcases ih (base + 1) with ⟨ih1, ih2, ih3, ih4⟩
    refine ⟨?_, ?_, ?_, ?_⟩
    · rw [mkTasks, List.map_cons, ih1]
    · rw [mkTasks, List.map_cons, ih2, List.length_cons, List.range'_succ]
    · rw [mkTasks, List.length_cons, ih3, List.length_cons]
    · intro t ht
      rw [mkTasks, List.mem_cons] at ht
      rcases ht with rfl | ht
      · exact ⟨rfl, rfl, rfl, le_refl _, by simp⟩
      · rcases ih4 t ht with ⟨h1, h2, h3, h4, h5⟩
        refine ⟨h1, h2, h3, by omega, by rw [List.length_cons]; omega⟩

end Tidydag

namespace Tidydag

/-! ### The run-state invariant -/

theorem doneTasks_iff (ts : List Task) (u : Nat) :
    doneTasks ts u = true ↔ ∃ t ∈ ts, t.node = u ∧ t.phase = .finished := by
  rw [doneTasks, List.any_eq_true]
  constructor
  · rintro ⟨t, ht, hb⟩
    rw [Bool.and_eq_true, beq_iff_eq, beq_iff_eq] at hb
    exact ⟨t, ht, hb.1, hb.2⟩
  · rintro ⟨t, ht, h1, h2⟩
    exact ⟨t, ht, by rw [Bool.and_eq_true, beq_iff_eq, beq_iff_eq]; exact ⟨h1, h2⟩⟩

theorem pendCount_zero_iff (reg : Reg) (ts : List Task) (u : Nat) :
    pendCount reg ts u = 0 ↔ ∀ p ∈ parentsOf reg u, doneTasks ts p = true := by
  rw [pendCount, List.length_eq_zero, List.filter_eq_nil_iff]
  constructor
  · intro h p hp
    have := h p hp
    simpa using this
  · intro h p hp
    simp [h p hp]

theorem unique_task_of_nodes_nodup {ts : List Task}
    (h : (ts.map Task.node).Nodup) :
    ∀ t ∈ ts, ∀ t' ∈ ts, t.node = t'.node → t = t' :=
  fun t ht t' ht' heq => List.inj_on_of_nodup_map h ht ht' heq

theorem eq_take_cons_drop_of_get? {α : Type} (l : List α) (i : Nat) (t : α)
    (h : l.get? i = some t) :
    l = l.take i ++ t :: l.drop (i + 1) := by
  rw [List.get?_eq_getElem?] at h
  rcases List.getElem?_eq_some_iff.mp h with ⟨hlen, hval⟩
  conv_lhs => rw [← List.take_append_drop i l]
  congr 1
  rw [← hval]
  exact List.drop_eq_getElem_cons hlen

theorem set_eq_take_cons_drop_of_get? {α : Type} (l : List α) (i : Nat) (t t' : α)
    (h : l.get? i = some t) :
    l.set i t' = l.take i ++ t' :: l.drop (i + 1) := by
  rw [List.get?_eq_getElem?] at h
  rcases List.getElem?_eq_some_iff.mp h with ⟨hlen, _⟩
  exact List.set_eq_take_cons_drop t' hlen

theorem length_filter_or_count (xs : List Nat) (f : Nat → Bool) (p : Nat)
    (hf : f p = false) :
    (xs.filter (fun q => !f q)).length
      = (xs.filter (fun q => !(f q || q == p))).length + xs.count p := by
  induction xs with
  | nil => rfl
  | cons x xs ih =>
    by_cases hxp : x = p
    · subst hxp
      have h1 : List.filter (fun q => !f q) (x :: xs)
          = x :: List.filter (fun q => !f q) xs := by
        simp [List.filter_cons, hf]
      have h2 : List.filter (fun q => !(f q || q == x)) (x :: xs)
          = List.filter (fun q => !(f q || q == x)) xs := by
        simp [List.filter_cons]
      rw [h1, h2, List.count_cons_self, List.length_cons, ih]
      omega
    · have hbeq : (x == p) = false := by simpa using hxp
      have hc : List.count p (x :: xs) = List.count p xs :=
        List.count_cons_of_ne (fun h => hxp h.symm) _
      cases hfx : f x
      · have h1 : List.filter (fun q => !f q) (x :: xs)
            = x :: List.filter (fun q => !f q) xs := by
          simp [List.filter_cons, hfx]
        have h2 : List.filter (fun q => !(f q || q == p)) (x :: xs)
            = x :: List.filter (fun q => !(f q || q == p)) xs := by
          simp [List.filter_cons, hfx, hbeq]
        rw [h1, h2, hc, List.length_cons, List.length_cons, ih]
        omega
      · have h1 : List.filter (fun q => !f q) (x :: xs)
            = List.filter (fun q => !f q) xs := by
          simp [List.filter_cons, hfx]
        have h2 : List.filter (fun q => !(f q || q == p)) (x :: xs)
            = List.filter (fun q => !(f q || q == p)) xs := by
          simp [List.filter_cons, hfx]
        rw [h1, h2, hc, ih]

end Tidydag

namespace Tidydag

theorem set_get?_self {α : Type} (l : List α) (i : Nat) (a : α)
    (h : l.get? i = some a) : l.set i a = l := by
  rw [set_eq_take_cons_drop_of_get? l i a a h, ← eq_take_cons_drop_of_get? l i a h]

theorem forall_mem_set {α : Type} {l : List α} {i : Nat} {t' : α}
    (P : α → Prop) (hl : ∀ x ∈ l, P x) (ht' : P t') : ∀ x ∈ l.set i t', P x := by
  intro x hx
  rcases List.mem_or_eq_of_mem_set hx with hx | rfl
  · exact hl x hx
  · exact ht'

theorem mem_set_self {α : Type} {l : List α} {i : Nat} {t : α}
    (h : l.get? i = some t) (t' : α) : t' ∈ l.set i t' := by
  rw [set_eq_take_cons_drop_of_get? l i t t' h]
  exact List.mem_append_right _ (List.mem_cons_self _ _)

theorem getReady_empty (s : Sorter) (h : s.readyNodes = []) : (getReady s).2 = s := by
  cases s with
  | mk info ready np nf =>
    simp only [getReady] at h ⊢
    subst h
    rfl

/-- Tasks are uniquely determined by their identity. -/
theorem Inv.idsNodup {reg : Reg} {beh : Nat → NodeBehavior} {e0 : List Nat} {c : RunState}
    (hinv : Inv reg beh e0 c) : (c.tasks.map Task.id).Nodup := by
  rw [hinv.idsEq]
  exact List.nodup_range' _ _

theorem Inv.idBound {reg : Reg} {beh : Nat → NodeBehavior} {e0 : List Nat} {c : RunState}
    (hinv : Inv reg beh e0 c) :
    ∀ t ∈ c.tasks, 1 ≤ t.id ∧ t.id ≤ c.tasks.length := by
  intro t ht
  have : t.id ∈ c.tasks.map Task.id := List.mem_map.mpr ⟨t, ht, rfl⟩
  rw [hinv.idsEq, List.mem_range'_1] at this
  omega

theorem Inv.uniqueById {reg : Reg} {beh : Nat → NodeBehavior} {e0 : List Nat} {c : RunState}
    (hinv : Inv reg beh e0 c) :
    ∀ t ∈ c.tasks, ∀ t' ∈ c.tasks, t.id = t'.id → t = t' :=
  fun t ht t' ht' heq => List.inj_on_of_nodup_map hinv.idsNodup ht ht' heq

theorem mem_keys_of_mem_succs (reg : Reg) (u w : Nat)
    (h : w ∈ succsOf (registerAll reg) u) : w ∈ imKeys (registerAll reg) := by
  rcases mem_succsOf_registerAll reg u w h with ⟨e, he, hev, _⟩
  exact (mem_imKeys_registerAll reg w).mpr ⟨e, he, Or.inl hev.symm⟩

/-- While a node's own task is unfinished, no tasked node counts it as a
pending parent (its successors are all task-free). -/
theorem count_succs_zero_of_unfinished {reg : Reg} {beh : Nat → NodeBehavior}
    {e0 : List Nat} {c : RunState}
    (hnodup : (reg.map Prod.fst).Nodup) (hinv : Inv reg beh e0 c)
    (t : Task) (ht : t ∈ c.tasks) (htf : t.phase ≠ .finished)
    (tw : Task) (hw : tw ∈ c.tasks) :
    (succsOf (registerAll reg) t.node).count tw.node = 0 := by
  rw [count_succsOf_registerAll reg hnodup]
  by_contra h
  have hmem : t.node ∈ parentsOf reg tw.node :=
    List.count_pos_iff.mp (Nat.pos_of_ne_zero h)
  rcases hinv.parentsOK tw hw t.node hmem with ⟨tp, htp, hnode, hfin, _⟩
  have heq := unique_task_of_nodes_nodup hinv.nodesNodup tp htp t ht hnode
  rw [heq] at hfin
  exact htf hfin

end Tidydag

namespace Tidydag

theorem doneTasks_append_cons (A B : List Task) (t : Task) (u : Nat) :
    doneTasks (A ++ t :: B) u
      = (doneTasks A u || ((t.node == u && t.phase == TaskPhase.finished) || doneTasks B u)) := by
  simp [doneTasks, List.any_append, List.any_cons]

theorem doneTasks_set_eq (A B : List Task) (t t' : Task) (hnode : t'.node = t.node)
    (hp : (t'.phase == TaskPhase.finished) = (t.phase == TaskPhase.finished)) (u : Nat) :
    doneTasks (A ++ t' :: B) u = doneTasks (A ++ t :: B) u := by
  rw [doneTasks_append_cons, doneTasks_append_cons, hnode, hp]

theorem doneTasks_set_finish (A B : List Task) (t t' : Task) (hnode : t'.node = t.node)
    (ht : t.phase ≠ .finished) (ht' : t'.phase = .finished) (u : Nat) :
    doneTasks (A ++ t' :: B) u = (doneTasks (A ++ t :: B) u || u == t.node) := by
  rw [doneTasks_append_cons, doneTasks_append_cons, hnode]
  have h1 : (t.phase == TaskPhase.finished) = false := by simpa using ht
  have h2 : (t'.phase == TaskPhase.finished) = true := by simpa using ht'
  have h3 : (t.node == u) = (u == t.node) := by
    by_cases h : t.node = u
    · simp [h]
    · have h' : ¬u = t.node := fun hh => h hh.symm
      simp [h, h']
  rw [h1, h2, h3]
  cases doneTasks A u <;> cases doneTasks B u <;> cases (u == t.node) <;> simp

theorem pendCount_set_eq (reg : Reg) (A B : List Task) (t t' : Task)
    (hnode : t'.node = t.node)
    (hp : (t'.phase == TaskPhase.finished) = (t.phase == TaskPhase.finished)) (u : Nat) :
    pendCount reg (A ++ t' :: B) u = pendCount reg (A ++ t :: B) u := by
  unfold pendCount
  congr 1
  apply List.filter_congr
  intro p _
  rw [doneTasks_set_eq A B t t' hnode hp]

theorem pendCount_set_finish (reg : Reg) (A B : List Task) (t t' : Task)
    (hnode : t'.node = t.node) (ht : t.phase ≠ .finished) (ht' : t'.phase = .finished)
    (hdone : doneTasks (A ++ t :: B) t.node = false) (u : Nat) :
    pendCount reg (A ++ t :: B) u
      = pendCount reg (A ++ t' :: B) u + (parentsOf reg u).count t.node := by
  unfold pendCount
  have hcongr : List.filter (fun p => !doneTasks (A ++ t' :: B) p) (parentsOf reg u)
      = List.filter (fun p => !(doneTasks (A ++ t :: B) p || p == t.node)) (parentsOf reg u) := by
    apply List.filter_congr
    intro p _
    rw [doneTasks_set_finish A B t t' hnode ht ht']
  rw [hcongr]
  exact length_filter_or_count (parentsOf reg u) (doneTasks (A ++ t :: B)) t.node hdone

theorem finishedCount_set_finish (A B : List Task) (t t' : Task)
    (ht : t.phase ≠ .finished) (ht' : t'.phase = .finished) :
    ((A ++ t' :: B).filter (fun x => x.phase == TaskPhase.finished)).length
      = ((A ++ t :: B).filter (fun x => x.phase == TaskPhase.finished)).length + 1 := by
  have h1 : (t.phase == TaskPhase.finished) = false := by simpa using ht
  have h2 : (t'.phase == TaskPhase.finished) = true := by simpa using ht'
  rw [List.filter_append, List.filter_append, List.filter_cons, List.filter_cons, h1, h2,
    if_pos rfl, if_neg (by simp)]
  simp only [List.length_append, List.length_cons]
  omega

theorem finishedCount_set_eq (A B : List Task) (t t' : Task)
    (hp : (t'.phase == TaskPhase.finished) = (t.phase == TaskPhase.finished)) :
    ((A ++ t' :: B).filter (fun x => x.phase == TaskPhase.finished)).length
      = ((A ++ t :: B).filter (fun x => x.phase == TaskPhase.finished)).length := by
  rw [List.filter_append, List.filter_append, List.filter_cons, List.filter_cons, hp]
  cases (t.phase == TaskPhase.finished) <;> simp

end Tidydag

namespace Tidydag

theorem map_set_same_field {β : Type} (ts : List Task) (i : Nat) (t t' : Task)
    (f : Task → β) (hget : ts.get? i = some t) (hf : f t' = f t) :
    (ts.set i t').map f = ts.map f := by
  rw [List.map_set, hf]
  apply set_get?_self
  rw [List.get?_eq_getElem?, List.getElem?_map, ← List.get?_eq_getElem?, hget]
  rfl

theorem noTask_iff_not_mem (ts : List Task) (u : Nat) :
    (∀ x ∈ ts, x.node ≠ u) ↔ u ∉ ts.map Task.node := by
  constructor
  · intro h hm
    rcases List.mem_map.mp hm with ⟨x, hx, hxu⟩
    exact h x hx hxu
  · intro h x hx hxu
    exact h (List.mem_map.mpr ⟨x, hx, hxu⟩)

theorem mem_transfer {A B : List Task} {t t' x : Task}
    (hx : x ∈ A ++ t :: B) : x = t ∨ x ∈ A ++ t' :: B := by
  rcases List.mem_append.mp hx with hx | hx
  · exact Or.inr (List.mem_append_left _ hx)
  · rcases List.mem_cons.mp hx with rfl | hx
    · exact Or.inl rfl
    · exact Or.inr (List.mem_append_right _ (List.mem_cons_of_mem _ hx))

/-- In a duplicate-free task list decomposed around `t`, no task in the side
lists shares `t`'s node. -/
theorem sides_node_ne {A B : List Task} {t : Task}
    (hnodup : ((A ++ t :: B).map Task.node).Nodup) :
    ∀ x, (x ∈ A ∨ x ∈ B) → x.node ≠ t.node := by
  intro x hx hxt
  have hxm : x ∈ A ++ t :: B := by
    rcases hx with hx | hx
    · exact List.mem_append_left _ hx
    · exact List.mem_append_right _ (List.mem_cons_of_mem _ hx)
  have htm : t ∈ A ++ t :: B := List.mem_append_right _ (List.mem_cons_self _ _)
  have hxeq := List.inj_on_of_nodup_map hnodup hxm htm hxt
  subst hxeq
  rw [List.map_append, List.map_cons] at hnodup
  rcases List.nodup_append.mp hnodup with ⟨_, hnB, hdisj⟩
  rcases hx with hx | hx
  · exact hdisj (List.mem_map.mpr ⟨x, hx, rfl⟩) (List.mem_cons_self _ _)
  · exact (List.nodup_cons.mp hnB).1 (List.mem_map.mpr ⟨x, hx, rfl⟩)

theorem status_out_record {reg : Reg} {beh : Nat → NodeBehavior} {e0 : List Nat}
    {c : RunState} (hinv : Inv reg beh e0 c) (t : Task) (ht : t ∈ c.tasks)
    (htf : t.phase ≠ .finished) :
    ∃ ni, infoFind c.sorter.info t.node = some ni ∧ ni.npredecessors = -1
      ∧ ni.successors = succsOf (registerAll reg) t.node := by
  have h := hinv.statusOut t ht htf
  rcases hf : infoFind c.sorter.info t.node with _ | ni
  · rw [npredsOf, hf] at h
    simp at h
  · refine ⟨ni, rfl, ?_, ?_⟩
    · rw [npredsOf, hf] at h
      simpa using h
    · rw [← hinv.succsEq t.node]
      exact (succsOf_eq_of_find _ _ _ hf).symm

theorem not_doneTasks_of_unfinished {reg : Reg} {beh : Nat → NodeBehavior} {e0 : List Nat}
    {c : RunState} (hinv : Inv reg beh e0 c) (t : Task) (ht : t ∈ c.tasks)
    (htf : t.phase ≠ .finished) : doneTasks c.tasks t.node = false := by
  by_contra h
  rw [Bool.not_eq_false] at h
  rcases (doneTasks_iff c.tasks t.node).mp h with ⟨x, hx, hxn, hxf⟩
  have := unique_task_of_nodes_nodup hinv.nodesNodup x hx t ht hxn
  subst this
  exact htf hxf

end Tidydag

namespace Tidydag

theorem npredsOf_zero_of_not_mem (l : InfoMap) (k : Nat) (h : k ∉ imKeys l) :
    npredsOf l k = 0 := by
  rw [npredsOf, (infoFind_eq_none_iff l k).mpr h]
  rfl

/-- After the `_visit` task for `t` completes (the task list becomes
`A ++ t' :: B` with `t'` finished) and the sorter receives `done(t.node)`,
all sorter bookkeeping fields of the invariant hold again. -/
theorem finish_sorter_fields {reg : Reg} {beh : Nat → NodeBehavior} {e0 : List Nat}
    {c : RunState}
    (hnodup : (reg.map Prod.fst).Nodup) (hinv : Inv reg beh e0 c)
    (A B : List Task) (t t' : Task)
    (hts : c.tasks = A ++ t :: B)
    (htf : t.phase ≠ .finished) (hnode : t'.node = t.node) (ht'f : t'.phase = .finished) :
    imKeys (sorterDone c.sorter t.node).info = imKeys (registerAll reg)
    ∧ (∀ u, succsOf (sorterDone c.sorter t.node).info u = succsOf (registerAll reg) u)
    ∧ (sorterDone c.sorter t.node).npassedout = (A ++ t' :: B).length
    ∧ (sorterDone c.sorter t.node).nfinished
        = ((A ++ t' :: B).filter (fun x => x.phase == TaskPhase.finished)).length
    ∧ (∀ u ∈ imKeys (registerAll reg), (∀ x ∈ A ++ t' :: B, x.node ≠ u) →
        npredsOf (sorterDone c.sorter t.node).info u
          = (pendCount reg (A ++ t' :: B) u : Int))
    ∧ (∀ x ∈ A ++ t' :: B, x.phase ≠ .finished →
        npredsOf (sorterDone c.sorter t.node).info x.node = -1)
    ∧ (∀ x ∈ A ++ t' :: B, x.phase = .finished →
        npredsOf (sorterDone c.sorter t.node).info x.node = -2)
    ∧ (∀ u, u ∈ (sorterDone c.sorter t.node).readyNodes ↔
        (u ∈ imKeys (registerAll reg) ∧ (∀ x ∈ A ++ t' :: B, x.node ≠ u)
          ∧ pendCount reg (A ++ t' :: B) u = 0))
    ∧ (sorterDone c.sorter t.node).readyNodes.Nodup := by
  have ht : t ∈ c.tasks := by
    rw [hts]
    exact List.mem_append_right _ (List.mem_cons_self _ _)
  have hdone_t : doneTasks c.tasks t.node = false :=
    not_doneTasks_of_unfinished hinv t ht htf
  obtain ⟨ni, hni, hout, hsucc⟩ := status_out_record hinv t ht htf
  have hmemss : ∀ w ∈ ni.successors, w ∈ imKeys c.sorter.info := by
    intro w hw
    rw [hsucc] at hw
    rw [hinv.keysEq]
    exact mem_keys_of_mem_succs reg t.node w hw
  obtain ⟨SDnp, SDsuccs, SDkeys, SDready, SDpass, SDfin⟩ :=
    sorterDone_spec c.sorter t.node ni hni hout hmemss
  have hcnt : ∀ k, ni.successors.count k = (parentsOf reg k).count t.node := by
    intro k
    rw [hsucc]
    exact count_succsOf_registerAll reg hnodup t.node k
  have hcnt_task : ∀ x ∈ c.tasks, ni.successors.count x.node = 0 := by
    intro x hx
    rw [hsucc]
    exact count_succs_zero_of_unfinished hnodup hinv t ht htf x hx
  have htn0 : ni.successors.count t.node = 0 := hcnt_task t ht
  have hmapn : (A ++ t' :: B).map Task.node = c.tasks.map Task.node := by
    rw [hts]
    simp [hnode]
  have hnt : ∀ u, (∀ x ∈ A ++ t' :: B, x.node ≠ u) ↔ (∀ x ∈ c.tasks, x.node ≠ u) := by
    intro u
    rw [noTask_iff_not_mem, noTask_iff_not_mem, hmapn]
  have hpend : ∀ u, pendCount reg c.tasks u
      = pendCount reg (A ++ t' :: B) u + (parentsOf reg u).count t.node := by
    intro u
    rw [hts]
    rw [hts] at hdone_t
    exact pendCount_set_finish reg A B t t' hnode htf ht'f hdone_t u
  have hside : ∀ x, (x ∈ A ∨ x ∈ B) → x.node ≠ t.node := by
    have := hinv.nodesNodup
    rw [hts] at this
    exact sides_node_ne this
  have ht'mem : t' ∈ A ++ t' :: B := List.mem_append_right _ (List.mem_cons_self _ _)
  have hsidemem : ∀ x, (x ∈ A ∨ x ∈ B) → x ∈ c.tasks := by
    intro x hx
    rw [hts]
    rcases hx with hx | hx
    · exact List.mem_append_left _ hx
    · exact List.mem_append_right _ (List.mem_cons_of_mem _ hx)
  have hmem' : ∀ x ∈ A ++ t' :: B, x = t' ∨ (x ∈ c.tasks ∧ (x ∈ A ∨ x ∈ B)) := by
    intro x hx
    rcases List.mem_append.mp hx with hx | hx
    · exact Or.inr ⟨hsidemem x (Or.inl hx), Or.inl hx⟩
    · rcases List.mem_cons.mp hx with rfl | hx
      · exact Or.inl rfl
      · exact Or.inr ⟨hsidemem x (Or.inr hx), Or.inr hx⟩
  have hlen : c.tasks.length = (A ++ t' :: B).length := by
    rw [hts]
    simp
  -- count of u in the old ready list, as a membership statement
  have holdcount : ∀ u, c.sorter.readyNodes.count u
      = if u ∈ c.sorter.readyNodes then 1 else 0 := by
    intro u
    by_cases hu : u ∈ c.sorter.readyNodes
    · rw [if_pos hu]
      have h1 := (List.nodup_iff_count_le_one.mp hinv.readyNodup) u
      have h2 := List.count_pos_iff.mpr hu
      omega
    · rw [if_neg hu, List.count_eq_zero]
      exact hu
  refine ⟨SDkeys.trans hinv.keysEq, fun u => (SDsuccs u).trans (hinv.succsEq u), ?_, ?_,
    ?_, ?_, ?_, ?_, ?_⟩
  · rw [SDpass, hinv.passedEq, hlen]
  · rw [SDfin, hinv.finishedEq, hts]
    exact (finishedCount_set_finish A B t t' htf ht'f).symm
  · -- statusPending
    intro u hu hnt'u
    have hntu := (hnt u).mp hnt'u
    have hut : u ≠ t.node := by
      intro he
      exact hnt'u t' ht'mem (by rw [hnode, he])
    rw [SDnp u, if_neg hut]
    have hP := hinv.statusPending u hu hntu
    have hPC := hpend u
    rw [hP, hcnt u]
    push_cast
    omega
  · -- statusOut
    intro x hx hxf
    rcases hmem' x hx with rfl | ⟨hxc, hxs⟩
    · exact absurd ht'f hxf
    · have hxt : x.node ≠ t.node := hside x hxs
      rw [SDnp x.node, if_neg hxt, hcnt_task x hxc]
      have := hinv.statusOut x hxc hxf
      push_cast
      omega
  · -- statusDone
    intro x hx hxf
    rcases hmem' x hx with rfl | ⟨hxc, hxs⟩
    · rw [hnode, SDnp t.node, if_pos rfl, htn0]
      norm_num
    · have hxt : x.node ≠ t.node := hside x hxs
      rw [SDnp x.node, if_neg hxt, hcnt_task x hxc]
      have := hinv.statusDone x hxc hxf
      push_cast
      omega
  · -- readyChar
    intro u
    rw [← List.count_pos_iff, SDready u, holdcount u]
    by_cases hcase : ∀ x ∈ A ++ t' :: B, x.node ≠ u
    · have hntu := (hnt u).mp hcase
      have hut : u ≠ t.node := fun he => hcase t' ht'mem (by rw [hnode, he])
      rw [if_neg hut]
      by_cases hku : u ∈ imKeys (registerAll reg)
      · have hP := hinv.statusPending u hku hntu
        have hPC := hpend u
        have hold : u ∈ c.sorter.readyNodes ↔ pendCount reg c.tasks u = 0 := by
          rw [hinv.readyChar u]
          exact ⟨fun h => h.2.2, fun h => ⟨hku, hntu, h⟩⟩
        rw [hP, hcnt u]
        constructor
        · intro hlt
          refine ⟨hku, hcase, ?_⟩
          by_cases hor : u ∈ c.sorter.readyNodes
          · have hP0 := hold.mp hor
            omega
          · rw [if_neg hor] at hlt
            by_cases hc2 : 1 ≤ (pendCount reg c.tasks u : Int)
                ∧ (pendCount reg c.tasks u : Int) ≤ ((parentsOf reg u).count t.node : Int)
            · push_cast at hc2
              omega
            · rw [if_neg hc2] at hlt
              omega
        · rintro ⟨_, _, hD⟩
          by_cases hor : u ∈ c.sorter.readyNodes
          · rw [if_pos hor]
            omega
          · rw [if_neg hor]
            have hPne : pendCount reg c.tasks u ≠ 0 := fun h => hor (hold.mpr h)
            rw [if_pos (by push_cast; omega)]
            omega
      · have hnp0 : npredsOf c.sorter.info u = 0 :=
          npredsOf_zero_of_not_mem _ u (by rw [hinv.keysEq]; exact hku)
        have hor : u ∉ c.sorter.readyNodes := fun h => hku ((hinv.readyChar u).mp h).1
        rw [if_neg hor, hnp0, if_neg (by rintro ⟨h1, _⟩; omega)]
        constructor
        · intro h
          omega
        · rintro ⟨h, _⟩
          exact absurd h hku
    · push_neg at hcase
      rcases hcase with ⟨x, hx, hxu⟩
      have hrhs : ¬(u ∈ imKeys (registerAll reg) ∧ (∀ y ∈ A ++ t' :: B, y.node ≠ u)
          ∧ pendCount reg (A ++ t' :: B) u = 0) := by
        rintro ⟨_, hno, _⟩
        exact hno x hx hxu
      have hor : u ∉ c.sorter.readyNodes := by
        intro h
        have hn := ((hinv.readyChar u).mp h).2.1
        rcases hmem' x hx with rfl | ⟨hxc, _⟩
        · exact hn t ht (hnode.symm.trans hxu)
        · exact hn x hxc hxu
      rw [if_neg hor]
      have hnewly : ¬(1 ≤ (if u = t.node then (-2 : Int) else npredsOf c.sorter.info u)
          ∧ (if u = t.node then (-2 : Int) else npredsOf c.sorter.info u)
              ≤ (ni.successors.count u : Int)) := by
        rcases hmem' x hx with rfl | ⟨hxc, hxs⟩
        · rw [← hxu, hnode, if_pos rfl]
          rintro ⟨h1, _⟩
          omega
        · have hxt : x.node ≠ t.node := hside x hxs
          rw [← hxu, if_neg hxt]
          by_cases hxf : x.phase = .finished
          · have := hinv.statusDone x hxc hxf
            rintro ⟨h1, _⟩
            omega
          · have := hinv.statusOut x hxc hxf
            rintro ⟨h1, _⟩
            omega
      rw [if_neg hnewly]
      constructor
      · intro h
        omega
      · intro h
        exact absurd h hrhs
  · -- readyNodup
    rw [List.nodup_iff_count_le_one]
    intro u
    rw [SDready u, holdcount u]
    by_cases hor : u ∈ c.sorter.readyNodes
    · rcases (hinv.readyChar u).mp hor with ⟨hku, hntu, hP0⟩
      have hut : u ≠ t.node := fun he => hntu t (by
        rw [hts]
        exact List.mem_append_right _ (List.mem_cons_self _ _)) he.symm
      have hP := hinv.statusPending u hku hntu
      rw [if_pos hor, if_neg hut, hP, hP0, if_neg (by rintro ⟨h1, _⟩; norm_num at h1)]
    · rw [if_neg hor]
      by_cases hnewly : 1 ≤ (if u = t.node then (-2 : Int) else npredsOf c.sorter.info u)
          ∧ (if u = t.node then (-2 : Int) else npredsOf c.sorter.info u)
              ≤ (ni.successors.count u : Int)
      · rw [if_pos hnewly]
      · rw [if_neg hnewly]
        omega

end Tidydag

namespace Tidydag

theorem mem_set_of_ne {α : Type} {l : List α} {i : Nat} {t t' x : α}
    (hget : l.get? i = some t) (hx : x ∈ l) (hne : x ≠ t) : x ∈ l.set i t' := by
  rw [eq_take_cons_drop_of_get? l i t hget] at hx
  rw [set_eq_take_cons_drop_of_get? l i t t' hget]
  rcases List.mem_append.mp hx with hx | hx
  · exact List.mem_append_left _ hx
  · rcases List.mem_cons.mp hx with rfl | hx
    · exact absurd rfl hne
    · exact List.mem_append_right _ (List.mem_cons_of_mem _ hx)

theorem stepCancel_none (c : RunState) (i : Nat) (h : c.tasks.get? i = none) :
    stepCancel c i = c := by
  unfold stepCancel
  rw [h]

theorem stepCancel_some (c : RunState) (i : Nat) (t : Task) (h : c.tasks.get? i = some t) :
    stepCancel c i =
      if c.aborted = true ∧ (t.phase = .spawned ∨ t.phase = .executing) then
        { c with tasks := c.tasks.set i { t with phase := .cancelled } }
      else c := by
  unfold stepCancel
  rw [h]

theorem inv_stepCancel {reg : Reg} {beh : Nat → NodeBehavior} {e0 : List Nat} {c : RunState}
    (hinv : Inv reg beh e0 c) (i : Nat) : Inv reg beh e0 (stepCancel c i) := by
  rcases hget : c.tasks.get? i with _ | t
  · rw [stepCancel_none c i hget]
    exact hinv
  · rw [stepCancel_some c i t hget]
    by_cases hcond : c.aborted = true ∧ (t.phase = .spawned ∨ t.phase = .executing)
    swap
    · rw [if_neg hcond]
      exact hinv
    rw [if_pos hcond]
    have ht : t ∈ c.tasks := List.get?_mem hget
    have htf : t.phase ≠ .finished := by
      rcases hcond.2 with h | h <;> rw [h] <;> intro hh <;> cases hh
    have htc : t.phase ≠ .crashed := by
      rcases hcond.2 with h | h <;> rw [h] <;> intro hh <;> cases hh
    have hts := eq_take_cons_drop_of_get? c.tasks i t hget
    have hts' := set_eq_take_cons_drop_of_get? c.tasks i t
      { t with phase := .cancelled } hget
    have hpeq : (({ t with phase := .cancelled } : Task).phase == TaskPhase.finished)
        = (t.phase == TaskPhase.finished) := by
      rcases hcond.2 with h | h <;> rw [h] <;> rfl
    have hmapn := map_set_same_field c.tasks i t { t with phase := .cancelled }
      Task.node hget rfl
    have hmapid := map_set_same_field c.tasks i t { t with phase := .cancelled }
      Task.id hget rfl
    have hpc : ∀ u, pendCount reg (c.tasks.set i { t with phase := .cancelled }) u
        = pendCount reg c.tasks u := by
      intro u
      rw [hts']
      conv_rhs => rw [hts]
      exact pendCount_set_eq reg _ _ t { t with phase := .cancelled } rfl hpeq u
    have hfc : ((c.tasks.set i { t with phase := .cancelled }).filter
          (fun x => x.phase == TaskPhase.finished)).length
        = (c.tasks.filter (fun x => x.phase == TaskPhase.finished)).length := by
      rw [hts']
      conv_rhs => rw [hts]
      exact finishedCount_set_eq _ _ t { t with phase := .cancelled } hpeq
    have hnoT : ∀ u, (∀ x ∈ c.tasks.set i { t with phase := .cancelled }, x.node ≠ u)
        ↔ (∀ x ∈ c.tasks, x.node ≠ u) := by
      intro u
      rw [noTask_iff_not_mem, noTask_iff_not_mem, hmapn]
    have hlen : (c.tasks.set i { t with phase := .cancelled }).length
        = c.tasks.length := List.length_set _ _ _
    have hex : ∀ (P : Task → Prop), ¬P { t with phase := .cancelled } → ¬P t →
        ((∃ x ∈ c.tasks.set i { t with phase := .cancelled }, P x)
          ↔ (∃ x ∈ c.tasks, P x)) := by
      intro P hP' hPt
      constructor
      · rintro ⟨x, hx, hPx⟩
        rcases List.mem_or_eq_of_mem_set hx with hx | rfl
        · exact ⟨x, hx, hPx⟩
        · exact absurd hPx hP'
      · rintro ⟨x, hx, hPx⟩
        exact ⟨x, mem_set_of_ne hget hx (fun he => hPt (he ▸ hPx)), hPx⟩
    refine {
      keysEq := hinv.keysEq
      succsEq := hinv.succsEq
      nodesNodup := by
        show ((c.tasks.set i { t with phase := .cancelled }).map Task.node).Nodup
        rw [hmapn]
        exact hinv.nodesNodup
      idsEq := by
        show (c.tasks.set i { t with phase := .cancelled }).map Task.id
          = List.range' 1 (c.tasks.set i { t with phase := .cancelled }).length
        rw [hmapid, hlen]
        exact hinv.idsEq
      counterEq := by
        show c.idCounter = (c.tasks.set i { t with phase := .cancelled }).length
        rw [hlen]
        exact hinv.counterEq
      passedEq := by
        show c.sorter.npassedout = (c.tasks.set i { t with phase := .cancelled }).length
        rw [hlen]
        exact hinv.passedEq
      finishedEq := by
        show c.sorter.nfinished = _
        rw [hfc]
        exact hinv.finishedEq
      taskKeys := forall_mem_set _ hinv.taskKeys (hinv.taskKeys t ht)
      statusPending := by
        intro u hu hn
        show npredsOf c.sorter.info u = _
        rw [hpc u]
        exact hinv.statusPending u hu ((hnoT u).mp hn)
      statusOut := by
        intro x hx hxf
        rcases List.mem_or_eq_of_mem_set hx with hx | rfl
        · exact hinv.statusOut x hx hxf
        · exact hinv.statusOut t ht htf
      statusDone := by
        intro x hx hxf
        rcases List.mem_or_eq_of_mem_set hx with hx | rfl
        · exact hinv.statusDone x hx hxf
        · simp at hxf
      readyChar := by
        intro u
        show u ∈ c.sorter.readyNodes ↔ _
        rw [hinv.readyChar u]
        constructor
        · rintro ⟨h1, h2, h3⟩
          exact ⟨h1, (hnoT u).mpr h2, by rw [hpc u]; exact h3⟩
        · rintro ⟨h1, h2, h3⟩
          rw [hpc u] at h3
          exact ⟨h1, (hnoT u).mp h2, h3⟩
      readyNodup := hinv.readyNodup
      executedChar := by
        intro j
        show j ∈ c.executed ↔ _
        rw [hinv.executedChar j]
        exact or_congr_right (hex
          (fun x => x.phase = .finished ∧ x.invoked = true
            ∧ behSuccess beh x.node = true ∧ x.id = j)
          (fun hP => by have := hP.1; simp at this)
          (fun hP => htf hP.1)).symm
      executedNodup := hinv.executedNodup
      stopChar := by
        show c.stop = true ↔ _
        rw [hinv.stopChar]
        exact (hex
          (fun x => x.phase = .finished ∧ x.invoked = true ∧ behFails beh x.node = true)
          (fun hP => by have := hP.1; simp at this)
          (fun hP => htf hP.1)).symm
      successEq := hinv.successEq
      abortedChar := by
        show c.aborted = true ↔ _
        rw [hinv.abortedChar]
        exact (hex (fun x => x.phase = .crashed)
          (fun hP => by simp at hP)
          (fun hP => htc hP)).symm
      abortedDriver := hinv.abortedDriver
      crashedThrows := by
        intro x hx hxf
        rcases List.mem_or_eq_of_mem_set hx with hx | rfl
        · exact hinv.crashedThrows x hx hxf
        · simp at hxf
      spawnedNotInvoked := by
        intro x hx hxf
        rcases List.mem_or_eq_of_mem_set hx with hx | rfl
        · exact hinv.spawnedNotInvoked x hx hxf
        · simp at hxf
      executingInvoked := by
        intro x hx hxf
        rcases List.mem_or_eq_of_mem_set hx with hx | rfl
        · exact hinv.executingInvoked x hx hxf
        · simp at hxf
      crashedInvoked := by
        intro x hx hxf
        rcases List.mem_or_eq_of_mem_set hx with hx | rfl
        · exact hinv.crashedInvoked x hx hxf
        · simp at hxf
      finishedSkip := by
        intro x hx h1 h2
        rcases List.mem_or_eq_of_mem_set hx with hx | rfl
        · exact hinv.finishedSkip x hx h1 h2
        · simp at h1
      finishedReturns := by
        intro x hx h1 h2
        rcases List.mem_or_eq_of_mem_set hx with hx | rfl
        · exact hinv.finishedReturns x hx h1 h2
        · simp at h1
      invokedFresh := by
        intro x hx hxi
        rcases List.mem_or_eq_of_mem_set hx with hx | rfl
        · exact hinv.invokedFresh x hx hxi
        · exact hinv.invokedFresh t ht hxi
      cancelledAborted := by
        intro x hx hxf
        exact hcond.1
      driverExit := hinv.driverExit
      lastNodeSet := by
        intro hE
        apply hinv.lastNodeSet
        rcases hE with ⟨x, hx, hPx⟩
        rcases List.mem_or_eq_of_mem_set hx with hx | rfl
        · exact ⟨x, hx, hPx⟩
        · have h1 := hPx.1
          simp at h1
      stopReason := by
        intro hs
        rcases hinv.stopReason hs with ⟨x, hx, h1, h2, h3, h4⟩
        exact ⟨x, mem_set_of_ne hget hx (fun he => htf (he ▸ h1)), h1, h2, h3, h4⟩
      parentsOK := by
        intro x hx p hp
        have htrans : ∀ tp ∈ c.tasks, tp.node = p ∧ tp.phase = .finished
            ∧ ¬(tp.invoked = true ∧ behFails beh p = true) →
            ∃ tp' ∈ c.tasks.set i { t with phase := .cancelled },
              tp'.node = p ∧ tp'.phase = .finished
                ∧ ¬(tp'.invoked = true ∧ behFails beh p = true) := by
          intro tp htp hP
          exact ⟨tp, mem_set_of_ne hget htp (fun he => htf (he ▸ hP.2.1)), hP⟩
        rcases List.mem_or_eq_of_mem_set hx with hx | rfl
        · rcases hinv.parentsOK x hx p hp with ⟨tp, htp, hP⟩
          exact htrans tp htp hP
        · rcases hinv.parentsOK t ht p hp with ⟨tp, htp, hP⟩
          exact htrans tp htp hP }

end Tidydag

namespace Tidydag

theorem active_of_unfinished {reg : Reg} {beh : Nat → NodeBehavior} {e0 : List Nat}
    {c : RunState} (hinv : Inv reg beh e0 c) (t : Task) (ht : t ∈ c.tasks)
    (htf : t.phase ≠ .finished) : isActive c.sorter = true := by
  have hlt : (c.tasks.filter (fun x => x.phase == TaskPhase.finished)).length
      < c.tasks.length := by
    have hle := List.length_filter_le (fun x => x.phase == TaskPhase.finished) c.tasks
    rcases Nat.lt_or_ge (c.tasks.filter (fun x => x.phase == TaskPhase.finished)).length
        c.tasks.length with h | h
    · exact h
    · have heq : (c.tasks.filter (fun x => x.phase == TaskPhase.finished)).length
          = c.tasks.length := by omega
      have := List.filter_length_eq_length.mp heq t ht
      rw [beq_iff_eq] at this
      exact absurd this htf
  rw [isActive, hinv.finishedEq, hinv.passedEq]
  simp [hlt]

theorem stepStart_none (c : RunState) (i : Nat) (h : c.tasks.get? i = none) :
    stepStart c i = c := by
  unfold stepStart
  rw [h]

theorem stepStart_some (c : RunState) (i : Nat) (t : Task) (h : c.tasks.get? i = some t) :
    stepStart c i =
      if t.phase = .spawned ∧ c.aborted = false then
        if t.id ∈ c.executed then
          { c with
            sorter := sorterDone c.sorter t.node
            tasks := c.tasks.set i { t with phase := .finished } }
        else
          { c with tasks := c.tasks.set i { t with phase := .executing, invoked := true } }
      else c := by
  unfold stepStart
  rw [h]

theorem inv_stepStart {reg : Reg} {beh : Nat → NodeBehavior} {e0 : List Nat} {c : RunState}
    (hnodup : (reg.map Prod.fst).Nodup) (hinv : Inv reg beh e0 c) (i : Nat) :
    Inv reg beh e0 (stepStart c i) := by
  rcases hget : c.tasks.get? i with _ | t
  · rw [stepStart_none c i hget]
    exact hinv
  · rw [stepStart_some c i t hget]
    by_cases hcond : t.phase = .spawned ∧ c.aborted = false
    swap
    · rw [if_neg hcond]
      exact hinv
    rw [if_pos hcond]
    have ht : t ∈ c.tasks := List.get?_mem hget
    have htf : t.phase ≠ .finished := by
      rw [hcond.1]
      intro hh
      cases hh
    have htc : t.phase ≠ .crashed := by
      rw [hcond.1]
      intro hh
      cases hh
    have hi0 : t.invoked = false := hinv.spawnedNotInvoked t ht hcond.1
    have hts := eq_take_cons_drop_of_get? c.tasks i t hget
    by_cases hskip : t.id ∈ c.executed
    · -- checkpoint-skip path: mark done without invoking
      rw [if_pos hskip]
      have hts' := set_eq_take_cons_drop_of_get? c.tasks i t
        { t with phase := .finished } hget
      obtain ⟨Fkeys, Fsuccs, Fpass, Ffin, Fpend, Fout, Fdone, Fready, Fnodup⟩ :=
        finish_sorter_fields hnodup hinv (c.tasks.take i) (c.tasks.drop (i + 1)) t
          { t with phase := .finished } hts htf rfl rfl
      have hmapn := map_set_same_field c.tasks i t { t with phase := .finished }
        Task.node hget rfl
      have hmapid := map_set_same_field c.tasks i t { t with phase := .finished }
        Task.id hget rfl
      have hlen : (c.tasks.set i { t with phase := .finished }).length
          = c.tasks.length := List.length_set _ _ _
      have hex : ∀ (P : Task → Prop), ¬P { t with phase := .finished } → ¬P t →
          ((∃ x ∈ c.tasks.set i { t with phase := .finished }, P x)
            ↔ (∃ x ∈ c.tasks, P x)) := by
        intro P hP' hPt
        constructor
        · rintro ⟨x, hx, hPx⟩
          rcases List.mem_or_eq_of_mem_set hx with hx | rfl
          · exact ⟨x, hx, hPx⟩
          · exact absurd hPx hP'
        · rintro ⟨x, hx, hPx⟩
          exact ⟨x, mem_set_of_ne hget hx (fun he => hPt (he ▸ hPx)), hPx⟩
      refine {
        keysEq := Fkeys
        succsEq := Fsuccs
        nodesNodup := by
          show ((c.tasks.set i { t with phase := .finished }).map Task.node).Nodup
          rw [hmapn]
          exact hinv.nodesNodup
        idsEq := by
          show (c.tasks.set i { t with phase := .finished }).map Task.id
            = List.range' 1 (c.tasks.set i { t with phase := .finished }).length
          rw [hmapid, hlen]
          exact hinv.idsEq
        counterEq := by
          show c.idCounter = (c.tasks.set i { t with phase := .finished }).length
          rw [hlen]
          exact hinv.counterEq
        passedEq := by
          show (sorterDone c.sorter t.node).npassedout = _
          rw [Fpass, ← hts']
        finishedEq := by
          show (sorterDone c.sorter t.node).nfinished = _
          rw [Ffin, ← hts']
        taskKeys := forall_mem_set _ hinv.taskKeys (hinv.taskKeys t ht)
        statusPending := by
          intro u hu hn
          show npredsOf (sorterDone c.sorter t.node).info u = _
          rw [hts'] at hn ⊢
          exact Fpend u hu hn
        statusOut := by
          intro x hx hxf
          rw [hts'] at hx
          exact Fout x hx hxf
        statusDone := by
          intro x hx hxf
          rw [hts'] at hx
          exact Fdone x hx hxf
        readyChar := by
          intro u
          show u ∈ (sorterDone c.sorter t.node).readyNodes ↔ _
          rw [hts']
          exact Fready u
        readyNodup := Fnodup
        executedChar := by
          intro j
          show j ∈ c.executed ↔ _
          rw [hinv.executedChar j]
          exact or_congr_right (hex
            (fun x => x.phase = .finished ∧ x.invoked = true
              ∧ behSuccess beh x.node = true ∧ x.id = j)
            (fun hP => by
              have h2 := hP.2.1
              show False
              rw [show ({ t with phase := TaskPhase.finished } : Task).invoked
                  = t.invoked from rfl, hi0] at h2
              exact absurd h2 (by decide))
            (fun hP => htf hP.1)).symm
        executedNodup := hinv.executedNodup
        stopChar := by
          show c.stop = true ↔ _
          rw [hinv.stopChar]
          exact (hex
            (fun x => x.phase = .finished ∧ x.invoked = true ∧ behFails beh x.node = true)
            (fun hP => by
              have h2 := hP.2.1
              show False
              rw [show ({ t with phase := TaskPhase.finished } : Task).invoked
                  = t.invoked from rfl, hi0] at h2
              exact absurd h2 (by decide))
            (fun hP => htf hP.1)).symm
        successEq := hinv.successEq
        abortedChar := by
          show c.aborted = true ↔ _
          rw [hinv.abortedChar]
          exact (hex (fun x => x.phase = .crashed)
            (fun hP => by simp at hP)
            (fun hP => htc hP)).symm
        abortedDriver := hinv.abortedDriver
        crashedThrows := by
          intro x hx hxf
          rcases List.mem_or_eq_of_mem_set hx with hx | rfl
          · exact hinv.crashedThrows x hx hxf
          · simp at hxf
        spawnedNotInvoked := by
          intro x hx hxf
          rcases List.mem_or_eq_of_mem_set hx with hx | rfl
          · exact hinv.spawnedNotInvoked x hx hxf
          · simp at hxf
        executingInvoked := by
          intro x hx hxf
          rcases List.mem_or_eq_of_mem_set hx with hx | rfl
          · exact hinv.executingInvoked x hx hxf
          · simp at hxf
        crashedInvoked := by
          intro x hx hxf
          rcases List.mem_or_eq_of_mem_set hx with hx | rfl
          · exact hinv.crashedInvoked x hx hxf
          · simp at hxf
        finishedSkip := by
          intro x hx h1 h2
          rcases List.mem_or_eq_of_mem_set hx with hx | rfl
          · exact hinv.finishedSkip x hx h1 h2
          · exact hskip
        finishedReturns := by
          intro x hx h1 h2
          rcases List.mem_or_eq_of_mem_set hx with hx | rfl
          · exact hinv.finishedReturns x hx h1 h2
          · rw [show ({ t with phase := TaskPhase.finished } : Task).invoked
                = t.invoked from rfl, hi0] at h2
            exact absurd h2 (by decide)
        invokedFresh := by
          intro x hx hxi
          rcases List.mem_or_eq_of_mem_set hx with hx | rfl
          · exact hinv.invokedFresh x hx hxi
          · exact hinv.invokedFresh t ht hxi
        cancelledAborted := by
          intro x hx hxf
          rcases List.mem_or_eq_of_mem_set hx with hx | rfl
          · exact hinv.cancelledAborted x hx hxf
          · simp at hxf
        driverExit := by
          intro hdf
          rcases hinv.driverExit hdf with ha | hs | hia
          · rw [hcond.2] at ha
            exact absurd ha (by decide)
          · exact Or.inr (Or.inl hs)
          · rw [active_of_unfinished hinv t ht htf] at hia
            exact absurd hia (by decide)
        lastNodeSet := by
          intro hE
          apply hinv.lastNodeSet
          rcases hE with ⟨x, hx, hPx⟩
          rcases List.mem_or_eq_of_mem_set hx with hx | rfl
          · exact ⟨x, hx, hPx⟩
          · have h2 := hPx.2
            rw [show ({ t with phase := TaskPhase.finished } : Task).invoked
                = t.invoked from rfl, hi0] at h2
            exact absurd h2 (by decide)
        stopReason := by
          intro hs
          rcases hinv.stopReason hs with ⟨x, hx, h1, h2, h3, h4⟩
          exact ⟨x, mem_set_of_ne hget hx (fun he => htf (he ▸ h1)), h1, h2, h3, h4⟩
        parentsOK := by
          intro x hx p hp
          have htrans : ∀ tp ∈ c.tasks, tp.node = p ∧ tp.phase = .finished
              ∧ ¬(tp.invoked = true ∧ behFails beh p = true) →
              ∃ tp' ∈ c.tasks.set i { t with phase := .finished },
                tp'.node = p ∧ tp'.phase = .finished
                  ∧ ¬(tp'.invoked = true ∧ behFails beh p = true) := by
            intro tp htp hP
            exact ⟨tp, mem_set_of_ne hget htp (fun he => htf (he ▸ hP.2.1)), hP⟩
          rcases List.mem_or_eq_of_mem_set hx with hx | rfl
          · rcases hinv.parentsOK x hx p hp with ⟨tp, htp, hP⟩
            exact htrans tp htp hP
          · rcases hinv.parentsOK t ht p hp with ⟨tp, htp, hP⟩
            exact htrans tp htp hP }
    · -- invoke path: enter `await node.execute(...)`
      rw [if_neg hskip]
      have hmapn := map_set_same_field c.tasks i t
        { t with phase := .executing, invoked := true } Task.node hget rfl
      have hmapid := map_set_same_field c.tasks i t
        { t with phase := .executing, invoked := true } Task.id hget rfl
      have hts' := set_eq_take_cons_drop_of_get? c.tasks i t
        { t with phase := .executing, invoked := true } hget
      have hpeq : (({ t with phase := .executing, invoked := true } : Task).phase
          == TaskPhase.finished) = (t.phase == TaskPhase.finished) := by
        rw [hcond.1]
        rfl
      have hpc : ∀ u, pendCount reg
          (c.tasks.set i { t with phase := .executing, invoked := true }) u
          = pendCount reg c.tasks u := by
        intro u
        rw [hts']
        conv_rhs => rw [hts]
        exact pendCount_set_eq reg _ _ t
          { t with phase := .executing, invoked := true } rfl hpeq u
      have hfc : ((c.tasks.set i { t with phase := .executing, invoked := true }).filter
            (fun x => x.phase == TaskPhase.finished)).length
          = (c.tasks.filter (fun x => x.phase == TaskPhase.finished)).length := by
        rw [hts']
        conv_rhs => rw [hts]
        exact finishedCount_set_eq _ _ t
          { t with phase := .executing, invoked := true } hpeq
      have hnoT : ∀ u,
          (∀ x ∈ c.tasks.set i { t with phase := .executing, invoked := true }, x.node ≠ u)
          ↔ (∀ x ∈ c.tasks, x.node ≠ u) := by
        intro u
        rw [noTask_iff_not_mem, noTask_iff_not_mem, hmapn]
      have hlen : (c.tasks.set i { t with phase := .executing, invoked := true }).length
          = c.tasks.length := List.length_set _ _ _
      have hex : ∀ (P : Task → Prop), ¬P { t with phase := .executing, invoked := true }
          → ¬P t →
          ((∃ x ∈ c.tasks.set i { t with phase := .executing, invoked := true }, P x)
            ↔ (∃ x ∈ c.tasks, P x)) := by
        intro P hP' hPt
        constructor
        · rintro ⟨x, hx, hPx⟩
          rcases List.mem_or_eq_of_mem_set hx with hx | rfl
          · exact ⟨x, hx, hPx⟩
          · exact absurd hPx hP'
        · rintro ⟨x, hx, hPx⟩
          exact ⟨x, mem_set_of_ne hget hx (fun he => hPt (he ▸ hPx)), hPx⟩
      refine {
        keysEq := hinv.keysEq
        succsEq := hinv.succsEq
        nodesNodup := by
          show ((c.tasks.set i { t with phase := .executing, invoked := true }).map
            Task.node).Nodup
          rw [hmapn]
          exact hinv.nodesNodup
        idsEq := by
          show _ = List.range' 1
            (c.tasks.set i { t with phase := .executing, invoked := true }).length
          rw [hmapid, hlen]
          exact hinv.idsEq
        counterEq := by
          show c.idCounter = _
          rw [hlen]
          exact hinv.counterEq
        passedEq := by
          show c.sorter.npassedout = _
          rw [hlen]
          exact hinv.passedEq
        finishedEq := by
          show c.sorter.nfinished = _
          rw [hfc]
          exact hinv.finishedEq
        taskKeys := forall_mem_set _ hinv.taskKeys (hinv.taskKeys t ht)
        statusPending := by
          intro u hu hn
          show npredsOf c.sorter.info u = _
          rw [hpc u]
          exact hinv.statusPending u hu ((hnoT u).mp hn)
        statusOut := by
          intro x hx hxf
          rcases List.mem_or_eq_of_mem_set hx with hx | rfl
          · exact hinv.statusOut x hx hxf
          · exact hinv.statusOut t ht htf
        statusDone := by
          intro x hx hxf
          rcases List.mem_or_eq_of_mem_set hx with hx | rfl
          · exact hinv.statusDone x hx hxf
          · simp at hxf
        readyChar := by
          intro u
          show u ∈ c.sorter.readyNodes ↔ _
          rw [hinv.readyChar u]
          constructor
          · rintro ⟨h1, h2, h3⟩
            exact ⟨h1, (hnoT u).mpr h2, by rw [hpc u]; exact h3⟩
          · rintro ⟨h1, h2, h3⟩
            rw [hpc u] at h3
            exact ⟨h1, (hnoT u).mp h2, h3⟩
        readyNodup := hinv.readyNodup
        executedChar := by
          intro j
          show j ∈ c.executed ↔ _
          rw [hinv.executedChar j]
          exact or_congr_right (hex
            (fun x => x.phase = .finished ∧ x.invoked = true
              ∧ behSuccess beh x.node = true ∧ x.id = j)
            (fun hP => by have := hP.1; simp at this)
            (fun hP => htf hP.1)).symm
        executedNodup := hinv.executedNodup
        stopChar := by
          show c.stop = true ↔ _
          rw [hinv.stopChar]
          exact (hex
            (fun x => x.phase = .finished ∧ x.invoked = true ∧ behFails beh x.node = true)
            (fun hP => by have := hP.1; simp at this)
            (fun hP => htf hP.1)).symm
        successEq := hinv.successEq
        abortedChar := by
          show c.aborted = true ↔ _
          rw [hinv.abortedChar]
          exact (hex (fun x => x.phase = .crashed)
            (fun hP => by simp at hP)
            (fun hP => htc hP)).symm
        abortedDriver := hinv.abortedDriver
        crashedThrows := by
          intro x hx hxf
          rcases List.mem_or_eq_of_mem_set hx with hx | rfl
          · exact hinv.crashedThrows x hx hxf
          · simp at hxf
        spawnedNotInvoked := by
          intro x hx hxf
          rcases List.mem_or_eq_of_mem_set hx with hx | rfl
          · exact hinv.spawnedNotInvoked x hx hxf
          · simp at hxf
        executingInvoked := by
          intro x hx hxf
          rcases List.mem_or_eq_of_mem_set hx with hx | rfl
          · exact hinv.executingInvoked x hx hxf
          · rfl
        crashedInvoked := by
          intro x hx hxf
          rcases List.mem_or_eq_of_mem_set hx with hx | rfl
          · exact hinv.crashedInvoked x hx hxf
          · simp at hxf
        finishedSkip := by
          intro x hx h1 h2
          rcases List.mem_or_eq_of_mem_set hx with hx | rfl
          · exact hinv.finishedSkip x hx h1 h2
          · simp at h1
        finishedReturns := by
          intro x hx h1 h2
          rcases List.mem_or_eq_of_mem_set hx with hx | rfl
          · exact hinv.finishedReturns x hx h1 h2
          · simp at h1
        invokedFresh := by
          intro x hx hxi
          rcases List.mem_or_eq_of_mem_set hx with hx | rfl
          · exact hinv.invokedFresh x hx hxi
          · intro hmem
            exact hskip ((hinv.executedChar _).mpr (Or.inl hmem))
        cancelledAborted := by
          intro x hx hxf
          rcases List.mem_or_eq_of_mem_set hx with hx | rfl
          · exact hinv.cancelledAborted x hx hxf
          · simp at hxf
        driverExit := hinv.driverExit
        lastNodeSet := by
          intro hE
          apply hinv.lastNodeSet
          rcases hE with ⟨x, hx, hPx⟩
          rcases List.mem_or_eq_of_mem_set hx with hx | rfl
          · exact ⟨x, hx, hPx⟩
          · have h1 := hPx.1
            simp at h1
        stopReason := by
          intro hs
          rcases hinv.stopReason hs with ⟨x, hx, h1, h2, h3, h4⟩
          exact ⟨x, mem_set_of_ne hget hx (fun he => htf (he ▸ h1)), h1, h2, h3, h4⟩
        parentsOK := by
          intro x hx p hp
          have htrans : ∀ tp ∈ c.tasks, tp.node = p ∧ tp.phase = .finished
              ∧ ¬(tp.invoked = true ∧ behFails beh p = true) →
              ∃ tp' ∈ c.tasks.set i { t with phase := .executing, invoked := true },
                tp'.node = p ∧ tp'.phase = .finished
                  ∧ ¬(tp'.invoked = true ∧ behFails beh p = true) := by
            intro tp htp hP
            exact ⟨tp, mem_set_of_ne hget htp (fun he => htf (he ▸ hP.2.1)), hP⟩
          rcases List.mem_or_eq_of_mem_set hx with hx | rfl
          · rcases hinv.parentsOK x hx p hp with ⟨tp, htp, hP⟩
            exact htrans tp htp hP
          · rcases hinv.parentsOK t ht p hp with ⟨tp, htp, hP⟩
            exact htrans tp htp hP }

end Tidydag

namespace Tidydag

theorem stepFinish_none (beh : Nat → NodeBehavior) (c : RunState) (i : Nat)
    (h : c.tasks.get? i = none) : stepFinish beh c i = c := by
  unfold stepFinish
  rw [h]

theorem stepFinish_not_exec (beh : Nat → NodeBehavior) (c : RunState) (i : Nat) (t : Task)
    (h : c.tasks.get? i = some t) (hp : t.phase ≠ .executing) : stepFinish beh c i = c := by
  simp only [stepFinish, h]
  rw [if_neg hp]

theorem stepFinish_success (beh : Nat → NodeBehavior) (c : RunState) (i : Nat) (t : Task)
    (st : NodeState) (h : c.tasks.get? i = some t) (hp : t.phase = .executing)
    (hbeh : beh t.node = .returns st) (hs : st.success = true) :
    stepFinish beh c i =
      { c with
        executed := c.executed.insert t.id
        lastNode := some t.node
        sorter := sorterDone c.sorter t.node
        tasks := c.tasks.set i { t with phase := .finished } } := by
  simp only [stepFinish, h]
  rw [if_pos hp]
  simp only [hbeh, hs]
  rfl

theorem stepFinish_fail (beh : Nat → NodeBehavior) (c : RunState) (i : Nat) (t : Task)
    (st : NodeState) (h : c.tasks.get? i = some t) (hp : t.phase = .executing)
    (hbeh : beh t.node = .returns st) (hs : st.success = false) :
    stepFinish beh c i =
      { c with
        stop := true
        success := false
        reason := st.reason
        lastNode := some t.node
        sorter := sorterDone c.sorter t.node
        tasks := c.tasks.set i { t with phase := .finished } } := by
  simp only [stepFinish, h]
  rw [if_pos hp]
  simp only [hbeh, hs]
  rfl

theorem stepFinish_throws (beh : Nat → NodeBehavior) (c : RunState) (i : Nat) (t : Task)
    (msg : String) (h : c.tasks.get? i = some t) (hp : t.phase = .executing)
    (hbeh : beh t.node = .throws msg) :
    stepFinish beh c i =
      { c with
        aborted := true
        driverActive := false
        tasks := c.tasks.set i { t with phase := .crashed } } := by
  simp only [stepFinish, h]
  rw [if_pos hp]
  simp only [hbeh]

end Tidydag

namespace Tidydag

theorem inv_stepFinish {reg : Reg} {beh : Nat → NodeBehavior} {e0 : List Nat} {c : RunState}
    (hnodup : (reg.map Prod.fst).Nodup) (hinv : Inv reg beh e0 c) (i : Nat) :
    Inv reg beh e0 (stepFinish beh c i) := by
  rcases hget : c.tasks.get? i with _ | t
  · rw [stepFinish_none beh c i hget]
    exact hinv
  · by_cases hph : t.phase = .executing
    swap
    · rw [stepFinish_not_exec beh c i t hget hph]
      exact hinv
    have ht : t ∈ c.tasks := List.get?_mem hget
    have htf : t.phase ≠ .finished := by
      rw [hph]
      intro hh
      cases hh
    have htc : t.phase ≠ .crashed := by
      rw [hph]
      intro hh
      cases hh
    have hi1 : t.invoked = true := hinv.executingInvoked t ht hph
    have hts := eq_take_cons_drop_of_get? c.tasks i t hget
    rcases hbeh : beh t.node with st | msg
    · -- execute resolved to a NodeState
      have hts' := set_eq_take_cons_drop_of_get? c.tasks i t
        { t with phase := .finished } hget
      obtain ⟨Fkeys, Fsuccs, Fpass, Ffin, Fpend, Fout, Fdone, Fready, Fnodup⟩ :=
        finish_sorter_fields hnodup hinv (c.tasks.take i) (c.tasks.drop (i + 1)) t
          { t with phase := .finished } hts htf rfl rfl
      have hmapn := map_set_same_field c.tasks i t { t with phase := .finished }
        Task.node hget rfl
      have hmapid := map_set_same_field c.tasks i t { t with phase := .finished }
        Task.id hget rfl
      have hlen : (c.tasks.set i { t with phase := .finished }).length
          = c.tasks.length := List.length_set _ _ _
      have hex : ∀ (P : Task → Prop), ¬P { t with phase := .finished } → ¬P t →
          ((∃ x ∈ c.tasks.set i { t with phase := .finished }, P x)
            ↔ (∃ x ∈ c.tasks, P x)) := by
        intro P hP' hPt
        constructor
        · rintro ⟨x, hx, hPx⟩
          rcases List.mem_or_eq_of_mem_set hx with hx | rfl
          · exact ⟨x, hx, hPx⟩
          · exact absurd hPx hP'
        · rintro ⟨x, hx, hPx⟩
          exact ⟨x, mem_set_of_ne hget hx (fun he => hPt (he ▸ hPx)), hPx⟩
      have htransP : ∀ p, ∀ x ∈ c.tasks, x.node = p ∧ x.phase = .finished
          ∧ ¬(x.invoked = true ∧ behFails beh p = true) →
          ∃ tp' ∈ c.tasks.set i { t with phase := .finished },
            tp'.node = p ∧ tp'.phase = .finished
              ∧ ¬(tp'.invoked = true ∧ behFails beh p = true) := by
        intro p x hx hP
        exact ⟨x, mem_set_of_ne hget hx (fun he => htf (he ▸ hP.2.1)), hP⟩
      cases hs : st.success
      · -- the node returned an Error state
        rw [stepFinish_fail beh c i t st hget hph hbeh hs]
        have hbS : behSuccess beh t.node = false := by
          simp only [behSuccess, hbeh]
          exact hs
        have hbF : behFails beh t.node = true := by
          simp only [behFails, hbeh]
          rw [hs]
          rfl
        have hbR : behRaises beh t.node = false := by
          simp only [behRaises, hbeh]
        refine {
          keysEq := Fkeys
          succsEq := Fsuccs
          nodesNodup := by
            show ((c.tasks.set i { t with phase := .finished }).map Task.node).Nodup
            rw [hmapn]
            exact hinv.nodesNodup
          idsEq := by
            show (c.tasks.set i { t with phase := .finished }).map Task.id
              = List.range' 1 (c.tasks.set i { t with phase := .finished }).length
            rw [hmapid, hlen]
            exact hinv.idsEq
          counterEq := by
            show c.idCounter = (c.tasks.set i { t with phase := .finished }).length
            rw [hlen]
            exact hinv.counterEq
          passedEq := by
            show (sorterDone c.sorter t.node).npassedout = _
            rw [Fpass, ← hts']
          finishedEq := by
            show (sorterDone c.sorter t.node).nfinished = _
            rw [Ffin, ← hts']
          taskKeys := forall_mem_set _ hinv.taskKeys (hinv.taskKeys t ht)
          statusPending := by
            intro u hu hn
            show npredsOf (sorterDone c.sorter t.node).info u = _
            rw [hts'] at hn ⊢
            exact Fpend u hu hn
          statusOut := by
            intro x hx hxf
            rw [hts'] at hx
            exact Fout x hx hxf
          statusDone := by
            intro x hx hxf
            rw [hts'] at hx
            exact Fdone x hx hxf
          readyChar := by
            intro u
            show u ∈ (sorterDone c.sorter t.node).readyNodes ↔ _
            rw [hts']
            exact Fready u
          readyNodup := Fnodup
          executedChar := by
            intro j
            show j ∈ c.executed ↔ _
            rw [hinv.executedChar j]
            exact or_congr_right (hex
              (fun x => x.phase = .finished ∧ x.invoked = true
                ∧ behSuccess beh x.node = true ∧ x.id = j)
              (fun hP => by
                have h2 := hP.2.2.1
                show False
                rw [show ({ t with phase := TaskPhase.finished } : Task).node
                    = t.node from rfl, hbS] at h2
                exact absurd h2 (by decide))
              (fun hP => htf hP.1)).symm
          executedNodup := hinv.executedNodup
          stopChar := by
            show true = true ↔ _
            constructor
            · intro _
              exact ⟨{ t with phase := .finished }, mem_set_self hget _, rfl, hi1, hbF⟩
            · intro _
              rfl
          successEq := rfl
          abortedChar := by
            show c.aborted = true ↔ _
            rw [hinv.abortedChar]
            exact (hex (fun x => x.phase = .crashed)
              (fun hP => by simp at hP)
              (fun hP => htc hP)).symm
          abortedDriver := hinv.abortedDriver
          crashedThrows := by
            intro x hx hxf
            rcases List.mem_or_eq_of_mem_set hx with hx | rfl
            · exact hinv.crashedThrows x hx hxf
            · simp at hxf
          spawnedNotInvoked := by
            intro x hx hxf
            rcases List.mem_or_eq_of_mem_set hx with hx | rfl
            · exact hinv.spawnedNotInvoked x hx hxf
            · simp at hxf
          executingInvoked := by
            intro x hx hxf
            rcases List.mem_or_eq_of_mem_set hx with hx | rfl
            · exact hinv.executingInvoked x hx hxf
            · simp at hxf
          crashedInvoked := by
            intro x hx hxf
            rcases List.mem_or_eq_of_mem_set hx with hx | rfl
            · exact hinv.crashedInvoked x hx hxf
            · simp at hxf
          finishedSkip := by
            intro x hx h1 h2
            rcases List.mem_or_eq_of_mem_set hx with hx | rfl
            · exact hinv.finishedSkip x hx h1 h2
            · rw [show ({ t with phase := TaskPhase.finished } : Task).invoked
                  = t.invoked from rfl, hi1] at h2
              exact absurd h2 (by decide)
          finishedReturns := by
            intro x hx h1 h2
            rcases List.mem_or_eq_of_mem_set hx with hx | rfl
            · exact hinv.finishedReturns x hx h1 h2
            · exact hbR
          invokedFresh := by
            intro x hx hxi
            rcases List.mem_or_eq_of_mem_set hx with hx | rfl
            · exact hinv.invokedFresh x hx hxi
            · exact hinv.invokedFresh t ht hi1
          cancelledAborted := by
            intro x hx hxf
            rcases List.mem_or_eq_of_mem_set hx with hx | rfl
            · exact hinv.cancelledAborted x hx hxf
            · simp at hxf
          driverExit := fun _ => Or.inr (Or.inl rfl)
          lastNodeSet := fun _ => ⟨t.node, rfl⟩
          stopReason := by
            intro _
            refine ⟨{ t with phase := .finished }, mem_set_self hget _, rfl, hi1, hbF, ?_⟩
            show st.reason = behReason beh t.node
            simp only [behReason, hbeh]
          parentsOK := by
            intro x hx p hp
            rcases List.mem_or_eq_of_mem_set hx with hx | rfl
            · rcases hinv.parentsOK x hx p hp with ⟨tp, htp, hP⟩
              exact htransP p tp htp hP
            · rcases hinv.parentsOK t ht p hp with ⟨tp, htp, hP⟩
              exact htransP p tp htp hP }
      · -- the node returned a Success state: checkpoint it
        rw [stepFinish_success beh c i t st hget hph hbeh hs]
        have hbS : behSuccess beh t.node = true := by
          simp only [behSuccess, hbeh]
          exact hs
        have hbF : behFails beh t.node = false := by
          simp only [behFails, hbeh]
          rw [hs]
          rfl
        have hbR : behRaises beh t.node = false := by
          simp only [behRaises, hbeh]
        refine {
          keysEq := Fkeys
          succsEq := Fsuccs
          nodesNodup := by
            show ((c.tasks.set i { t with phase := .finished }).map Task.node).Nodup
            rw [hmapn]
            exact hinv.nodesNodup
          idsEq := by
            show (c.tasks.set i { t with phase := .finished }).map Task.id
              = List.range' 1 (c.tasks.set i { t with phase := .finished }).length
            rw [hmapid, hlen]
            exact hinv.idsEq
          counterEq := by
            show c.idCounter = (c.tasks.set i { t with phase := .finished }).length
            rw [hlen]
            exact hinv.counterEq
          passedEq := by
            show (sorterDone c.sorter t.node).npassedout = _
            rw [Fpass, ← hts']
          finishedEq := by
            show (sorterDone c.sorter t.node).nfinished = _
            rw [Ffin, ← hts']
          taskKeys := forall_mem_set _ hinv.taskKeys (hinv.taskKeys t ht)
          statusPending := by
            intro u hu hn
            show npredsOf (sorterDone c.sorter t.node).info u = _
            rw [hts'] at hn ⊢
            exact Fpend u hu hn
          statusOut := by
            intro x hx hxf
            rw [hts'] at hx
            exact Fout x hx hxf
          statusDone := by
            intro x hx hxf
            rw [hts'] at hx
            exact Fdone x hx hxf
          readyChar := by
            intro u
            show u ∈ (sorterDone c.sorter t.node).readyNodes ↔ _
            rw [hts']
            exact Fready u
          readyNodup := Fnodup
          executedChar := by
            intro j
            show j ∈ c.executed.insert t.id ↔ _
            rw [List.mem_insert_iff]
            constructor
            · rintro (rfl | hj)
              · exact Or.inr ⟨{ t with phase := .finished }, mem_set_self hget _,
                  rfl, hi1, hbS, rfl⟩
              · rcases (hinv.executedChar j).mp hj with he | ⟨x, hx, h1, h2, h3, h4⟩
                · exact Or.inl he
                · exact Or.inr ⟨x, mem_set_of_ne hget hx (fun heq => by
                    rw [heq, hph] at h1
                    exact absurd h1 (by decide)), h1, h2, h3, h4⟩
            · rintro (he | ⟨x, hx, h1, h2, h3, h4⟩)
              · exact Or.inr ((hinv.executedChar j).mpr (Or.inl he))
              · rcases List.mem_or_eq_of_mem_set hx with hx | rfl
                · exact Or.inr ((hinv.executedChar j).mpr (Or.inr ⟨x, hx, h1, h2, h3, h4⟩))
                · exact Or.inl h4.symm
          executedNodup := hinv.executedNodup.insert
          stopChar := by
            show c.stop = true ↔ _
            rw [hinv.stopChar]
            exact (hex
              (fun x => x.phase = .finished ∧ x.invoked = true ∧ behFails beh x.node = true)
              (fun hP => by
                have h2 := hP.2.2
                show False
                rw [show ({ t with phase := TaskPhase.finished } : Task).node
                    = t.node from rfl, hbF] at h2
                exact absurd h2 (by decide))
              (fun hP => htf hP.1)).symm
          successEq := hinv.successEq
          abortedChar := by
            show c.aborted = true ↔ _
            rw [hinv.abortedChar]
            exact (hex (fun x => x.phase = .crashed)
              (fun hP => by simp at hP)
              (fun hP => htc hP)).symm
          abortedDriver := hinv.abortedDriver
          crashedThrows := by
            intro x hx hxf
            rcases List.mem_or_eq_of_mem_set hx with hx | rfl
            · exact hinv.crashedThrows x hx hxf
            · simp at hxf
          spawnedNotInvoked := by
            intro x hx hxf
            rcases List.mem_or_eq_of_mem_set hx with hx | rfl
            · exact hinv.spawnedNotInvoked x hx hxf
            · simp at hxf
          executingInvoked := by
            intro x hx hxf
            rcases List.mem_or_eq_of_mem_set hx with hx | rfl
            · exact hinv.executingInvoked x hx hxf
            · simp at hxf
          crashedInvoked := by
            intro x hx hxf
            rcases List.mem_or_eq_of_mem_set hx with hx | rfl
            · exact hinv.crashedInvoked x hx hxf
            · simp at hxf
          finishedSkip := by
            intro x hx h1 h2
            rcases List.mem_or_eq_of_mem_set hx with hx | rfl
            · exact List.mem_insert_iff.mpr (Or.inr (hinv.finishedSkip x hx h1 h2))
            · rw [show ({ t with phase := TaskPhase.finished } : Task).invoked
                  = t.invoked from rfl, hi1] at h2
              exact absurd h2 (by decide)
          finishedReturns := by
            intro x hx h1 h2
            rcases List.mem_or_eq_of_mem_set hx with hx | rfl
            · exact hinv.finishedReturns x hx h1 h2
            · exact hbR
          invokedFresh := by
            intro x hx hxi
            rcases List.mem_or_eq_of_mem_set hx with hx | rfl
            · exact hinv.invokedFresh x hx hxi
            · exact hinv.invokedFresh t ht hi1
          cancelledAborted := by
            intro x hx hxf
            rcases List.mem_or_eq_of_mem_set hx with hx | rfl
            · exact hinv.cancelledAborted x hx hxf
            · simp at hxf
          driverExit := by
            intro hdf
            rcases hinv.driverExit hdf with ha | hs' | hia
            · exact Or.inl ha
            · exact Or.inr (Or.inl hs')
            · rw [active_of_unfinished hinv t ht htf] at hia
              exact absurd hia (by decide)
          lastNodeSet := fun _ => ⟨t.node, rfl⟩
          stopReason := by
            intro hs
            rcases hinv.stopReason hs with ⟨x, hx, h1, h2, h3, h4⟩
            exact ⟨x, mem_set_of_ne hget hx (fun he => htf (he ▸ h1)), h1, h2, h3, h4⟩
          parentsOK := by
            intro x hx p hp
            rcases List.mem_or_eq_of_mem_set hx with hx | rfl
            · rcases hinv.parentsOK x hx p hp with ⟨tp, htp, hP⟩
              exact htransP p tp htp hP
            · rcases hinv.parentsOK t ht p hp with ⟨tp, htp, hP⟩
              exact htransP p tp htp hP }
    · -- the execute body raised: the task crashes and the TaskGroup aborts
      rw [stepFinish_throws beh c i t msg hget hph hbeh]
      have hbR : behRaises beh t.node = true := by
        simp only [behRaises, hbeh]
      have hts' := set_eq_take_cons_drop_of_get? c.tasks i t
        { t with phase := .crashed } hget
      have hpeq : (({ t with phase := .crashed } : Task).phase == TaskPhase.finished)
          = (t.phase == TaskPhase.finished) := by
        rw [hph]
        rfl
      have hmapn := map_set_same_field c.tasks i t { t with phase := .crashed }
        Task.node hget rfl
      have hmapid := map_set_same_field c.tasks i t { t with phase := .crashed }
        Task.id hget rfl
      have hpc : ∀ u, pendCount reg (c.tasks.set i { t with phase := .crashed }) u
          = pendCount reg c.tasks u := by
        intro u
        rw [hts']
        conv_rhs => rw [hts]
        exact pendCount_set_eq reg _ _ t { t with phase := .crashed } rfl hpeq u
      have hfc : ((c.tasks.set i { t with phase := .crashed }).filter
            (fun x => x.phase == TaskPhase.finished)).length
          = (c.tasks.filter (fun x => x.phase == TaskPhase.finished)).length := by
        rw [hts']
        conv_rhs => rw [hts]
        exact finishedCount_set_eq _ _ t { t with phase := .crashed } hpeq
      have hnoT : ∀ u, (∀ x ∈ c.tasks.set i { t with phase := .crashed }, x.node ≠ u)
          ↔ (∀ x ∈ c.tasks, x.node ≠ u) := by
        intro u
        rw [noTask_iff_not_mem, noTask_iff_not_mem, hmapn]
      have hlen : (c.tasks.set i { t with phase := .crashed }).length
          = c.tasks.length := List.length_set _ _ _
      have hex : ∀ (P : Task → Prop), ¬P { t with phase := .crashed } → ¬P t →
          ((∃ x ∈ c.tasks.set i { t with phase := .crashed }, P x)
            ↔ (∃ x ∈ c.tasks, P x)) := by
        intro P hP' hPt
        constructor
        · rintro ⟨x, hx, hPx⟩
          rcases List.mem_or_eq_of_mem_set hx with hx | rfl
          · exact ⟨x, hx, hPx⟩
          · exact absurd hPx hP'
        · rintro ⟨x, hx, hPx⟩
          exact ⟨x, mem_set_of_ne hget hx (fun he => hPt (he ▸ hPx)), hPx⟩
      refine {
        keysEq := hinv.keysEq
        succsEq := hinv.succsEq
        nodesNodup := by
          show ((c.tasks.set i { t with phase := .crashed }).map Task.node).Nodup
          rw [hmapn]
          exact hinv.nodesNodup
        idsEq := by
          show _ = List.range' 1 (c.tasks.set i { t with phase := .crashed }).length
          rw [hmapid, hlen]
          exact hinv.idsEq
        counterEq := by
          show c.idCounter = _
          rw [hlen]
          exact hinv.counterEq
        passedEq := by
          show c.sorter.npassedout = _
          rw [hlen]
          exact hinv.passedEq
        finishedEq := by
          show c.sorter.nfinished = _
          rw [hfc]
          exact hinv.finishedEq
        taskKeys := forall_mem_set _ hinv.taskKeys (hinv.taskKeys t ht)
        statusPending := by
          intro u hu hn
          show npredsOf c.sorter.info u = _
          rw [hpc u]
          exact hinv.statusPending u hu ((hnoT u).mp hn)
        statusOut := by
          intro x hx hxf
          rcases List.mem_or_eq_of_mem_set hx with hx | rfl
          · exact hinv.statusOut x hx hxf
          · exact hinv.statusOut t ht htf
        statusDone := by
          intro x hx hxf
          rcases List.mem_or_eq_of_mem_set hx with hx | rfl
          · exact hinv.statusDone x hx hxf
          · simp at hxf
        readyChar := by
          intro u
          show u ∈ c.sorter.readyNodes ↔ _
          rw [hinv.readyChar u]
          constructor
          · rintro ⟨h1, h2, h3⟩
            exact ⟨h1, (hnoT u).mpr h2, by rw [hpc u]; exact h3⟩
          · rintro ⟨h1, h2, h3⟩
            rw [hpc u] at h3
            exact ⟨h1, (hnoT u).mp h2, h3⟩
        readyNodup := hinv.readyNodup
        executedChar := by
          intro j
          show j ∈ c.executed ↔ _
          rw [hinv.executedChar j]
          exact or_congr_right (hex
            (fun x => x.phase = .finished ∧ x.invoked = true
              ∧ behSuccess beh x.node = true ∧ x.id = j)
            (fun hP => by have := hP.1; simp at this)
            (fun hP => htf hP.1)).symm
        executedNodup := hinv.executedNodup
        stopChar := by
          show c.stop = true ↔ _
          rw [hinv.stopChar]
          exact (hex
            (fun x => x.phase = .finished ∧ x.invoked = true ∧ behFails beh x.node = true)
            (fun hP => by have := hP.1; simp at this)
            (fun hP => htf hP.1)).symm
        successEq := hinv.successEq
        abortedChar := by
          show true = true ↔ _
          constructor
          · intro _
            exact ⟨{ t with phase := .crashed }, mem_set_self hget _, rfl⟩
          · intro _
            rfl
        abortedDriver := fun _ => rfl
        crashedThrows := by
          intro x hx hxf
          rcases List.mem_or_eq_of_mem_set hx with hx | rfl
          · exact hinv.crashedThrows x hx hxf
          · exact hbR
        spawnedNotInvoked := by
          intro x hx hxf
          rcases List.mem_or_eq_of_mem_set hx with hx | rfl
          · exact hinv.spawnedNotInvoked x hx hxf
          · simp at hxf
        executingInvoked := by
          intro x hx hxf
          rcases List.mem_or_eq_of_mem_set hx with hx | rfl
          · exact hinv.executingInvoked x hx hxf
          · simp at hxf
        crashedInvoked := by
          intro x hx hxf
          rcases List.mem_or_eq_of_mem_set hx with hx | rfl
          · exact hinv.crashedInvoked x hx hxf
          · exact hi1
        finishedSkip := by
          intro x hx h1 h2
          rcases List.mem_or_eq_of_mem_set hx with hx | rfl
          · exact hinv.finishedSkip x hx h1 h2
          · simp at h1
        finishedReturns := by
          intro x hx h1 h2
          rcases List.mem_or_eq_of_mem_set hx with hx | rfl
          · exact hinv.finishedReturns x hx h1 h2
          · simp at h1
        invokedFresh := by
          intro x hx hxi
          rcases List.mem_or_eq_of_mem_set hx with hx | rfl
          · exact hinv.invokedFresh x hx hxi
          · exact hinv.invokedFresh t ht hi1
        cancelledAborted := fun _ _ _ => rfl
        driverExit := fun _ => Or.inl rfl
        lastNodeSet := by
          intro hE
          apply hinv.lastNodeSet
          rcases hE with ⟨x, hx, hPx⟩
          rcases List.mem_or_eq_of_mem_set hx with hx | rfl
          · exact ⟨x, hx, hPx⟩
          · have h1 := hPx.1
            simp at h1
        stopReason := by
          intro hs
          rcases hinv.stopReason hs with ⟨x, hx, h1, h2, h3, h4⟩
          exact ⟨x, mem_set_of_ne hget hx (fun he => htf (he ▸ h1)), h1, h2, h3, h4⟩
        parentsOK := by
          intro x hx p hp
          have htrans : ∀ tp ∈ c.tasks, tp.node = p ∧ tp.phase = .finished
              ∧ ¬(tp.invoked = true ∧ behFails beh p = true) →
              ∃ tp' ∈ c.tasks.set i { t with phase := .crashed },
                tp'.node = p ∧ tp'.phase = .finished
                  ∧ ¬(tp'.invoked = true ∧ behFails beh p = true) := by
            intro tp htp hP
            exact ⟨tp, mem_set_of_ne hget htp (fun he => htf (he ▸ hP.2.1)), hP⟩
          rcases List.mem_or_eq_of_mem_set hx with hx | rfl
          · rcases hinv.parentsOK x hx p hp with ⟨tp, htp, hP⟩
            exact htrans tp htp hP
          · rcases hinv.parentsOK t ht p hp with ⟨tp, htp, hP⟩
            exact htrans tp htp hP }

end Tidydag

namespace Tidydag

theorem stepPoll_inactive (c : RunState) (h : c.driverActive = false) : stepPoll c = c := by
  unfold stepPoll
  rw [h]
  rfl

theorem stepPoll_exit (c : RunState) (h1 : c.driverActive = true)
    (h2 : (isActive c.sorter && !c.stop) = false) :
    stepPoll c = { c with driverActive := false } := by
  unfold stepPoll
  rw [h1, h2]
  rfl

theorem stepPoll_act (c : RunState) (h1 : c.driverActive = true)
    (h2 : (isActive c.sorter && !c.stop) = true) :
    stepPoll c =
      if c.sorter.readyNodes.isEmpty then { c with sorter := (getReady c.sorter).2 }
      else { c with
        sorter := (getReady c.sorter).2
        idCounter := c.idCounter + c.sorter.readyNodes.length
        tasks := c.tasks ++ mkTasks c.sorter.readyNodes c.idCounter c.batchCount
        batchCount := c.batchCount + 1 } := by
  unfold stepPoll
  rw [h1, h2]
  rfl

theorem doneTasks_append_unfinished (ts N : List Task)
    (hN : ∀ t ∈ N, t.phase ≠ .finished) (p : Nat) :
    doneTasks (ts ++ N) p = doneTasks ts p := by
  rw [doneTasks, doneTasks, List.any_append]
  have hz : N.any (fun t => t.node == p && t.phase == TaskPhase.finished) = false := by
    rw [List.any_eq_false]
    intro t htN
    have hphf : (t.phase == TaskPhase.finished) = false := by
      rw [beq_eq_false_iff_ne]
      exact hN t htN
    rw [hphf, Bool.and_false]
    exact Bool.false_ne_true
  rw [hz, Bool.or_false]

end Tidydag

namespace Tidydag

theorem inv_stepPoll {reg : Reg} {beh : Nat → NodeBehavior} {e0 : List Nat} {c : RunState}
    (hinv : Inv reg beh e0 c) : Inv reg beh e0 (stepPoll c) := by
  cases hdrv : c.driverActive with
  | false =>
    rw [stepPoll_inactive c hdrv]
    exact hinv
  | true =>
    cases hcond : (isActive c.sorter && !c.stop) with
    | false =>
      rw [stepPoll_exit c hdrv hcond]
      refine {
        keysEq := hinv.keysEq
        succsEq := hinv.succsEq
        nodesNodup := hinv.nodesNodup
        idsEq := hinv.idsEq
        counterEq := hinv.counterEq
        passedEq := hinv.passedEq
        finishedEq := hinv.finishedEq
        taskKeys := hinv.taskKeys
        statusPending := hinv.statusPending
        statusOut := hinv.statusOut
        statusDone := hinv.statusDone
        readyChar := hinv.readyChar
        readyNodup := hinv.readyNodup
        executedChar := hinv.executedChar
        executedNodup := hinv.executedNodup
        stopChar := hinv.stopChar
        successEq := hinv.successEq
        abortedChar := hinv.abortedChar
        abortedDriver := fun _ => rfl
        crashedThrows := hinv.crashedThrows
        spawnedNotInvoked := hinv.spawnedNotInvoked
        executingInvoked := hinv.executingInvoked
        crashedInvoked := hinv.crashedInvoked
        finishedSkip := hinv.finishedSkip
        finishedReturns := hinv.finishedReturns
        invokedFresh := hinv.invokedFresh
        cancelledAborted := fun t ht htc => hinv.cancelledAborted t ht htc
        driverExit := by
          intro _
          cases hA : isActive c.sorter
          · exact Or.inr (Or.inr rfl)
          · rw [hA] at hcond
            cases hst : c.stop
            · rw [hst] at hcond
              simp at hcond
            · exact Or.inr (Or.inl rfl)
        lastNodeSet := hinv.lastNodeSet
        stopReason := hinv.stopReason
        parentsOK := hinv.parentsOK }
    | true =>
      rw [stepPoll_act c hdrv hcond]
      have hstop : c.stop = false := by
        cases hst : c.stop
        · rfl
        · rw [hst] at hcond
          simp at hcond
      by_cases hemp : c.sorter.readyNodes.isEmpty = true
      · -- the ready group is empty: the driver merely sleeps
        rw [if_pos hemp]
        have hR : c.sorter.readyNodes = [] := by
          cases hll : c.sorter.readyNodes
          · rfl
          · rw [hll] at hemp
            cases hemp
        rw [getReady_empty c.sorter hR]
        exact hinv
      · -- dispatch a batch: spawn one task per ready node
        rw [if_neg hemp]
        have hmemR : ∀ n ∈ c.sorter.readyNodes, n ∈ imKeys c.sorter.info := by
          intro n hn
          rw [hinv.keysEq]
          exact ((hinv.readyChar n).mp hn).1
        obtain ⟨G1, G2, G3, G4, G5, G6, G7⟩ := getReady_spec c.sorter hmemR
        obtain ⟨M1, M2, M3, M4⟩ :=
          mkTasks_spec c.sorter.readyNodes c.idCounter c.batchCount
        have hRkeys : ∀ u ∈ c.sorter.readyNodes, u ∈ imKeys (registerAll reg) :=
          fun u hu => ((hinv.readyChar u).mp hu).1
        have hRnotask : ∀ u ∈ c.sorter.readyNodes, ∀ x ∈ c.tasks, x.node ≠ u :=
          fun u hu => ((hinv.readyChar u).mp hu).2.1
        have hRpend : ∀ u ∈ c.sorter.readyNodes, pendCount reg c.tasks u = 0 :=
          fun u hu => ((hinv.readyChar u).mp hu).2.2
        have hnodeN : ∀ x ∈ mkTasks c.sorter.readyNodes c.idCounter c.batchCount,
            x.node ∈ c.sorter.readyNodes := by
          intro x hx
          have hm := List.mem_map_of_mem Task.node hx
          rw [M1] at hm
          exact hm
        have hNfin : ∀ t ∈ mkTasks c.sorter.readyNodes c.idCounter c.batchCount,
            t.phase ≠ .finished := by
          intro t htN
          rw [(M4 t htN).1]
          intro hh
          cases hh
        have hdT := doneTasks_append_unfinished c.tasks
          (mkTasks c.sorter.readyNodes c.idCounter c.batchCount) hNfin
        have hpend : ∀ u, pendCount reg
            (c.tasks ++ mkTasks c.sorter.readyNodes c.idCounter c.batchCount) u
            = pendCount reg c.tasks u := by
          intro u
          unfold pendCount
          congr 1
          apply List.filter_congr
          intro p _
          rw [hdT p]
        have hexApp : ∀ (P : Task → Prop),
            (∀ t ∈ mkTasks c.sorter.readyNodes c.idCounter c.batchCount, ¬P t) →
            ((∃ x ∈ c.tasks ++ mkTasks c.sorter.readyNodes c.idCounter c.batchCount, P x)
              ↔ (∃ x ∈ c.tasks, P x)) := by
          intro P hNP
          constructor
          · rintro ⟨x, hx, hPx⟩
            rcases List.mem_append.mp hx with hx | hx
            · exact ⟨x, hx, hPx⟩
            · exact absurd hPx (hNP x hx)
          · rintro ⟨x, hx, hPx⟩
            exact ⟨x, List.mem_append_left _ hx, hPx⟩
        refine {
          keysEq := by
            show imKeys (getReady c.sorter).2.info = _
            rw [G4]
            exact hinv.keysEq
          succsEq := by
            intro u
            show succsOf (getReady c.sorter).2.info u = _
            rw [G3 u]
            exact hinv.succsEq u
          nodesNodup := by
            show ((c.tasks ++ _).map Task.node).Nodup
            rw [List.map_append, M1]
            rw [List.nodup_append]
            refine ⟨hinv.nodesNodup, hinv.readyNodup, ?_⟩
            intro a ha haR
            rcases List.mem_map.mp ha with ⟨x, hx, hxa⟩
            exact hRnotask a haR x hx hxa
          idsEq := by
            show (c.tasks ++ _).map Task.id = List.range' 1 (c.tasks ++ _).length
            rw [List.map_append, hinv.idsEq, M2, List.length_append, M3, hinv.counterEq]
            have hr := List.range'_append 1 c.tasks.length c.sorter.readyNodes.length 1
            rw [Nat.one_mul, Nat.add_comm 1 c.tasks.length] at hr
            rw [hr, Nat.add_comm]
          counterEq := by
            show c.idCounter + c.sorter.readyNodes.length = (c.tasks ++ _).length
            rw [List.length_append, M3, hinv.counterEq]
          passedEq := by
            show (getReady c.sorter).2.npassedout = (c.tasks ++ _).length
            rw [G6, List.length_append, M3, hinv.passedEq]
          finishedEq := by
            show (getReady c.sorter).2.nfinished = _
            have hNfil : (mkTasks c.sorter.readyNodes c.idCounter c.batchCount).filter
                (fun x => x.phase == TaskPhase.finished) = [] := by
              rw [List.filter_eq_nil_iff]
              intro t htN
              have := (M4 t htN).1
              simp [this]
            rw [G7, List.filter_append, hNfil, List.append_nil]
            exact hinv.finishedEq
          taskKeys := by
            intro t htx
            rcases List.mem_append.mp htx with hx | hxN
            · exact hinv.taskKeys t hx
            · exact hRkeys _ (hnodeN t hxN)
          statusPending := by
            intro u hu hn
            show npredsOf (getReady c.sorter).2.info u = _
            have hnotR : u ∉ c.sorter.readyNodes := by
              intro huR
              have hm : u ∈ (mkTasks c.sorter.readyNodes c.idCounter c.batchCount).map
                  Task.node := by
                rw [M1]
                exact huR
              rcases List.mem_map.mp hm with ⟨x, hxN, hxu⟩
              exact hn x (List.mem_append_right _ hxN) hxu
            rw [G2 u, if_neg hnotR, hpend u]
            exact hinv.statusPending u hu (fun x hx => hn x (List.mem_append_left _ hx))
          statusOut := by
            intro x hx hxf
            show npredsOf (getReady c.sorter).2.info x.node = -1
            rw [G2 x.node]
            by_cases hxR : x.node ∈ c.sorter.readyNodes
            · rw [if_pos hxR]
            · rw [if_neg hxR]
              rcases List.mem_append.mp hx with hx | hxN
              · exact hinv.statusOut x hx hxf
              · exact absurd (hnodeN x hxN) hxR
          statusDone := by
            intro x hx hxf
            rcases List.mem_append.mp hx with hx | hxN
            · show npredsOf (getReady c.sorter).2.info x.node = -2
              rw [G2 x.node, if_neg (fun hxR => hRnotask x.node hxR x hx rfl)]
              exact hinv.statusDone x hx hxf
            · have hsp := (M4 x hxN).1
              rw [hsp] at hxf
              cases hxf
          readyChar := by
            intro u
            show u ∈ (getReady c.sorter).2.readyNodes ↔ _
            rw [G5]
            constructor
            · intro hu
              cases hu
            · rintro ⟨hu1, hu2, hu3⟩
              exfalso
              rw [hpend u] at hu3
              have huR : u ∈ c.sorter.readyNodes := (hinv.readyChar u).mpr
                ⟨hu1, fun x hx => hu2 x (List.mem_append_left _ hx), hu3⟩
              have hm : u ∈ (mkTasks c.sorter.readyNodes c.idCounter c.batchCount).map
                  Task.node := by
                rw [M1]
                exact huR
              rcases List.mem_map.mp hm with ⟨x, hxN, hxu⟩
              exact hu2 x (List.mem_append_right _ hxN) hxu
          readyNodup := by
            show (getReady c.sorter).2.readyNodes.Nodup
            rw [G5]
            exact List.nodup_nil
          executedChar := by
            intro j
            show j ∈ c.executed ↔ _
            rw [hinv.executedChar j]
            refine or_congr_right (hexApp _ ?_).symm
            intro t htN hP
            have h1 := hP.1
            rw [(M4 t htN).1] at h1
            cases h1
          executedNodup := hinv.executedNodup
          stopChar := by
            show c.stop = true ↔ _
            rw [hinv.stopChar]
            refine (hexApp _ ?_).symm
            intro t htN hP
            have h1 := hP.1
            rw [(M4 t htN).1] at h1
            cases h1
          successEq := hinv.successEq
          abortedChar := by
            show c.aborted = true ↔ _
            rw [hinv.abortedChar]
            refine (hexApp _ ?_).symm
            intro t htN hP
            rw [(M4 t htN).1] at hP
            cases hP
          abortedDriver := by
            intro ha
            have hcontra := hinv.abortedDriver ha
            rw [hdrv] at hcontra
            cases hcontra
          crashedThrows := by
            intro x hx hxf
            rcases List.mem_append.mp hx with hx | hxN
            · exact hinv.crashedThrows x hx hxf
            · rw [(M4 x hxN).1] at hxf
              cases hxf
          spawnedNotInvoked := by
            intro x hx hxf
            rcases List.mem_append.mp hx with hx | hxN
            · exact hinv.spawnedNotInvoked x hx hxf
            · exact (M4 x hxN).2.1
          executingInvoked := by
            intro x hx hxf
            rcases List.mem_append.mp hx with hx | hxN
            · exact hinv.executingInvoked x hx hxf
            · rw [(M4 x hxN).1] at hxf
              cases hxf
          crashedInvoked := by
            intro x hx hxf
            rcases List.mem_append.mp hx with hx | hxN
            · exact hinv.crashedInvoked x hx hxf
            · rw [(M4 x hxN).1] at hxf
              cases hxf
          finishedSkip := by
            intro x hx h1 h2
            rcases List.mem_append.mp hx with hx | hxN
            · exact hinv.finishedSkip x hx h1 h2
            · rw [(M4 x hxN).1] at h1
              cases h1
          finishedReturns := by
            intro x hx h1 h2
            rcases List.mem_append.mp hx with hx | hxN
            · exact hinv.finishedReturns x hx h1 h2
            · rw [(M4 x hxN).1] at h1
              cases h1
          invokedFresh := by
            intro x hx hxi
            rcases List.mem_append.mp hx with hx | hxN
            · exact hinv.invokedFresh x hx hxi
            · rw [(M4 x hxN).2.1] at hxi
              cases hxi
          cancelledAborted := by
            intro x hx hxf
            rcases List.mem_append.mp hx with hx | hxN
            · exact hinv.cancelledAborted x hx hxf
            · rw [(M4 x hxN).1] at hxf
              cases hxf
          driverExit := by
            intro hdf
            have hdf' : c.driverActive = false := hdf
            rw [hdrv] at hdf'
            cases hdf'
          lastNodeSet := by
            intro hE
            apply hinv.lastNodeSet
            rcases hE with ⟨x, hx, hPx⟩
            rcases List.mem_append.mp hx with hx | hxN
            · exact ⟨x, hx, hPx⟩
            · have h1 := hPx.1
              rw [(M4 x hxN).1] at h1
              cases h1
          stopReason := by
            intro hs
            rcases hinv.stopReason hs with ⟨x, hx, h1, h2, h3, h4⟩
            exact ⟨x, List.mem_append_left _ hx, h1, h2, h3, h4⟩
          parentsOK := by
            intro x hx p hp
            rcases List.mem_append.mp hx with hx | hxN
            · rcases hinv.parentsOK x hx p hp with ⟨tp, htp, hP⟩
              exact ⟨tp, List.mem_append_left _ htp, hP⟩
            · have hxR : x.node ∈ c.sorter.readyNodes := hnodeN x hxN
              have hpend0 : pendCount reg c.tasks x.node = 0 := hRpend _ hxR
              have hdone := (pendCount_zero_iff reg c.tasks x.node).mp hpend0 p hp
              rcases (doneTasks_iff c.tasks p).mp hdone with ⟨tp, htp, htpn, htpf⟩
              refine ⟨tp, List.mem_append_left _ htp, htpn, htpf, ?_⟩
              rintro ⟨hinvk, hbf⟩
              have hstopT : c.stop = true := hinv.stopChar.mpr
                ⟨tp, htp, htpf, hinvk, by rw [htpn]; exact hbf⟩
              rw [hstop] at hstopT
              cases hstopT }

end Tidydag

namespace Tidydag

theorem infoFind_of_mem_nodup (l : InfoMap) (u : Nat) (ni : NodeInfo)
    (hmem : (u, ni) ∈ l) (hnd : (imKeys l).Nodup) : infoFind l u = some ni := by
  induction l with
  | nil => cases hmem
  | cons p ps ih =>
    rw [imKeys, List.map_cons, List.nodup_cons] at hnd
    rcases List.mem_cons.mp hmem with heq | hmem'
    · rw [← heq]
      simp [infoFind]
    · have hne : (p.1 == u) = false := by
        rw [beq_eq_false_iff_ne]
        intro hpu
        apply hnd.1
        rw [hpu]
        exact List.mem_map_of_mem Prod.fst hmem'
      rw [infoFind, List.find?_cons, hne]
      exact ih hmem' hnd.2

theorem mem_of_infoFind (l : InfoMap) (u : Nat) (ni : NodeInfo)
    (h : infoFind l u = some ni) : (u, ni) ∈ l := by
  rw [infoFind] at h
  rcases hf : l.find? (fun p => p.1 == u) with _ | p
  · rw [hf] at h
    cases h
  · rw [hf] at h
    have hp := List.find?_some hf
    have hpm := List.mem_of_find?_eq_some hf
    have h1 : p.1 = u := by simpa using hp
    have h2 : p.2 = ni := by
      have : some p.2 = some ni := h
      injection this
    have hpe : p = (u, ni) := by
      cases p with
      | mk a b =>
        rw [Prod.mk.injEq]
        exact ⟨h1, h2⟩
    rw [← hpe]
    exact hpm

theorem mem_ready0_iff (l : InfoMap) (hnd : (imKeys l).Nodup) (u : Nat) :
    u ∈ (l.filter (fun p => p.2.npredecessors == 0)).map Prod.fst
      ↔ (u ∈ imKeys l ∧ npredsOf l u = 0) := by
  constructor
  · intro h
    rcases List.mem_map.mp h with ⟨p, hpf, rfl⟩
    rcases List.mem_filter.mp hpf with ⟨hpl, hp0⟩
    have hp0' : p.2.npredecessors = 0 := by simpa using hp0
    have hfind : infoFind l p.1 = some p.2 := infoFind_of_mem_nodup l p.1 p.2 hpl hnd
    refine ⟨List.mem_map_of_mem Prod.fst hpl, ?_⟩
    rw [npredsOf, hfind]
    exact hp0'
  · rintro ⟨h1, h2⟩
    rcases hf : infoFind l u with _ | ni
    · rw [infoFind_eq_none_iff] at hf
      exact absurd h1 hf
    · have hmem := mem_of_infoFind l u ni hf
      have h2' : ni.npredecessors = 0 := by
        rw [npredsOf, hf] at h2
        exact h2
      exact List.mem_map.mpr ⟨(u, ni),
        List.mem_filter.mpr ⟨hmem, by simpa using h2'⟩, rfl⟩

theorem ready0_nodup (l : InfoMap) (hnd : (imKeys l).Nodup) :
    ((l.filter (fun p => p.2.npredecessors == 0)).map Prod.fst).Nodup := by
  have hsub : List.Sublist ((l.filter (fun p => p.2.npredecessors == 0)).map Prod.fst)
      (l.map Prod.fst) := (List.filter_sublist l).map Prod.fst
  exact List.Nodup.sublist hsub hnd

theorem pendCount_nil (reg : Reg) (u : Nat) :
    pendCount reg [] u = (parentsOf reg u).length := by
  unfold pendCount doneTasks
  simp

theorem inv_init {reg : Reg} (beh : Nat → NodeBehavior) {e0 : List Nat}
    (hnodup : (reg.map Prod.fst).Nodup) (he0 : e0.Nodup) :
    Inv reg beh e0 (initState ⟨registerAll reg,
      ((registerAll reg).filter (fun p => p.2.npredecessors == 0)).map Prod.fst, 0, 0⟩ e0) :=
  {
    keysEq := rfl
    succsEq := fun _ => rfl
    nodesNodup := List.nodup_nil
    idsEq := rfl
    counterEq := rfl
    passedEq := rfl
    finishedEq := rfl
    taskKeys := fun t ht => absurd ht (List.not_mem_nil t)
    statusPending := by
      intro u hu _
      show npredsOf (registerAll reg) u = (pendCount reg ([] : List Task) u : Int)
      rw [npredsOf_registerAll reg hnodup u, pendCount_nil]
    statusOut := fun t ht => absurd ht (List.not_mem_nil t)
    statusDone := fun t ht => absurd ht (List.not_mem_nil t)
    readyChar := by
      intro u
      show u ∈ (((registerAll reg)).filter (fun p => p.2.npredecessors == 0)).map Prod.fst ↔ _
      rw [mem_ready0_iff _ (imKeys_nodup_registerAll reg) u]
      constructor
      · rintro ⟨h1, h2⟩
        refine ⟨h1, fun t ht => absurd ht (List.not_mem_nil t), ?_⟩
        show pendCount reg ([] : List Task) u = 0
        rw [npredsOf_registerAll reg hnodup u] at h2
        rw [pendCount_nil]
        exact_mod_cast h2
      · rintro ⟨h1, _, h3⟩
        refine ⟨h1, ?_⟩
        have h3' : pendCount reg ([] : List Task) u = 0 := h3
        rw [pendCount_nil] at h3'
        rw [npredsOf_registerAll reg hnodup u]
        exact_mod_cast h3'
    readyNodup := ready0_nodup _ (imKeys_nodup_registerAll reg)
    executedChar := by
      intro j
      constructor
      · exact fun h => Or.inl h
      · rintro (h | ⟨t, ht, _⟩)
        · exact h
        · exact absurd ht (List.not_mem_nil t)
    executedNodup := he0
    stopChar := by
      constructor
      · intro h
        exact absurd (show false = true from h) (by decide)
      · rintro ⟨t, ht, _⟩
        exact absurd ht (List.not_mem_nil t)
    successEq := rfl
    abortedChar := by
      constructor
      · intro h
        exact absurd (show false = true from h) (by decide)
      · rintro ⟨t, ht, _⟩
        exact absurd ht (List.not_mem_nil t)
    abortedDriver := fun h => absurd (show false = true from h) (by decide)
    crashedThrows := fun t ht => absurd ht (List.not_mem_nil t)
    spawnedNotInvoked := fun t ht => absurd ht (List.not_mem_nil t)
    executingInvoked := fun t ht => absurd ht (List.not_mem_nil t)
    crashedInvoked := fun t ht => absurd ht (List.not_mem_nil t)
    finishedSkip := fun t ht => absurd ht (List.not_mem_nil t)
    finishedReturns := fun t ht => absurd ht (List.not_mem_nil t)
    invokedFresh := fun t ht => absurd ht (List.not_mem_nil t)
    cancelledAborted := fun t ht => absurd ht (List.not_mem_nil t)
    driverExit := fun h => absurd (show true = false from h) (by decide)
    lastNodeSet := by
      rintro ⟨t, ht, _⟩
      exact absurd ht (List.not_mem_nil t)
    stopReason := fun h => absurd (show false = true from h) (by decide)
    parentsOK := fun t ht => absurd ht (List.not_mem_nil t) }

theorem inv_step {reg : Reg} {beh : Nat → NodeBehavior} {e0 : List Nat} {c : RunState}
    (hnodup : (reg.map Prod.fst).Nodup) (hinv : Inv reg beh e0 c) (a : Act) :
    Inv reg beh e0 (step beh c a) := by
  cases a with
  | poll => exact inv_stepPoll hinv
  | taskStart i => exact inv_stepStart hnodup hinv i
  | taskFinish i => exact inv_stepFinish hnodup hinv i
  | taskCancel i => exact inv_stepCancel hinv i

theorem inv_runSteps {reg : Reg} {beh : Nat → NodeBehavior} {e0 : List Nat} {c : RunState}
    (hnodup : (reg.map Prod.fst).Nodup) (hinv : Inv reg beh e0 c) (acts : List Act) :
    Inv reg beh e0 (runSteps beh c acts) := by
  induction acts generalizing c with
  | nil => exact hinv
  | cons a acts ih => exact ih (inv_step hnodup hinv a)

theorem runTrace_eq_of_ranked (reg : Reg) (e0 : List Nat) (beh : Nat → NodeBehavior)
    (acts : List Act) (hrk : Ranked reg) :
    runTrace reg e0 beh acts = runSteps beh (initState ⟨registerAll reg,
      ((registerAll reg).filter (fun p => p.2.npredecessors == 0)).map Prod.fst, 0, 0⟩ e0)
      acts := by
  rw [runTrace]
  simp only [prepareInfo_ok_of_ranked reg hrk]

theorem inv_runTrace {reg : Reg} {beh : Nat → NodeBehavior} {e0 : List Nat}
    (hnodup : (reg.map Prod.fst).Nodup) (he0 : e0.Nodup) (hrk : Ranked reg)
    (acts : List Act) : Inv reg beh e0 (runTrace reg e0 beh acts) := by
  rw [runTrace_eq_of_ranked reg e0 beh acts hrk]
  exact inv_runSteps hnodup (inv_init beh hnodup he0) acts

end Tidydag

namespace Tidydag

theorem behSuccess_returns (beh : Nat → NodeBehavior) (u : Nat) (st : NodeState)
    (h : beh u = .returns st) : behSuccess beh u = st.success := by
  simp only [behSuccess, h]

theorem behSuccess_throws (beh : Nat → NodeBehavior) (u : Nat) (msg : String)
    (h : beh u = .throws msg) : behSuccess beh u = false := by
  simp only [behSuccess, h]

theorem behFails_returns (beh : Nat → NodeBehavior) (u : Nat) (st : NodeState)
    (h : beh u = .returns st) : behFails beh u = !st.success := by
  simp only [behFails, h]

theorem behFails_throws (beh : Nat → NodeBehavior) (u : Nat) (msg : String)
    (h : beh u = .throws msg) : behFails beh u = false := by
  simp only [behFails, h]

theorem behRaises_returns (beh : Nat → NodeBehavior) (u : Nat) (st : NodeState)
    (h : beh u = .returns st) : behRaises beh u = false := by
  simp only [behRaises, h]

theorem behRaises_throws (beh : Nat → NodeBehavior) (u : Nat) (msg : String)
    (h : beh u = .throws msg) : behRaises beh u = true := by
  simp only [behRaises, h]

theorem behReason_returns (beh : Nat → NodeBehavior) (u : Nat) (st : NodeState)
    (h : beh u = .returns st) : behReason beh u = st.reason := by
  simp only [behReason, h]

theorem behFails_false_of_success (beh : Nat → NodeBehavior) (u : Nat)
    (h : behSuccess beh u = true) : behFails beh u = false := by
  rcases hbu : beh u with st | msg
  · rw [behSuccess_returns beh u st hbu] at h
    rw [behFails_returns beh u st hbu, h]
    rfl
  · rw [behFails_throws beh u msg hbu]

theorem behRaises_false_of_success (beh : Nat → NodeBehavior) (u : Nat)
    (h : behSuccess beh u = true) : behRaises beh u = false := by
  rcases hbu : beh u with st | msg
  · rw [behRaises_returns beh u st hbu]
  · rw [behSuccess_throws beh u msg hbu] at h
    cases h

theorem behSuccess_of_not_fails_not_raises (beh : Nat → NodeBehavior) (u : Nat)
    (h1 : behFails beh u = false) (h2 : behRaises beh u = false) :
    behSuccess beh u = true := by
  rcases hbu : beh u with st | msg
  · rw [behFails_returns beh u st hbu] at h1
    rw [behSuccess_returns beh u st hbu]
    cases hs : st.success
    · rw [hs] at h1
      cases h1
    · rfl
  · rw [behRaises_throws beh u msg hbu] at h2
    cases h2

theorem not_success_of_fails (beh : Nat → NodeBehavior) (u : Nat)
    (h : behFails beh u = true) : behSuccess beh u = false := by
  rcases hbu : beh u with st | msg
  · rw [behFails_returns beh u st hbu] at h
    rw [behSuccess_returns beh u st hbu]
    cases hs : st.success
    · rfl
    · rw [hs] at h
      cases h
  · rw [behFails_throws beh u msg hbu] at h
    cases h

theorem mem_of_lookup_eq_some {reg : Reg} {u : Nat} {ps : List Nat}
    (h : reg.lookup u = some ps) : (u, ps) ∈ reg := by
  induction reg with
  | nil => cases h
  | cons e es ih =>
    cases e with
    | mk k v =>
      rw [List.lookup_cons] at h
      by_cases hk : u = k
      · subst hk
        rw [beq_self_eq_true] at h
        simp only [if_true] at h
        have : v = ps := by injection h
        rw [← this]
        exact List.mem_cons_self _ _
      · have hb : (u == k) = false := by simpa using hk
        rw [hb] at h
        simp only [Bool.false_eq_true, if_false] at h
        exact List.mem_cons_of_mem _ (ih h)

theorem parents_entry {reg : Reg} {u p : Nat} (hp : p ∈ parentsOf reg u) :
    (u, parentsOf reg u) ∈ reg := by
  rw [parentsOf] at hp ⊢
  rcases hl : reg.lookup u with _ | ps
  · rw [hl] at hp
    exact absurd hp (List.not_mem_nil p)
  · exact mem_of_lookup_eq_some hl

theorem mem_keys_of_parent {reg : Reg} {u p : Nat} (hp : p ∈ parentsOf reg u) :
    p ∈ imKeys (registerAll reg) :=
  (mem_imKeys_registerAll reg p).mpr ⟨(u, parentsOf reg u), parents_entry hp, Or.inr hp⟩

theorem key_mem_imKeys (reg : Reg) (u : Nat) (h : u ∈ reg.map Prod.fst) :
    u ∈ imKeys (registerAll reg) := by
  rcases List.mem_map.mp h with ⟨e, he, rfl⟩
  exact (mem_imKeys_registerAll reg e.1).mpr ⟨e, he, Or.inl rfl⟩

theorem imKeys_subset_of_closed (reg : Reg)
    (hclosed : ∀ e ∈ reg, ∀ p ∈ e.2, p ∈ reg.map Prod.fst) (u : Nat)
    (h : u ∈ imKeys (registerAll reg)) : u ∈ reg.map Prod.fst := by
  rcases (mem_imKeys_registerAll reg u).mp h with ⟨e, he, heq | hmem⟩
  · rw [heq]
    exact List.mem_map_of_mem Prod.fst he
  · exact hclosed e he u hmem

theorem stop_false_of_no_fail {reg : Reg} {beh : Nat → NodeBehavior} {e0 : List Nat}
    {c : RunState} (hinv : Inv reg beh e0 c)
    (hbeh : ∀ u, behFails beh u = false) : c.stop = false := by
  cases hst : c.stop
  · rfl
  · rcases hinv.stopChar.mp hst with ⟨t, _, _, _, hf⟩
    rw [hbeh t.node] at hf
    cases hf

theorem aborted_false_of_no_raise {reg : Reg} {beh : Nat → NodeBehavior} {e0 : List Nat}
    {c : RunState} (hinv : Inv reg beh e0 c)
    (hbeh : ∀ u, behRaises beh u = false) : c.aborted = false := by
  cases hab : c.aborted
  · rfl
  · rcases hinv.abortedChar.mp hab with ⟨t, ht, hcr⟩
    have := hinv.crashedThrows t ht hcr
    rw [hbeh t.node] at this
    cases this

theorem complete_all_finished {reg : Reg} {beh : Nat → NodeBehavior} {e0 : List Nat}
    {c : RunState} (hinv : Inv reg beh e0 c) (hC : Complete c)
    (habort : c.aborted = false) : ∀ t ∈ c.tasks, t.phase = .finished := by
  intro t ht
  rcases hC.2 t ht with h | h | h
  · exact h
  · have := hinv.cancelledAborted t ht h
    rw [habort] at this
    cases this
  · have := hinv.abortedChar.mpr ⟨t, ht, h⟩
    rw [habort] at this
    cases this

theorem complete_ready_nil {reg : Reg} {beh : Nat → NodeBehavior} {e0 : List Nat}
    {c : RunState} (hinv : Inv reg beh e0 c) (hC : Complete c)
    (hstop : c.stop = false) (habort : c.aborted = false) :
    c.sorter.readyNodes = [] := by
  have hact : isActive c.sorter = false := by
    rcases hinv.driverExit hC.1 with h | h | h
    · rw [habort] at h
      cases h
    · rw [hstop] at h
      cases h
    · exact h
  cases hl : c.sorter.readyNodes
  · rfl
  · exfalso
    rw [isActive, hl] at hact
    simp at hact

/-- A completed, unaborted, unstopped run has produced a finished task for
every key of the prepared graph (completeness: proved by strong induction on
a topological rank). -/
theorem complete_covers {reg : Reg} {beh : Nat → NodeBehavior} {e0 : List Nat}
    {c : RunState} (hinv : Inv reg beh e0 c) (hrk : Ranked reg) (hC : Complete c)
    (hstop : c.stop = false) (habort : c.aborted = false) :
    ∀ u ∈ imKeys (registerAll reg), ∃ t ∈ c.tasks, t.node = u ∧ t.phase = .finished := by
  rcases hrk with ⟨rank, hrank⟩
  have hallfin := complete_all_finished hinv hC habort
  have hreadyNil := complete_ready_nil hinv hC hstop habort
  have main : ∀ n, ∀ u, u ∈ imKeys (registerAll reg) → rank u < n →
      ∃ t ∈ c.tasks, t.node = u ∧ t.phase = .finished := by
    intro n
    induction n with
    | zero => exact fun u _ h => absurd h (by omega)
    | succ n ih =>
      intro u hu hr
      by_cases htask : ∃ t ∈ c.tasks, t.node = u
      · rcases htask with ⟨t, ht, htn⟩
        exact ⟨t, ht, htn, hallfin t ht⟩
      · exfalso
        push_neg at htask
        have hpend : pendCount reg c.tasks u = 0 := by
          rw [pendCount_zero_iff]
          intro p hp
          have hpk : p ∈ imKeys (registerAll reg) := mem_keys_of_parent hp
          have hpr : rank p < rank u := hrank (u, parentsOf reg u) (parents_entry hp) p hp
          rcases ih p hpk (by omega) with ⟨tp, htp, htpn, htpf⟩
          exact (doneTasks_iff _ _).mpr ⟨tp, htp, htpn, htpf⟩
        have hready : u ∈ c.sorter.readyNodes :=
          (hinv.readyChar u).mpr ⟨hu, htask, hpend⟩
        rw [hreadyNil] at hready
        cases hready
  exact fun u hu => main (rank u + 1) u hu (by omega)

/-- Among a run's tasks, a finished task was actually invoked exactly when its
identity was not already checkpointed before the run. -/
theorem finished_invoked_iff {reg : Reg} {beh : Nat → NodeBehavior} {e0 : List Nat}
    {c : RunState} (hinv : Inv reg beh e0 c) (t : Task) (ht : t ∈ c.tasks)
    (hf : t.phase = .finished) : (t.invoked = true ↔ t.id ∉ e0) := by
  constructor
  · exact fun hi => hinv.invokedFresh t ht hi
  · intro hni
    cases hi : t.invoked
    · exfalso
      have hid := hinv.finishedSkip t ht hf hi
      rcases (hinv.executedChar t.id).mp hid with h | ⟨t', ht', hf', hi', _, hid'⟩
      · exact hni h
      · have heq := hinv.uniqueById t' ht' t ht hid'
        rw [heq, hi] at hi'
        cases hi'
    · rfl

/-- Every finished task whose node's behavior is a success has its identity in
the ledger (via `_checkpoint` if invoked, via the pre-existing ledger on the
skip path). -/
theorem finished_checkpointed {reg : Reg} {beh : Nat → NodeBehavior} {e0 : List Nat}
    {c : RunState} (hinv : Inv reg beh e0 c) (t : Task) (ht : t ∈ c.tasks)
    (hf : t.phase = .finished) (hbS : behSuccess beh t.node = true) :
    t.id ∈ c.executed := by
  cases hi : t.invoked
  · exact hinv.finishedSkip t ht hf hi
  · exact (hinv.executedChar t.id).mpr (Or.inr ⟨t, ht, hf, hi, hbS, rfl⟩)

end Tidydag

namespace Tidydag

/-- C1: for every acyclic registered graph in which every node's `execute`
returns a `Success` state, after `run` returns (the trace is complete) the
execution record has `success = true`, and `metadata.executed` holds exactly
the identity assigned to each registered node, each exactly once: the ledger
is duplicate-free, every registered node's task identity is in it, everything
in it is the identity of a registered node's task, and each node has exactly
one task. -/
theorem C1_completeness (reg : Reg) (beh : Nat → NodeBehavior) (acts : List Act)
    (hnodup : (reg.map Prod.fst).Nodup)
    (hclosed : ∀ e ∈ reg, ∀ p ∈ e.2, p ∈ reg.map Prod.fst)
    (hrk : Ranked reg)
    (hbeh : ∀ u, behSuccess beh u = true)
    (hC : Complete (runTrace reg [] beh acts)) :
    (runTrace reg [] beh acts).success = true
    ∧ (runTrace reg [] beh acts).executed.Nodup
    ∧ (∀ u ∈ reg.map Prod.fst, ∃ t ∈ (runTrace reg [] beh acts).tasks,
        t.node = u ∧ t.id ∈ (runTrace reg [] beh acts).executed)
    ∧ (∀ i ∈ (runTrace reg [] beh acts).executed,
        ∃ t ∈ (runTrace reg [] beh acts).tasks, t.id = i ∧ t.node ∈ reg.map Prod.fst)
    ∧ (∀ t1 ∈ (runTrace reg [] beh acts).tasks, ∀ t2 ∈ (runTrace reg [] beh acts).tasks,
        t1.node = t2.node → t1 = t2) := by
  have hinv : Inv reg beh [] (runTrace reg [] beh acts) :=
    inv_runTrace hnodup List.nodup_nil hrk acts
  have hstop : (runTrace reg [] beh acts).stop = false :=
    stop_false_of_no_fail hinv (fun u => behFails_false_of_success beh u (hbeh u))
  have habort : (runTrace reg [] beh acts).aborted = false :=
    aborted_false_of_no_raise hinv (fun u => behRaises_false_of_success beh u (hbeh u))
  have hcov := complete_covers hinv hrk hC hstop habort
  refine ⟨?_, hinv.executedNodup, ?_, ?_, unique_task_of_nodes_nodup hinv.nodesNodup⟩
  · rw [hinv.successEq, hstop]
    rfl
  · intro u hu
    rcases hcov u (key_mem_imKeys reg u hu) with ⟨t, ht, htn, htf⟩
    exact ⟨t, ht, htn, finished_checkpointed hinv t ht htf (hbeh t.node)⟩
  · intro i hi
    rcases (hinv.executedChar i).mp hi with h | ⟨t, ht, h1, h2, h3, h4⟩
    · cases h
    · exact ⟨t, ht, h4, imKeys_subset_of_closed reg hclosed t.node (hinv.taskKeys t ht)⟩

theorem C1_completeness_witness :
    Complete (runTrace [(0, []), (1, [0]), (2, [0]), (3, [1, 2])] []
      (fun _ => .returns ⟨true, none⟩)
      [.poll, .taskStart 0, .taskFinish 0, .poll, .taskStart 1, .taskStart 2,
        .taskFinish 1, .taskFinish 2, .poll, .taskStart 3, .taskFinish 3, .poll])
    ∧ (runTrace [(0, []), (1, [0]), (2, [0]), (3, [1, 2])] []
      (fun _ => .returns ⟨true, none⟩)
      [.poll, .taskStart 0, .taskFinish 0, .poll, .taskStart 1, .taskStart 2,
        .taskFinish 1, .taskFinish 2, .poll, .taskStart 3, .taskFinish 3, .poll]).success
        = true :=
  ⟨by decide,
    (C1_completeness [(0, []), (1, [0]), (2, [0]), (3, [1, 2])]
      (fun _ => .returns ⟨true, none⟩)
      [.poll, .taskStart 0, .taskFinish 0, .poll, .taskStart 1, .taskStart 2,
        .taskFinish 1, .taskFinish 2, .poll, .taskStart 3, .taskFinish 3, .poll]
      (by decide) (by decide) ⟨fun u => u, by decide⟩ (fun u => rfl) (by decide)).1⟩

/-- C2: for every acyclic registered graph, registration order and schedule,
in every reachable run state, any task whose `execute` has been invoked has
every one of its node's parents carried by a finished task whose identity is
in `metadata.executed` — execution never begins before all parents are
checkpointed (executed only grows, so the ledger already contained them at
invocation time). -/
theorem C2_topological_soundness (reg : Reg) (beh : Nat → NodeBehavior) (e0 : List Nat)
    (acts : List Act) (hnodup : (reg.map Prod.fst).Nodup) (he0 : e0.Nodup)
    (hrk : Ranked reg) :
    ∀ t ∈ (runTrace reg e0 beh acts).tasks, t.invoked = true →
      ∀ p ∈ parentsOf reg t.node, ∃ tp ∈ (runTrace reg e0 beh acts).tasks,
        tp.node = p ∧ tp.phase = .finished ∧ tp.id ∈ (runTrace reg e0 beh acts).executed := by
  intro t ht _ p hp
  have hinv : Inv reg beh e0 (runTrace reg e0 beh acts) :=
    inv_runTrace hnodup he0 hrk acts
  rcases hinv.parentsOK t ht p hp with ⟨tp, htp, htpn, htpf, hnf⟩
  refine ⟨tp, htp, htpn, htpf, ?_⟩
  cases hi : tp.invoked
  · exact hinv.finishedSkip tp htp htpf hi
  · have hbf : behFails beh tp.node = false := by
      cases hbf : behFails beh tp.node
      · rfl
      · exact absurd ⟨hi, htpn ▸ hbf⟩ hnf
    have hbr : behRaises beh tp.node = false := hinv.finishedReturns tp htp htpf hi
    have hbs := behSuccess_of_not_fails_not_raises beh tp.node hbf hbr
    exact (hinv.executedChar tp.id).mpr (Or.inr ⟨tp, htp, htpf, hi, hbs, rfl⟩)

theorem C2_topological_soundness_witness :
    ([(0, ([] : List Nat)), (1, [0]), (2, [0]), (3, [1, 2])].map Prod.fst).Nodup
    ∧ (∀ t ∈ (runTrace [(0, []), (1, [0]), (2, [0]), (3, [1, 2])] []
        (fun _ => .returns ⟨true, none⟩)
        [.poll, .taskStart 0, .taskFinish 0, .poll, .taskStart 1, .taskStart 2,
          .taskFinish 1, .taskFinish 2, .poll, .taskStart 3, .taskFinish 3, .poll]).tasks,
        t.invoked = true →
        ∀ p ∈ parentsOf [(0, []), (1, [0]), (2, [0]), (3, [1, 2])] t.node,
          ∃ tp ∈ (runTrace [(0, []), (1, [0]), (2, [0]), (3, [1, 2])] []
            (fun _ => .returns ⟨true, none⟩)
            [.poll, .taskStart 0, .taskFinish 0, .poll, .taskStart 1, .taskStart 2,
              .taskFinish 1, .taskFinish 2, .poll, .taskStart 3, .taskFinish 3, .poll]).tasks,
            tp.node = p ∧ tp.phase = .finished
              ∧ tp.id ∈ (runTrace [(0, []), (1, [0]), (2, [0]), (3, [1, 2])] []
                (fun _ => .returns ⟨true, none⟩)
                [.poll, .taskStart 0, .taskFinish 0, .poll, .taskStart 1, .taskStart 2,
                  .taskFinish 1, .taskFinish 2, .poll, .taskStart 3, .taskFinish 3,
                  .poll]).executed) :=
  ⟨by decide,
    C2_topological_soundness [(0, []), (1, [0]), (2, [0]), (3, [1, 2])]
      (fun _ => .returns ⟨true, none⟩) []
      [.poll, .taskStart 0, .taskFinish 0, .poll, .taskStart 1, .taskStart 2,
        .taskFinish 1, .taskFinish 2, .poll, .taskStart 3, .taskFinish 3, .poll]
      (by decide) List.nodup_nil ⟨fun u => u, by decide⟩⟩

end Tidydag

namespace Tidydag

/-- C6: on a cyclic registered graph, `prepare()` does raise `CycleError`
(naming offending nodes) before any node executes — but `run` does NOT
propagate it to the caller: the `CycleError` escapes the `async with
asyncio.TaskGroup()` body, is wrapped into an `ExceptionGroup` by
`TaskGroup.__aexit__`, and the `except* Exception` handler merely prints it,
so for every schedule `run` returns normally with `success = true`, no reason,
and no node ever executed.  This contradicts the specified behavior that the
run fails with a `CycleError` raised to the caller. -/
theorem C6_cycle_swallowed :
    prepareInfo (registerAll [(0, [1]), (1, [0])]) = .error [0, 1, 0]
    ∧ ∀ (beh : Nat → NodeBehavior) (e0 : List Nat) (acts : List Act),
        (runTrace [(0, [1]), (1, [0])] e0 beh acts).success = true
        ∧ (runTrace [(0, [1]), (1, [0])] e0 beh acts).tasks = []
        ∧ (runTrace [(0, [1]), (1, [0])] e0 beh acts).reason = none
        ∧ (runTrace [(0, [1]), (1, [0])] e0 beh acts).executed = e0 := by
  have hprep : prepareInfo (registerAll [(0, [1]), (1, [0])]) = .error [0, 1, 0] := by
    rfl
  refine ⟨hprep, ?_⟩
  intro beh e0 acts
  have hrun : runTrace [(0, [1]), (1, [0])] e0 beh acts
      = ⟨⟨registerAll [(0, [1]), (1, [0])], [], 0, 0⟩, e0, false, true, none, none, 0, [],
          false, false, 0⟩ := by
    simp only [runTrace, hprep]
  rw [hrun]
  exact ⟨rfl, rfl, rfl, rfl⟩

/-- C7 counterexample: a node whose body raises (`.throws`) is NOT treated as
a `NodeFailure`: the completed run still reports `success = true` with no
reason recorded, contradicting the claimed `success = false` with the
exception's message. -/
theorem C7_counterexample :
    Complete (runTrace [(0, [])] [] (fun _ => .throws "boom")
      [.poll, .taskStart 0, .taskFinish 0])
    ∧ (runTrace [(0, [])] [] (fun _ => .throws "boom")
        [.poll, .taskStart 0, .taskFinish 0]).success = true
    ∧ (runTrace [(0, [])] [] (fun _ => .throws "boom")
        [.poll, .taskStart 0, .taskFinish 0]).reason = none := by
  exact ⟨by decide, rfl, rfl⟩

/-- C7 (amended): when an exception escapes a node body, the run is NOT
recorded as a failure — `success`/`reason` are unaffected by the crash
(`success` is still true unless some other node returned an `Error` state) —
but the checkpoint ledger is not corrupted: the crashed node's identity is
never added to `metadata.executed`.  The TaskGroup aborts, so the driver draws
no further batches and in-flight siblings may be cancelled rather than run to
completion. -/
theorem C7_escaped_exception (reg : Reg) (beh : Nat → NodeBehavior) (e0 : List Nat)
    (acts : List Act) (hnodup : (reg.map Prod.fst).Nodup) (he0 : e0.Nodup)
    (hrk : Ranked reg) :
    ∀ t ∈ (runTrace reg e0 beh acts).tasks, t.phase = .crashed →
      t.id ∉ (runTrace reg e0 beh acts).executed
      ∧ (runTrace reg e0 beh acts).aborted = true
      ∧ (runTrace reg e0 beh acts).driverActive = false
      ∧ ((runTrace reg e0 beh acts).success = true ↔
          ¬∃ t' ∈ (runTrace reg e0 beh acts).tasks,
            t'.phase = .finished ∧ t'.invoked = true ∧ behFails beh t'.node = true) := by
  intro t ht hcr
  have hinv : Inv reg beh e0 (runTrace reg e0 beh acts) :=
    inv_runTrace hnodup he0 hrk acts
  have hti : t.invoked = true := hinv.crashedInvoked t ht hcr
  refine ⟨?_, hinv.abortedChar.mpr ⟨t, ht, hcr⟩,
    hinv.abortedDriver (hinv.abortedChar.mpr ⟨t, ht, hcr⟩), ?_⟩
  · intro hmem
    rcases (hinv.executedChar t.id).mp hmem with h | ⟨t', ht', h1, _, _, h4⟩
    · exact hinv.invokedFresh t ht hti h
    · have heq := hinv.uniqueById t' ht' t ht h4
      rw [heq, hcr] at h1
      cases h1
  · constructor
    · intro hsf hex
      have hst := hinv.stopChar.mpr hex
      have : (runTrace reg e0 beh acts).success = false := by
        rw [hinv.successEq, hst]
        rfl
      rw [hsf] at this
      cases this
    · intro hnex
      cases hst : (runTrace reg e0 beh acts).stop
      · rw [hinv.successEq, hst]
        rfl
      · exact absurd (hinv.stopChar.mp hst) hnex

theorem C7_escaped_exception_witness :
    (⟨0, 1, 0, .crashed, true⟩ : Task) ∈ (runTrace [(0, [])] [] (fun _ => .throws "boom")
      [.poll, .taskStart 0, .taskFinish 0]).tasks
    ∧ (⟨0, 1, 0, .crashed, true⟩ : Task).id ∉ (runTrace [(0, [])] []
        (fun _ => .throws "boom") [.poll, .taskStart 0, .taskFinish 0]).executed
    ∧ (runTrace [(0, [])] [] (fun _ => .throws "boom")
        [.poll, .taskStart 0, .taskFinish 0]).aborted = true :=
  ⟨by decide,
    (C7_escaped_exception [(0, [])] (fun _ => .throws "boom") []
      [.poll, .taskStart 0, .taskFinish 0] (by decide) List.nodup_nil
      ⟨fun u => u, by decide⟩ ⟨0, 1, 0, .crashed, true⟩ (by decide) rfl).1,
    (C7_escaped_exception [(0, [])] (fun _ => .throws "boom") []
      [.poll, .taskStart 0, .taskFinish 0] (by decide) List.nodup_nil
      ⟨fun u => u, by decide⟩ ⟨0, 1, 0, .crashed, true⟩ (by decide) rfl).2.1⟩

/-- C8 counterexample: `_verify_parents` accepts ANY iterable that is not a
`str`/`bytes` without inspecting its elements — a list containing the integer
7 (not a `Node`) is accepted and stored as-is, although the claim says
construction succeeds only for an iterable of Nodes. -/
theorem C8_counterexample :
    verifyParents (.vIter [.vInt 7]) = .ok [.vInt 7]
    ∧ isNodeVal (.vInt 7) = false :=
  ⟨rfl, rfl⟩

/-- C8 (amended): `Node._verify_parents` accepts `None` (empty tuple), a
single `Node` (singleton tuple), and any iterable other than `str`/`bytes`
(stored as the tuple of its elements, which are NOT validated to be Nodes);
anything else raises `ValueError("Parents must be a Node or Iterable")` (a
`ValueError`, not a `ValidationError`). -/
theorem C8_parents_validation (v : PyValue) :
    ((∃ ps, verifyParents v = .ok ps) ↔
      (isNoneVal v = true ∨ isNodeVal v = true
        ∨ (isIterableVal v = true ∧ isStrOrBytes v = false)))
    ∧ (isNoneVal v = true → verifyParents v = .ok [])
    ∧ (isNoneVal v = false → isNodeVal v = true → verifyParents v = .ok [v])
    ∧ (isNoneVal v = false → isNodeVal v = false → isIterableVal v = true →
        isStrOrBytes v = false → verifyParents v = .ok (iterElems v))
    ∧ (¬(isNoneVal v = true ∨ isNodeVal v = true
          ∨ (isIterableVal v = true ∧ isStrOrBytes v = false)) →
        verifyParents v = .error "Parents must be a Node or Iterable") := by
  cases v <;> simp [verifyParents, isNoneVal, isNodeVal, isIterableVal, isStrOrBytes]

theorem C8_parents_validation_witness :
    isNoneVal .vNone = true ∧ verifyParents .vNone = .ok [] :=
  ⟨rfl, (C8_parents_validation .vNone).2.1 rfl⟩

end Tidydag

namespace Tidydag

/-- C9: `metadata.executed` only ever grows: every scheduler step preserves
membership (the only mutation is `List.insert` in `_checkpoint`), hence every
schedule preserves it, and every run — including one that failed at `prepare`
— starts from the supplied ledger and only adds to it. -/
theorem C9_executed_monotone (beh : Nat → NodeBehavior) :
    (∀ (c : RunState) (a : Act), ∀ i ∈ c.executed, i ∈ (step beh c a).executed)
    ∧ (∀ (c : RunState) (acts : List Act), ∀ i ∈ c.executed,
        i ∈ (runSteps beh c acts).executed)
    ∧ (∀ (reg : Reg) (e0 : List Nat) (acts : List Act), ∀ i ∈ e0,
        i ∈ (runTrace reg e0 beh acts).executed) := by
  have hstep : ∀ (c : RunState) (a : Act), ∀ i ∈ c.executed, i ∈ (step beh c a).executed := by
    intro c a i hi
    cases a with
    | poll =>
      show i ∈ (stepPoll c).executed
      cases hdrv : c.driverActive
      · rw [stepPoll_inactive c hdrv]
        exact hi
      · cases hcond : (isActive c.sorter && !c.stop)
        · rw [stepPoll_exit c hdrv hcond]
          exact hi
        · rw [stepPoll_act c hdrv hcond]
          by_cases hemp : c.sorter.readyNodes.isEmpty = true
          · rw [if_pos hemp]
            exact hi
          · rw [if_neg hemp]
            exact hi
    | taskStart j =>
      show i ∈ (stepStart c j).executed
      rcases hget : c.tasks.get? j with _ | t
      · rw [stepStart_none c j hget]
        exact hi
      · rw [stepStart_some c j t hget]
        by_cases h1 : t.phase = .spawned ∧ c.aborted = false
        · rw [if_pos h1]
          by_cases h2 : t.id ∈ c.executed
          · rw [if_pos h2]
            exact hi
          · rw [if_neg h2]
            exact hi
        · rw [if_neg h1]
          exact hi
    | taskFinish j =>
      show i ∈ (stepFinish beh c j).executed
      rcases hget : c.tasks.get? j with _ | t
      · rw [stepFinish_none beh c j hget]
        exact hi
      · by_cases hph : t.phase = .executing
        swap
        · rw [stepFinish_not_exec beh c j t hget hph]
          exact hi
        · rcases hbeh : beh t.node with st | msg
          · cases hs : st.success
            · rw [stepFinish_fail beh c j t st hget hph hbeh hs]
              exact hi
            · rw [stepFinish_success beh c j t st hget hph hbeh hs]
              exact List.mem_insert_iff.mpr (Or.inr hi)
          · rw [stepFinish_throws beh c j t msg hget hph hbeh]
            exact hi
    | taskCancel j =>
      show i ∈ (stepCancel c j).executed
      rcases hget : c.tasks.get? j with _ | t
      · rw [stepCancel_none c j hget]
        exact hi
      · rw [stepCancel_some c j t hget]
        by_cases h1 : c.aborted = true ∧ (t.phase = .spawned ∨ t.phase = .executing)
        · rw [if_pos h1]
          exact hi
        · rw [if_neg h1]
          exact hi
  have hsteps : ∀ (c : RunState) (acts : List Act), ∀ i ∈ c.executed,
      i ∈ (runSteps beh c acts).executed := by
    intro c acts
    induction acts generalizing c with
    | nil => exact fun i hi => hi
    | cons a as ih => exact fun i hi => ih (step beh c a) i (hstep c a i hi)
  refine ⟨hstep, hsteps, ?_⟩
  intro reg e0 acts i hi
  rcases hprep : prepareInfo (registerAll reg) with cyc | s
  · have hrun : runTrace reg e0 beh acts
        = ⟨⟨registerAll reg, [], 0, 0⟩, e0, false, true, none, none, 0, [],
            false, false, 0⟩ := by
      simp only [runTrace, hprep]
    rw [hrun]
    exact hi
  · have hrun : runTrace reg e0 beh acts = runSteps beh (initState s e0) acts := by
      simp only [runTrace, hprep]
    rw [hrun]
    exact hsteps (initState s e0) acts i hi

theorem C9_executed_monotone_witness :
    5 ∈ ([5] : List Nat)
    ∧ 5 ∈ (step (fun _ => .returns ⟨true, none⟩)
        (initState ⟨[], [], 0, 0⟩ [5]) .poll).executed :=
  ⟨by decide,
    (C9_executed_monotone (fun _ => .returns ⟨true, none⟩)).1
      (initState ⟨[], [], 0, 0⟩ [5]) .poll 5 (by decide)⟩

/-- C10: when the orchestrator was constructed with a pre-existing context,
`run(state, deps)` ignores both arguments entirely — the result is literally
independent of them and the run uses the supplied context's `state` and
`deps`; only without a pre-existing context does `run` build a fresh context
from its arguments. -/
theorem C10_ctx_overrides (σ δ : Type) (reg : Reg) (beh : Nat → NodeBehavior)
    (ctx : OrchestratorContext σ δ) (s1 s2 : σ) (d1 d2 : δ) (acts : List Act) :
    orchestratorRun reg beh (some ctx) s1 d1 acts
      = orchestratorRun reg beh (some ctx) s2 d2 acts
    ∧ (orchestratorRun reg beh (some ctx) s1 d1 acts).ctx.state = ctx.state
    ∧ (orchestratorRun reg beh (some ctx) s1 d1 acts).ctx.deps = ctx.deps
    ∧ (∀ (s : σ) (d : δ),
        (orchestratorRun reg beh (none : Option (OrchestratorContext σ δ)) s d acts).ctx.state
          = s
        ∧ (orchestratorRun reg beh (none : Option (OrchestratorContext σ δ)) s d acts).ctx.deps
          = d) :=
  ⟨rfl, rfl, rfl, fun _ _ => ⟨rfl, rfl⟩⟩

end Tidydag

namespace Tidydag

/-- C3: if node X returns an `Error` state during a completed run (in which no
node's body raises), then no descendant of X (transitive closure of the
parent-of relation) ever gets a `_visit` task — so it is never executed — and
every ledger entry beyond the initial ones belongs to a non-descendant, while
every task of the run (in particular every sibling dispatched in X's batch)
still runs to completion and, if its node succeeds, is checkpointed. -/
theorem C3_failure_containment (reg : Reg) (beh : Nat → NodeBehavior) (e0 : List Nat)
    (acts : List Act) (hnodup : (reg.map Prod.fst).Nodup) (he0 : e0.Nodup)
    (hrk : Ranked reg) (hnoraise : ∀ u, behRaises beh u = false)
    (hC : Complete (runTrace reg e0 beh acts)) (X : Nat) (tx : Task)
    (htx : tx ∈ (runTrace reg e0 beh acts).tasks) (htxn : tx.node = X)
    (htxf : tx.phase = .finished) (htxi : tx.invoked = true)
    (hbX : behFails beh X = true) :
    (∀ D, Relation.TransGen (fun a b => a ∈ parentsOf reg b) X D →
      (∀ t ∈ (runTrace reg e0 beh acts).tasks, t.node ≠ D)
      ∧ (∀ i ∈ (runTrace reg e0 beh acts).executed, i ∉ e0 →
          ∃ t ∈ (runTrace reg e0 beh acts).tasks, t.id = i ∧ t.node ≠ D))
    ∧ (∀ ts ∈ (runTrace reg e0 beh acts).tasks, ts.batch = tx.batch →
        ts.phase = .finished
        ∧ (behSuccess beh ts.node = true → ts.id ∈ (runTrace reg e0 beh acts).executed)) := by
  have hinv : Inv reg beh e0 (runTrace reg e0 beh acts) :=
    inv_runTrace hnodup he0 hrk acts
  have habort := aborted_false_of_no_raise hinv hnoraise
  have hallfin := complete_all_finished hinv hC habort
  have hnotask : ∀ D, Relation.TransGen (fun a b => a ∈ parentsOf reg b) X D →
      ∀ t ∈ (runTrace reg e0 beh acts).tasks, t.node ≠ D := by
    intro D hTG
    induction hTG with
    | single hr =>
      intro t ht htn
      rcases hinv.parentsOK t ht X (by rw [htn]; exact hr) with ⟨tp, htp, htpn, htpf, hnf⟩
      have heq : tp = tx := unique_task_of_nodes_nodup hinv.nodesNodup tp htp tx htx
        (by rw [htpn, htxn])
      rw [heq] at hnf
      exact hnf ⟨htxi, hbX⟩
    | tail hTG2 hr ih =>
      intro t ht htn
      rcases hinv.parentsOK t ht _ (by rw [htn]; exact hr) with ⟨tp, htp, htpn, _, _⟩
      exact ih tp htp htpn
  refine ⟨fun D hTG => ⟨hnotask D hTG, ?_⟩, ?_⟩
  · intro i hi hne0
    rcases (hinv.executedChar i).mp hi with h | ⟨t, ht, _, _, _, h4⟩
    · exact absurd h hne0
    · exact ⟨t, ht, h4, hnotask D hTG t ht⟩
  · intro ts hts _
    exact ⟨hallfin ts hts,
      fun hbs => finished_checkpointed hinv ts hts (hallfin ts hts) hbs⟩

theorem C3_failure_containment_witness :
    (2 ∈ parentsOf [(0, []), (1, [0]), (2, [0]), (3, [1, 2])] 3)
    ∧ (∀ t ∈ (runTrace [(0, []), (1, [0]), (2, [0]), (3, [1, 2])] []
        (fun n => .returns ⟨n != 2, none⟩)
        [.poll, .taskStart 0, .taskFinish 0, .poll, .taskStart 1, .taskStart 2,
          .taskFinish 1, .taskFinish 2, .poll]).tasks, t.node ≠ 3) :=
  ⟨by decide,
    ((C3_failure_containment [(0, []), (1, [0]), (2, [0]), (3, [1, 2])]
      (fun n => .returns ⟨n != 2, none⟩) []
      [.poll, .taskStart 0, .taskFinish 0, .poll, .taskStart 1, .taskStart 2,
        .taskFinish 1, .taskFinish 2, .poll]
      (by decide) List.nodup_nil ⟨fun u => u, by decide⟩ (fun u => rfl) (by decide)
      2 ⟨2, 3, 1, .finished, true⟩ (by decide) rfl rfl rfl rfl).1 3
      (Relation.TransGen.single (by decide))).1⟩

/-- C4: whenever a node's `execute` resolves to an `Error` state (a finished,
invoked task of a node whose behavior fails), the run's record (`run` returns
it normally; exceptions are confined to the `except*` handler) has the stop
flag raised and `success = false`, the node's identity is not checkpointed,
the recorded reason is the error reason of a failed node (the last failure to
land overwrites it), `last_node` is set, the node is still marked done
(`_NODE_DONE = -2`) in the tracker, and a stopped driver poll dispatches no
further batch. -/
theorem C4_error_handling (reg : Reg) (beh : Nat → NodeBehavior) (e0 : List Nat)
    (acts : List Act) (hnodup : (reg.map Prod.fst).Nodup) (he0 : e0.Nodup)
    (hrk : Ranked reg) (t : Task) (r : String)
    (ht : t ∈ (runTrace reg e0 beh acts).tasks) (hf : t.phase = .finished)
    (hi : t.invoked = true) (hbeh : beh t.node = .returns ⟨false, some r⟩) :
    (runTrace reg e0 beh acts).stop = true
    ∧ (runTrace reg e0 beh acts).success = false
    ∧ t.id ∉ (runTrace reg e0 beh acts).executed
    ∧ (∃ t' ∈ (runTrace reg e0 beh acts).tasks, t'.phase = .finished ∧ t'.invoked = true
        ∧ behFails beh t'.node = true
        ∧ (runTrace reg e0 beh acts).reason = behReason beh t'.node)
    ∧ (∃ u, (runTrace reg e0 beh acts).lastNode = some u)
    ∧ npredsOf (runTrace reg e0 beh acts).sorter.info t.node = -2
    ∧ (stepPoll (runTrace reg e0 beh acts)).tasks = (runTrace reg e0 beh acts).tasks := by
  have hinv : Inv reg beh e0 (runTrace reg e0 beh acts) :=
    inv_runTrace hnodup he0 hrk acts
  have hbF : behFails beh t.node = true := by
    rw [behFails_returns beh t.node _ hbeh]
    rfl
  have hstop : (runTrace reg e0 beh acts).stop = true :=
    hinv.stopChar.mpr ⟨t, ht, hf, hi, hbF⟩
  refine ⟨hstop, ?_, ?_, hinv.stopReason hstop, hinv.lastNodeSet ⟨t, ht, hf, hi⟩,
    hinv.statusDone t ht hf, ?_⟩
  · rw [hinv.successEq, hstop]
    rfl
  · intro hmem
    rcases (hinv.executedChar t.id).mp hmem with h | ⟨t', ht', _, _, h3, h4⟩
    · exact hinv.invokedFresh t ht hi h
    · have heq := hinv.uniqueById t' ht' t ht h4
      rw [heq] at h3
      rw [not_success_of_fails beh t.node hbF] at h3
      cases h3
  · cases hdrv : (runTrace reg e0 beh acts).driverActive
    · rw [stepPoll_inactive _ hdrv]
    · have hcond : (isActive (runTrace reg e0 beh acts).sorter
          && !(runTrace reg e0 beh acts).stop) = false := by
        rw [hstop]
        simp
      rw [stepPoll_exit _ hdrv hcond]

theorem C4_error_handling_witness :
    (⟨2, 3, 1, .finished, true⟩ : Task) ∈ (runTrace [(0, []), (1, [0]), (2, [0]), (3, [1, 2])]
      [] (fun n => if n == 2 then .returns ⟨false, some "Triggered Error"⟩
        else .returns ⟨true, none⟩)
      [.poll, .taskStart 0, .taskFinish 0, .poll, .taskStart 1, .taskStart 2,
        .taskFinish 1, .taskFinish 2, .poll]).tasks
    ∧ (runTrace [(0, []), (1, [0]), (2, [0]), (3, [1, 2])]
      [] (fun n => if n == 2 then .returns ⟨false, some "Triggered Error"⟩
        else .returns ⟨true, none⟩)
      [.poll, .taskStart 0, .taskFinish 0, .poll, .taskStart 1, .taskStart 2,
        .taskFinish 1, .taskFinish 2, .poll]).success = false :=
  ⟨by decide,
    (C4_error_handling [(0, []), (1, [0]), (2, [0]), (3, [1, 2])]
      (fun n => if n == 2 then .returns ⟨false, some "Triggered Error"⟩
        else .returns ⟨true, none⟩) []
      [.poll, .taskStart 0, .taskFinish 0, .poll, .taskStart 1, .taskStart 2,
        .taskFinish 1, .taskFinish 2, .poll]
      (by decide) List.nodup_nil ⟨fun u => u, by decide⟩
      ⟨2, 3, 1, .finished, true⟩ "Triggered Error" (by decide) rfl rfl rfl).2.1⟩

end Tidydag

namespace Tidydag

/-- C5 (amended): running again over the same graph with the first run's
ledger as the pre-existing context: among the second run's completed tasks,
`execute` is invoked exactly for the identities not yet in the ledger (the
checkpointed ones are skipped without invocation and land in the new ledger as
immediate successes); when the second run's behaviors all succeed, every
registered node gets exactly one task and finishes; and — given stable
identity assignment across the two attempts — a node checkpointed by the
first run is never re-invoked.  (The original claim's "each node is executed
exactly once across both runs" fails for nodes that failed in the first run:
they are invoked in both runs; see the counterexample.) -/
theorem C5_resume_skip (reg : Reg) (beh1 beh2 : Nat → NodeBehavior)
    (acts1 acts2 : List Act)
    (hnodup : (reg.map Prod.fst).Nodup)
    (hrk : Ranked reg)
    (hstable : ∀ t1 ∈ (runTrace reg [] beh1 acts1).tasks,
      ∀ t2 ∈ (runTrace reg (runTrace reg [] beh1 acts1).executed beh2 acts2).tasks,
        t1.node = t2.node → t1.id = t2.id)
    (hbeh2 : ∀ u, behSuccess beh2 u = true)
    (hC2 : Complete (runTrace reg (runTrace reg [] beh1 acts1).executed beh2 acts2)) :
    (∀ t2 ∈ (runTrace reg (runTrace reg [] beh1 acts1).executed beh2 acts2).tasks,
      t2.phase = .finished →
      (t2.invoked = true ↔ t2.id ∉ (runTrace reg [] beh1 acts1).executed)
      ∧ t2.id ∈ (runTrace reg (runTrace reg [] beh1 acts1).executed beh2 acts2).executed)
    ∧ (∀ u ∈ reg.map Prod.fst,
        ∃ t2 ∈ (runTrace reg (runTrace reg [] beh1 acts1).executed beh2 acts2).tasks,
          t2.node = u ∧ t2.phase = .finished)
    ∧ (∀ t2 ∈ (runTrace reg (runTrace reg [] beh1 acts1).executed beh2 acts2).tasks,
        ∀ t2' ∈ (runTrace reg (runTrace reg [] beh1 acts1).executed beh2 acts2).tasks,
          t2.node = t2'.node → t2 = t2')
    ∧ (∀ t1 ∈ (runTrace reg [] beh1 acts1).tasks,
        ∀ t2 ∈ (runTrace reg (runTrace reg [] beh1 acts1).executed beh2 acts2).tasks,
          t1.node = t2.node → t1.id ∈ (runTrace reg [] beh1 acts1).executed →
            t2.invoked = false) := by
  have hinv1 : Inv reg beh1 [] (runTrace reg [] beh1 acts1) :=
    inv_runTrace hnodup List.nodup_nil hrk acts1
  have hinv2 : Inv reg beh2 (runTrace reg [] beh1 acts1).executed
      (runTrace reg (runTrace reg [] beh1 acts1).executed beh2 acts2) :=
    inv_runTrace hnodup hinv1.executedNodup hrk acts2
  have hstop2 : (runTrace reg (runTrace reg [] beh1 acts1).executed beh2 acts2).stop
      = false :=
    stop_false_of_no_fail hinv2 (fun u => behFails_false_of_success beh2 u (hbeh2 u))
  have habort2 : (runTrace reg (runTrace reg [] beh1 acts1).executed beh2 acts2).aborted
      = false :=
    aborted_false_of_no_raise hinv2 (fun u => behRaises_false_of_success beh2 u (hbeh2 u))
  refine ⟨?_, ?_, unique_task_of_nodes_nodup hinv2.nodesNodup, ?_⟩
  · intro t2 ht2 hf2
    exact ⟨finished_invoked_iff hinv2 t2 ht2 hf2,
      finished_checkpointed hinv2 t2 ht2 hf2 (hbeh2 t2.node)⟩
  · intro u hu
    rcases complete_covers hinv2 hrk hC2 hstop2 habort2 u (key_mem_imKeys reg u hu)
      with ⟨t2, ht2, htn, htf⟩
    exact ⟨t2, ht2, htn, htf⟩
  · intro t1 ht1 t2 ht2 hnode hmem
    cases hi : t2.invoked
    · rfl
    · exfalso
      have hfresh := hinv2.invokedFresh t2 ht2 hi
      rw [← hstable t1 ht1 t2 ht2 hnode] at hfresh
      exact hfresh hmem

/-- C5 counterexample: with the same diamond graph, node 2 fails in the first
run (so it is not checkpointed) and is therefore invoked AGAIN in the second
run — its `execute` runs in both attempts even though identity assignment is
stable — refuting "each node is executed exactly once across both runs". -/
theorem C5_counterexample :
    (⟨2, 3, 1, .finished, true⟩ : Task) ∈ (runTrace [(0, []), (1, [0]), (2, [0]), (3, [1, 2])]
      [] (fun n => .returns ⟨n != 2, none⟩)
      [.poll, .taskStart 0, .taskFinish 0, .poll, .taskStart 1, .taskStart 2,
        .taskFinish 1, .taskFinish 2, .poll]).tasks
    ∧ (⟨2, 3, 1, .finished, true⟩ : Task) ∈ (runTrace [(0, []), (1, [0]), (2, [0]), (3, [1, 2])]
        (runTrace [(0, []), (1, [0]), (2, [0]), (3, [1, 2])]
          [] (fun n => .returns ⟨n != 2, none⟩)
          [.poll, .taskStart 0, .taskFinish 0, .poll, .taskStart 1, .taskStart 2,
            .taskFinish 1, .taskFinish 2, .poll]).executed
        (fun _ => .returns ⟨true, none⟩)
        [.poll, .taskStart 0, .poll, .taskStart 1, .taskStart 2, .taskFinish 2, .poll,
          .taskStart 3, .taskFinish 3, .poll]).tasks
    ∧ (∀ t1 ∈ (runTrace [(0, []), (1, [0]), (2, [0]), (3, [1, 2])]
        [] (fun n => .returns ⟨n != 2, none⟩)
        [.poll, .taskStart 0, .taskFinish 0, .poll, .taskStart 1, .taskStart 2,
          .taskFinish 1, .taskFinish 2, .poll]).tasks,
        ∀ t2 ∈ (runTrace [(0, []), (1, [0]), (2, [0]), (3, [1, 2])]
          (runTrace [(0, []), (1, [0]), (2, [0]), (3, [1, 2])]
            [] (fun n => .returns ⟨n != 2, none⟩)
            [.poll, .taskStart 0, .taskFinish 0, .poll, .taskStart 1, .taskStart 2,
              .taskFinish 1, .taskFinish 2, .poll]).executed
          (fun _ => .returns ⟨true, none⟩)
          [.poll, .taskStart 0, .poll, .taskStart 1, .taskStart 2, .taskFinish 2, .poll,
            .taskStart 3, .taskFinish 3, .poll]).tasks,
          t1.node = t2.node → t1.id = t2.id) := by
  exact ⟨by decide, by decide, by decide⟩

end Tidydag

namespace Tidydag

theorem C5_resume_skip_witness :
    Complete (runTrace [(0, []), (1, [0]), (2, [0]), (3, [1, 2])]
      (runTrace [(0, []), (1, [0]), (2, [0]), (3, [1, 2])]
        [] (fun n => .returns ⟨n != 2, none⟩)
        [.poll, .taskStart 0, .taskFinish 0, .poll, .taskStart 1, .taskStart 2,
          .taskFinish 1, .taskFinish 2, .poll]).executed
      (fun _ => .returns ⟨true, none⟩)
      [.poll, .taskStart 0, .poll, .taskStart 1, .taskStart 2, .taskFinish 2, .poll,
        .taskStart 3, .taskFinish 3, .poll])
    ∧ (∀ t2 ∈ (runTrace [(0, []), (1, [0]), (2, [0]), (3, [1, 2])]
        (runTrace [(0, []), (1, [0]), (2, [0]), (3, [1, 2])]
          [] (fun n => .returns ⟨n != 2, none⟩)
          [.poll, .taskStart 0, .taskFinish 0, .poll, .taskStart 1, .taskStart 2,
            .taskFinish 1, .taskFinish 2, .poll]).executed
        (fun _ => .returns ⟨true, none⟩)
        [.poll, .taskStart 0, .poll, .taskStart 1, .taskStart 2, .taskFinish 2, .poll,
          .taskStart 3, .taskFinish 3, .poll]).tasks,
        t2.phase = .finished →
        (t2.invoked = true ↔ t2.id ∉ (runTrace [(0, []), (1, [0]), (2, [0]), (3, [1, 2])]
          [] (fun n => .returns ⟨n != 2, none⟩)
          [.poll, .taskStart 0, .taskFinish 0, .poll, .taskStart 1, .taskStart 2,
            .taskFinish 1, .taskFinish 2, .poll]).executed)
        ∧ t2.id ∈ (runTrace [(0, []), (1, [0]), (2, [0]), (3, [1, 2])]
          (runTrace [(0, []), (1, [0]), (2, [0]), (3, [1, 2])]
            [] (fun n => .returns ⟨n != 2, none⟩)
            [.poll, .taskStart 0, .taskFinish 0, .poll, .taskStart 1, .taskStart 2,
              .taskFinish 1, .taskFinish 2, .poll]).executed
          (fun _ => .returns ⟨true, none⟩)
          [.poll, .taskStart 0, .poll, .taskStart 1, .taskStart 2, .taskFinish 2, .poll,
            .taskStart 3, .taskFinish 3, .poll]).executed) :=
  ⟨by decide,
    (C5_resume_skip [(0, []), (1, [0]), (2, [0]), (3, [1, 2])]
      (fun n => .returns ⟨n != 2, none⟩) (fun _ => .returns ⟨true, none⟩)
      [.poll, .taskStart 0, .taskFinish 0, .poll, .taskStart 1, .taskStart 2,
        .taskFinish 1, .taskFinish 2, .poll]
      [.poll, .taskStart 0, .poll, .taskStart 1, .taskStart 2, .taskFinish 2, .poll,
        .taskStart 3, .taskFinish 3, .poll]
      (by decide) ⟨fun u => u, by decide⟩ (by decide) (fun u => rfl) (by decide)).1⟩

end Tidydag
